import Mathlib

/-!
Verification development for the anibridge-mappings mapping-fusion core.

Python strings are embedded as `List Char` (`Str`); Python `dict`s as
insertion-ordered association lists with replace-in-place assignment;
Python `set`s as duplicate-free lists with add-if-absent insertion.
Machine integers are embedded as `Int`/`Nat` (Python ints are unbounded).
Floating-point comparisons against `0.1` are embedded as exact rational
comparisons against `1/10`.
-/

set_option synthInstance.maxSize 1024
set_option maxHeartbeats 1000000

namespace AniBridge

abbrev Str := List Char

def strL (s : String) : Str := s.data

/-- ASCII whitespace as recognised by Python `str.strip` / `int`. -/
def pyIsSpace (c : Char) : Bool :=
  c = ' ' || c = '\t' || c = '\n' || c = '\r' || c = '\x0b' || c = '\x0c'

def pyStripLeft (s : Str) : Str := s.dropWhile pyIsSpace

def pyStripRight (s : Str) : Str := (s.reverse.dropWhile pyIsSpace).reverse

/-- Python `str.strip()` (ASCII whitespace model). -/
def pyStrip (s : Str) : Str := pyStripRight (pyStripLeft s)

def digitVal (c : Char) : Nat := c.toNat - 48

/-- Value of a decimal digit string (most significant digit first). -/
def digitsVal (s : Str) : Nat := s.foldl (fun acc c => acc * 10 + digitVal c) 0

/-- Digit-run parser for Python `int()`: digits with single underscores
allowed between digits. `acc` is the value of the digits consumed so far. -/
def pyIntDigitsGo (acc : Nat) : Str → Option Nat
  | [] => some acc
  | c :: rest =>
    if c.isDigit then pyIntDigitsGo (acc * 10 + digitVal c) rest
    else if c = '_' then
      match rest with
      | [] => none
      | d :: rest2 => if d.isDigit then pyIntDigitsGo (acc * 10 + digitVal d) rest2 else none
    else none

def pyIntDigits : Str → Option Nat
  | [] => none
  | c :: rest => if c.isDigit then pyIntDigitsGo (digitVal c) rest else none

/-- Python `int(str)`: strip whitespace, optional sign, decimal digits. -/
def pyInt (s : Str) : Option Int :=
  match pyStrip s with
  | [] => none
  | c :: rest =>
    if c = '-' then (pyIntDigits rest).map (fun n => -(n : Int))
    else if c = '+' then (pyIntDigits rest).map (fun n => (n : Int))
    else (pyIntDigits (c :: rest)).map (fun n => (n : Int))

/-- Python `str.isdigit()` (ASCII model). -/
def isDigitStr (s : Str) : Bool := !s.isEmpty && s.all Char.isDigit

/-- `_split_ratio` from utils/mapping.py: split a range key at the first
`|` into base range and ratio; `None` on empty, non-integer or zero ratio. -/
def splitRatioPart (s : Str) : Option (Str × Option Int) :=
  if '|' ∈ s then
    let base := s.takeWhile (fun x => x != '|')
    let ratioRaw := (s.dropWhile (fun x => x != '|')).tail
    if ratioRaw = [] then none
    else
      match pyInt ratioRaw with
      | none => none
      | some r => if r = 0 then none else some (base, some r)
  else some (s, none)

/-- `parse_range_bounds` from utils/mapping.py. -/
def parseRangeBounds (s : Str) : Option (Int × Option Int) :=
  if s = [] then none
  else
    let normalized := pyStrip s
    if normalized = [] then none
    else if ',' ∈ normalized then none
    else
      match splitRatioPart normalized with
      | none => none
      | some (base, _ratio) =>
        if '-' ∈ base then
          let left := base.takeWhile (fun x => x != '-')
          let right := (base.dropWhile (fun x => x != '-')).tail
          match pyInt left with
          | none => none
          | some start =>
            if right = [] then some (start, none)
            else
              match pyInt right with
              | none => none
              | some e => if start > e then some (e, some start) else some (start, some e)
        else
          match pyInt base with
          | none => none
          | some v => some (v, some v)

example : parseRangeBounds (strL "3-1") = some (1, some 3) := by decide
example : parseRangeBounds (strL " 7 ") = some (7, some 7) := by decide
example : parseRangeBounds (strL "4-") = some (4, none) := by decide
example : parseRangeBounds (strL "1,2") = none := by decide
example : parseRangeBounds (strL "3|0") = none := by decide
example : parseRangeBounds (strL "3|x") = none := by decide
example : parseRangeBounds (strL "3|") = none := by decide
example : parseRangeBounds (strL "3-6|2") = some (3, some 6) := by decide
example : parseRangeBounds (strL "  ") = none := by decide

/-! ### Metadata store (core/meta.py) -/

inductive SourceType where
  | tv
  | movie
deriving DecidableEq

/-- `SourceMeta` from core/meta.py (all fields default `None`). -/
structure SourceMeta where
  type : Option SourceType := none
  episodes : Option Int := none
  duration : Option Int := none
  startYear : Option Int := none
deriving DecidableEq

abbrev MetaKeyT := Str × Str × Option Str

/-- `MetaStore._store`: an insertion-ordered dict keyed by (provider, id, scope). -/
abbrev MetaStore := List (MetaKeyT × SourceMeta)

/-- Python dict assignment `d[k] = v`: replace in place, append if new. -/
def setAssoc {κ ν : Type} [DecidableEq κ] : List (κ × ν) → κ → ν → List (κ × ν)
  | [], k, v => [(k, v)]
  | (k0, v0) :: rest, k, v =>
    if k0 = k then (k0, v) :: rest else (k0, v0) :: setAssoc rest k v

/-- Python dict lookup `d.get(k)` (keys are unique in a dict, so first match). -/
def lookupA {κ ν : Type} [DecidableEq κ] : List (κ × ν) → κ → Option ν
  | [], _ => none
  | (k0, v0) :: rest, k => if k0 = k then some v0 else lookupA rest k

def emptyMeta : SourceMeta := {}

/-- `MetaStore.peek` in state-passing form: lookup, store untouched. -/
def storePeek (s : MetaStore) (k : MetaKeyT) : Option SourceMeta × MetaStore :=
  (lookupA s k, s)

/-- `MetaStore.get`: `self._store.setdefault(key, SourceMeta())`. -/
def storeGet (s : MetaStore) (k : MetaKeyT) : SourceMeta × MetaStore :=
  match lookupA s k with
  | some m => (m, s)
  | none => (emptyMeta, s ++ [(k, emptyMeta)])

/-- `MetaStore.merge`: `self._store.update(other._store)` — whole-record
replacement per key, iterating the other store in insertion order. -/
def storeMerge (s other : MetaStore) : MetaStore :=
  other.foldl (fun acc kv => setAssoc acc kv.1 kv.2) s

/-- `MappingAggregator._collect_metadata`: fold each source's store into an
initially empty store, in registration order. -/
def collectMetadata (results : List MetaStore) : MetaStore :=
  results.foldl storeMerge []

/-! ### Graph primitives (core/graph.py) -/

/-- `_BaseGraph`: node set (dict key insertion order) and directed adjacency
entries (`(a, b) ∈ adj` embeds `b in self._adj[a]`). The predecessor index
`_pred` is write-only bookkeeping for the operations verified here and is
omitted from the state. -/
structure BaseGraph (α : Type) where
  nodesList : List α
  adj : List (α × α)

def BaseGraph.empty {α : Type} : BaseGraph α := ⟨[], []⟩

/-- `_BaseGraph._ensure_node`. -/
def BaseGraph.ensureNode {α : Type} [DecidableEq α] (g : BaseGraph α) (a : α) : BaseGraph α :=
  if a ∈ g.nodesList then g else { g with nodesList := g.nodesList ++ [a] }

/-- Adding an element to a Python set: a no-op when already present. -/
def insertAdj {α : Type} [DecidableEq α] (l : List (α × α)) (e : α × α) : List (α × α) :=
  if e ∈ l then l else l ++ [e]

/-- `_BaseGraph.add_edge`: a self-loop only ensures the node; otherwise insert
`(a, b)` and, when bidirectional, `(b, a)`. -/
def BaseGraph.addEdge {α : Type} [DecidableEq α] (g : BaseGraph α) (a b : α)
    (bidirectional : Bool) : BaseGraph α :=
  if a = b then g.ensureNode a
  else
    let g1 := (g.ensureNode a).ensureNode b
    let adj2 := insertAdj g1.adj (a, b)
    let adj3 := if bidirectional then insertAdj adj2 (b, a) else adj2
    { g1 with adj := adj3 }

/-- `_BaseGraph.has_edge` (either direction). -/
def BaseGraph.hasEdge {α : Type} [DecidableEq α] (g : BaseGraph α) (a b : α) : Bool :=
  decide ((a, b) ∈ g.adj) || decide ((b, a) ∈ g.adj)

/-- `_BaseGraph.has_node`. -/
def BaseGraph.hasNode {α : Type} [DecidableEq α] (g : BaseGraph α) (a : α) : Bool :=
  decide (a ∈ g.nodesList)

/-- `_BaseGraph.remove_edge`: discard both directed entries. -/
def BaseGraph.removeEdge {α : Type} [DecidableEq α] (g : BaseGraph α) (a b : α) : BaseGraph α :=
  { g with adj := g.adj.filter (fun e => decide (e ≠ (a, b) ∧ e ≠ (b, a))) }

/-- `_BaseGraph.neighbors` (forward adjacency, in edge-insertion order). -/
def BaseGraph.neighborsList {α : Type} [DecidableEq α] (g : BaseGraph α) (a : α) : List α :=
  (g.adj.filter (fun e => decide (e.1 = a))).map (fun e => e.2)

/-- Termination universe for the BFS worklist: every queue element is a node
or an adjacency target. -/
def BaseGraph.univ {α : Type} (g : BaseGraph α) : List α :=
  g.nodesList ++ g.adj.map (fun e => e.2)

/-- `_BaseGraph.get_component` worklist (BFS): `queue` is the pending deque,
`visited` the accumulated component in first-visit order. -/
def bfsAux {α : Type} [DecidableEq α] (g : BaseGraph α) (queue visited : List α)
    (hq : ∀ x ∈ queue, x ∈ g.univ) : List α :=
  match queue with
  | [] => visited
  | n :: rest =>
    if hvis : n ∈ visited then
      bfsAux g rest visited (fun x hx => hq x (List.mem_cons_of_mem _ hx))
    else
      let visited2 := visited ++ [n]
      let newNbrs := (g.neighborsList n).filter (fun x => decide (x ∉ visited2))
      bfsAux g (rest ++ newNbrs) visited2 (by
        intro x hx
        rcases List.mem_append.mp hx with hx | hx
        · exact hq x (List.mem_cons_of_mem _ hx)
        · have hx2 : x ∈ g.neighborsList n := List.mem_of_mem_filter hx
          unfold BaseGraph.neighborsList at hx2
          rcases List.mem_map.mp hx2 with ⟨e, he, rfl⟩
          exact List.mem_append.mpr (Or.inr (List.mem_map.mpr ⟨e, List.mem_of_mem_filter he, rfl⟩)))
termination_by ((g.univ.filter (fun x => decide (x ∉ visited))).length, queue.length)
decreasing_by
  · exact Prod.Lex.right _ (by simp)
  · apply Prod.Lex.left
    have hn : n ∈ g.univ := hq n (List.mem_cons_self _ _)
    have hmono : List.Sublist (g.univ.filter (fun x => decide (x ∉ visited ++ [n])))
        (g.univ.filter (fun x => decide (x ∉ visited))) := by
      apply List.monotone_filter_right
      intro a ha
      simp only [decide_eq_true_eq, List.mem_append, List.mem_singleton] at *
      exact fun hmem => ha (Or.inl hmem)
    apply Nat.lt_of_le_of_ne hmono.length_le
    intro hlen
    have heq := hmono.eq_of_length hlen
    have hn1 : n ∈ g.univ.filter (fun x => decide (x ∉ visited)) :=
      List.mem_filter.mpr ⟨hn, by simpa using hvis⟩
    rw [← heq] at hn1
    have := List.mem_filter.mp hn1
    simp at this

/-- `_BaseGraph.get_component`: empty for a missing start node, else BFS. -/
def BaseGraph.getComponent {α : Type} [DecidableEq α] (g : BaseGraph α) (start : α) : List α :=
  if h : start ∈ g.nodesList then
    bfsAux g [start] [] (by
      intro x hx
      rcases List.mem_singleton.mp hx with rfl
      exact List.mem_append.mpr (Or.inl h))
  else []

/-- Directed reachability along adjacency entries (the relation traversed by
the BFS in `get_component`). -/
def BaseGraph.Reach {α : Type} (g : BaseGraph α) (a b : α) : Prop :=
  Relation.ReflTransGen (fun x y => (x, y) ∈ g.adj) a b

/-- Symmetric adjacency: every episode/identifier edge added through the
bidirectional code paths appears in both directions. -/
def BaseGraph.Symm {α : Type} (g : BaseGraph α) : Prop :=
  ∀ a b : α, (a, b) ∈ g.adj → (b, a) ∈ g.adj

/-! ### Episode graph with provenance (core/graph.py) -/

abbrev IdNodeT := Str × Str × Option Str

abbrev EpisodeNode := Str × Str × Option Str × Str

/-- Range label of an episode node. -/
def rangeOf (n : EpisodeNode) : Str := n.2.2.2

/-- Lexicographic comparison of Python strings (code-point order). -/
def strLt : Str → Str → Bool
  | [], [] => false
  | [], _ :: _ => true
  | _ :: _, [] => false
  | a :: as, b :: bs => if a = b then strLt as bs else decide (a.toNat < b.toNat)

abbrev NodeKeyT := Str × Str × Str × Str

/-- `EpisodeMappingGraph._node_key`. -/
def nodeKey (n : EpisodeNode) : NodeKeyT :=
  (n.1, n.2.1, (n.2.2.1).getD [], n.2.2.2)

/-- Python tuple `<` on 4-tuples of strings. -/
def keyLt (x y : NodeKeyT) : Bool :=
  strLt x.1 y.1 ||
    (x.1 = y.1 &&
      (strLt x.2.1 y.2.1 ||
        (x.2.1 = y.2.1 &&
          (strLt x.2.2.1 y.2.2.1 ||
            (x.2.2.1 = y.2.2.1 && strLt x.2.2.2 y.2.2.2)))))

/-- `EpisodeMappingGraph._edge_key`: the stable two-element sort of `(a, b)`. -/
def edgeKey (a b : EpisodeNode) : EpisodeNode × EpisodeNode :=
  if keyLt (nodeKey b) (nodeKey a) then (b, a) else (a, b)

/-- `sorted(..., key=_node_key)` order on episode nodes. -/
def nodeLe (a b : EpisodeNode) : Bool := !keyLt (nodeKey b) (nodeKey a)

/-- Stable insertion into a sorted list. -/
def insertSorted {α : Type} (le : α → α → Bool) (x : α) : List α → List α
  | [] => [x]
  | y :: ys => if le x y then x :: y :: ys else y :: insertSorted le x ys

/-- `sorted(nodes, key=_node_key)`. -/
def sortNodes (l : List EpisodeNode) : List EpisodeNode :=
  l.foldr (insertSorted nodeLe) []

abbrev DetailsT := List (Str × Str)

/-- `ProvenanceContext` from core/graph.py (detail values embedded as strings). -/
structure ProvenanceContext where
  stage : Str
  actor : Option Str := none
  reason : Option Str := none
  details : Option DetailsT := none
deriving DecidableEq

/-- `ProvenanceEvent` from core/graph.py. -/
structure ProvenanceEvent where
  seq : Nat
  action : Str
  stage : Str
  actor : Option Str
  reason : Option Str
  effective : Bool
  details : Option DetailsT := none
deriving DecidableEq

/-- `EpisodeMappingGraph`: base graph plus provenance bookkeeping. -/
structure EpisodeGraph where
  base : BaseGraph EpisodeNode
  provenance : List ((EpisodeNode × EpisodeNode) × List ProvenanceEvent)
  provenanceSeq : Nat
  provenanceContext : Option ProvenanceContext

def EpisodeGraph.empty : EpisodeGraph := ⟨BaseGraph.empty, [], 0, none⟩

/-- Detail-merging in `_record_event` (empty dicts are falsy; call wins). -/
def mergeDetails (ctxd calld : Option DetailsT) : Option DetailsT :=
  let merged : Option DetailsT :=
    match ctxd with
    | some d => if d = [] then none else some d
    | none => none
  match calld with
  | some d2 =>
    if d2 = [] then merged
    else some (d2.foldl (fun acc kv => setAssoc acc kv.1 kv.2) (merged.getD []))
  | none => merged

/-- `self._provenance.setdefault(key, []).append(event)`. -/
def provAppend (l : List ((EpisodeNode × EpisodeNode) × List ProvenanceEvent))
    (k : EpisodeNode × EpisodeNode) (ev : ProvenanceEvent) :
    List ((EpisodeNode × EpisodeNode) × List ProvenanceEvent) :=
  match l with
  | [] => [(k, [ev])]
  | (k0, evs) :: rest =>
    if k0 = k then (k0, evs ++ [ev]) :: rest else (k0, evs) :: provAppend rest k ev

/-- The event assembled by `_record_event` (the explicit context wins over
the scoped default; `stage` falls back to `"unknown"`). -/
def mkEvent (g : EpisodeGraph) (action : Str) (context : Option ProvenanceContext)
    (effective : Bool) (details : Option DetailsT) : ProvenanceEvent :=
  let ctx := match context with | some c => some c | none => g.provenanceContext
  { seq := g.provenanceSeq + 1, action := action,
    stage := match ctx with | some c => c.stage | none => strL "unknown",
    actor := match ctx with | some c => c.actor | none => none,
    reason := match ctx with | some c => c.reason | none => none,
    effective := effective,
    details := mergeDetails (match ctx with | some c => c.details | none => none) details }

/-- `EpisodeMappingGraph._record_event`. -/
def EpisodeGraph.recordEvent (g : EpisodeGraph) (action : Str) (a b : EpisodeNode)
    (context : Option ProvenanceContext) (effective : Bool)
    (details : Option DetailsT) : EpisodeGraph :=
  { g with
    provenance := provAppend g.provenance (edgeKey a b)
      (mkEvent g action context effective details),
    provenanceSeq := g.provenanceSeq + 1 }

/-- All events recorded against the canonical key of an edge. -/
def EpisodeGraph.eventsOf (g : EpisodeGraph) (a b : EpisodeNode) : List ProvenanceEvent :=
  (lookupA g.provenance (edgeKey a b)).getD []

/-- `EpisodeMappingGraph.add_edge`. -/
def EpisodeGraph.addEdge (g : EpisodeGraph) (a b : EpisodeNode) (bidirectional : Bool)
    (provenance : Option ProvenanceContext) (details : Option DetailsT) : EpisodeGraph :=
  let existed := g.base.hasEdge a b
  let g2 : EpisodeGraph := { g with base := g.base.addEdge a b bidirectional }
  g2.recordEvent (strL "add") a b provenance (!existed) details

/-- `EpisodeMappingGraph.remove_edge`. -/
def EpisodeGraph.removeEdge (g : EpisodeGraph) (a b : EpisodeNode)
    (provenance : Option ProvenanceContext) (details : Option DetailsT) : EpisodeGraph :=
  let existed := g.base.hasEdge a b
  let g2 : EpisodeGraph := { g with base := g.base.removeEdge a b }
  g2.recordEvent (strL "remove") a b provenance existed details

/-- `any(c in (",", "|") for c in range_label)`. -/
def hasMarker (s : Str) : Bool := s.any (fun c => c = ',' || c = '|')

/-- Inner loop of `add_transitive_edges`: try to connect `s` to each later
node of the sorted component. -/
def transInner (ctx : Option ProvenanceContext) (s : EpisodeNode) :
    EpisodeGraph → Nat → List EpisodeNode → EpisodeGraph × Nat
  | g, added, [] => (g, added)
  | g, added, t :: rest =>
    if (s, t) ∈ g.base.adj then transInner ctx s g added rest
    else if hasMarker (rangeOf s) || hasMarker (rangeOf t) then transInner ctx s g added rest
    else transInner ctx s (g.addEdge s t true ctx none) (added + 1) rest

/-- Double loop of `add_transitive_edges` over the sorted component. -/
def transPairs (ctx : Option ProvenanceContext) :
    EpisodeGraph → Nat → List EpisodeNode → EpisodeGraph × Nat
  | g, added, [] => (g, added)
  | g, added, s :: rest =>
    let p := transInner ctx s g added rest
    transPairs ctx p.1 p.2 rest

/-- Outer loop of `add_transitive_edges` over the node snapshot. -/
def transOuter (ctx : Option ProvenanceContext) :
    EpisodeGraph → List EpisodeNode → Nat → List EpisodeNode → EpisodeGraph × Nat
  | g, _, added, [] => (g, added)
  | g, visited, added, n :: rest =>
    if n ∈ visited then transOuter ctx g visited added rest
    else
      let comp := g.base.getComponent n
      let visited2 := visited ++ comp
      if comp.length < 2 then transOuter ctx g visited2 added rest
      else
        let p := transPairs ctx g added (sortNodes comp)
        transOuter ctx p.1 visited2 p.2 rest

/-- `EpisodeMappingGraph.add_transitive_edges`: returns the mutated graph and
the number of edges added. -/
def EpisodeGraph.addTransitiveEdges (g : EpisodeGraph) (ctx : Option ProvenanceContext) :
    EpisodeGraph × Nat :=
  transOuter ctx g [] 0 g.base.nodesList

/-! ### Source-target projection (utils/mapping.py) -/

/-- `normalize_episode_key`. -/
def normalizeEpisodeKey (v : Str) : Option Str :=
  if v = [] then none
  else
    let trimmed := pyStrip v
    if trimmed = [] then none else some trimmed

abbrev RangeBucket := List (Str × List Str)

abbrev TargetBucket := List (IdNodeT × RangeBucket)

abbrev SourceTargetMap := List (IdNodeT × TargetBucket)

/-- Python set add. -/
def addToSet (l : List Str) (x : Str) : List Str := if x ∈ l then l else l ++ [x]

/-- `target_bucket.setdefault(source_range, set()).add(target_range)`. -/
def rangeBucketAdd : RangeBucket → Str → Str → RangeBucket
  | [], sr, tr => [(sr, [tr])]
  | (k, vs) :: rest, sr, tr =>
    if k = sr then (k, addToSet vs tr) :: rest else (k, vs) :: rangeBucketAdd rest sr tr

/-- `source_bucket.setdefault(target_scope, {})` then range insertion. -/
def targetBucketAdd : TargetBucket → IdNodeT → Str → Str → TargetBucket
  | [], tgt, sr, tr => [(tgt, [(sr, [tr])])]
  | (k, b) :: rest, tgt, sr, tr =>
    if k = tgt then (k, rangeBucketAdd b sr tr) :: rest
    else (k, b) :: targetBucketAdd rest tgt sr tr

/-- `source_mappings.setdefault(source_scope, {})` then target insertion. -/
def stmAdd : SourceTargetMap → IdNodeT → IdNodeT → Str → Str → SourceTargetMap
  | [], src, tgt, sr, tr => [(src, [(tgt, [(sr, [tr])])])]
  | (k, b) :: rest, src, tgt, sr, tr =>
    if k = src then (k, targetBucketAdd b tgt sr tr) :: rest
    else (k, b) :: stmAdd rest src tgt sr tr

/-- Body of the neighbor loop in `build_source_target_map`. -/
def stmVisitNeighbor (node : EpisodeNode) (srcRange : Str) (m : SourceTargetMap)
    (neighbor : EpisodeNode) : SourceTargetMap :=
  if neighbor = node then m
  else if node.1 = neighbor.1 ∧ node.2.1 = neighbor.2.1 ∧ node.2.2.1 = neighbor.2.2.1 then m
  else
    match normalizeEpisodeKey (rangeOf neighbor) with
    | none => m
    | some targetRange =>
      stmAdd m (node.1, node.2.1, node.2.2.1) (neighbor.1, neighbor.2.1, neighbor.2.2.1)
        srcRange targetRange

/-- `build_source_target_map` from utils/mapping.py. -/
def buildSourceTargetMap (g : BaseGraph EpisodeNode) : SourceTargetMap :=
  (sortNodes g.nodesList).foldl (fun m node =>
    match normalizeEpisodeKey (rangeOf node) with
    | none => m
    | some srcRange =>
      (sortNodes (g.neighborsList node)).foldl (stmVisitNeighbor node srcRange) m) []

/-! ### Metadata-driven inference (core/inference.py) -/

/-- Python truthiness of an optional int (`None` and `0` are falsy). -/
def truthy : Option Int → Bool
  | none => false
  | some v => decide (v ≠ 0)

/-- `_relative_delta`, embedded over exact rationals (the Python float
division is idealised as exact division; the `0.1` threshold as `1/10`). -/
def relativeDelta : Option Int → Option Int → ℚ
  | none, _ => -1
  | _, none => -1
  | some a, some b =>
    if a = 0 ∧ b = 0 then 0
    else
      let denominator : Nat := max a.natAbs b.natAbs
      if denominator = 0 then 0 else ((a - b).natAbs : ℚ) / (denominator : ℚ)

/-- `_meta_match` from core/inference.py. -/
def metaMatch (m1 m2 : SourceMeta) : Bool :=
  if m1.type ≠ m2.type then false
  else if m1.episodes ≠ m2.episodes then false
  else
    let y1 := m1.startYear
    let y2 := m2.startYear
    if m1.type = some SourceType.movie ∧ (¬truthy y1 ∨ ¬truthy y2 ∨ y1 ≠ y2) then false
    else if m1.type = some SourceType.tv ∧ (truthy y1 ∧ truthy y2) ∧ y1 ≠ y2 then false
    else
      let d1 := m1.duration
      let d2 := m2.duration
      let relD := relativeDelta d1 d2
      if m1.type = some SourceType.movie ∧ (¬truthy d1 ∨ ¬truthy d2 ∨ relD > 1/10) then false
      else if m1.type = some SourceType.tv ∧ (truthy d1 ∧ truthy d2) ∧ relD > 1/10 then false
      else true

def intStr (i : Int) : Str := (toString i).data

/-- `_range_from_meta_key` (only the episode count is consulted). -/
def rangeFromEpisodes : Option Int → Option Str
  | none => none
  | some e => if e ≤ 0 then none else if e = 1 then some (strL "1") else some (strL "1-" ++ intStr e)

/-- `_iter_components` worklist over the node snapshot. -/
def iterComponentsAux (g : BaseGraph IdNodeT) : List IdNodeT → List IdNodeT → List (List IdNodeT)
  | [], _ => []
  | n :: rest, visited =>
    if n ∈ visited then iterComponentsAux g rest visited
    else
      let comp := g.getComponent n
      comp :: iterComponentsAux g rest (visited ++ comp)

/-- `_iter_components` from core/inference.py. -/
def iterComponents (g : BaseGraph IdNodeT) : List (List IdNodeT) :=
  iterComponentsAux g g.nodesList []

/-- Per-component gathering of `(meta, node)` with usable episode counts. -/
def metaNodesOf (store : MetaStore) (component : List IdNodeT) : List (SourceMeta × IdNodeT) :=
  component.filterMap (fun node =>
    match lookupA store node with
    | none => none
    | some m =>
      match m.episodes with
      | none => none
      | some e => if e ≤ 0 then none else some (m, node))

/-- `itertools.combinations(l, 2)` in order. -/
def listPairs {β : Type} : List β → List (β × β)
  | [] => []
  | x :: rest => rest.map (fun y => (x, y)) ++ listPairs rest

/-- Body of the pair loop in `infer_episode_mappings`. -/
def inferFold (g : EpisodeGraph) (pr : (SourceMeta × IdNodeT) × (SourceMeta × IdNodeT)) :
    EpisodeGraph :=
  if metaMatch pr.1.1 pr.2.1 then
    match rangeFromEpisodes pr.1.1.episodes with
    | none => g
    | some er =>
      g.addEdge (pr.1.2.1, pr.1.2.2.1, pr.1.2.2.2, er) (pr.2.2.1, pr.2.2.2.1, pr.2.2.2.2, er)
        true none none
  else g

/-- `infer_episode_mappings` from core/inference.py. -/
def inferEpisodeMappings (store : MetaStore) (idg : BaseGraph IdNodeT) : EpisodeGraph :=
  (iterComponents idg).foldl (fun acc comp =>
    (listPairs (metaNodesOf store comp)).foldl inferFold acc) EpisodeGraph.empty

/-! ### Edits overlay (core/edits.py) -/

abbrev ScopeT := IdNodeT

/-- Python `str.split(sep)` for a single-character separator. -/
def splitCh (sep : Char) : Str → List Str
  | [] => [[]]
  | c :: rest =>
    let r := splitCh sep rest
    if c = sep then [] :: r
    else
      match r with
      | [] => [[c]]
      | h :: t => (c :: h) :: t

/-- `_parse_descriptor` from core/edits.py. -/
def parseDescriptor (descriptor : Str) : Except Str ScopeT :=
  match splitCh ':' descriptor with
  | [provider, entryId] =>
    if provider = strL "anidb" then .ok (provider, entryId, some (strL "R"))
    else .ok (provider, entryId, none)
  | [p, i, sc] => .ok (p, i, some sc)
  | _ => .error (strL "Invalid descriptor" ++ descriptor)

abbrev ScopeIndex := List (ScopeT × List EpisodeNode)

/-- Scope triple of an episode node. -/
def scopeOf (n : EpisodeNode) : ScopeT := (n.1, n.2.1, n.2.2.1)

/-- `index.setdefault(scope, set()).add(node)`. -/
def indexAdd (idx : ScopeIndex) (sc : ScopeT) (n : EpisodeNode) : ScopeIndex :=
  match idx with
  | [] => [(sc, [n])]
  | (k, ns) :: rest =>
    if k = sc then (k, if n ∈ ns then ns else ns ++ [n]) :: rest
    else (k, ns) :: indexAdd rest sc n

/-- `_build_scope_index`. -/
def buildScopeIndex (g : EpisodeGraph) : ScopeIndex :=
  g.base.nodesList.foldl (fun idx n => indexAdd idx (scopeOf n) n) []

/-- `scope_index.get(scope, set())`. -/
def indexGet (idx : ScopeIndex) (sc : ScopeT) : List EpisodeNode :=
  (lookupA idx sc).getD []

/-- Provenance context used when clearing prior links. -/
def clearCtx (srcD tgtD srcRange tgtRange : Str) : ProvenanceContext :=
  { stage := strL "Manual overrides: clear prior links"
    actor := some (strL "Manual edit overrides (mappings.edits.yaml)")
    reason := some (strL "Cleared existing links before explicit replacement")
    details := some [(strL "source_descriptor", srcD), (strL "target_descriptor", tgtD),
      (strL "source_range", srcRange), (strL "target_range", tgtRange)] }

/-- Provenance context used when adding replacement links. -/
def addCtx (srcD tgtD srcRange tgtRange : Str) : ProvenanceContext :=
  { stage := strL "Manual overrides: add replacement links"
    actor := some (strL "Manual edit overrides (mappings.edits.yaml)")
    reason := some (strL "Added explicit replacement mapping from the edits file")
    details := some [(strL "source_descriptor", srcD), (strL "target_descriptor", tgtD),
      (strL "source_range", srcRange), (strL "target_range", tgtRange)] }

/-- Inner loop of `_clear_source_target_ranges` for one source node: remove
its edges into the target node set. -/
def clearOne (tgtNodes : List EpisodeNode) (srcD tgtD : Str) (g : EpisodeGraph)
    (src : EpisodeNode) : EpisodeGraph :=
  (g.base.neighborsList src).foldl (fun g2 nb =>
    if nb ∈ tgtNodes then
      g2.removeEdge src nb (some (clearCtx srcD tgtD (rangeOf src) (rangeOf nb))) none
    else g2) g

/-- `_clear_source_target_ranges`. -/
def clearRanges (g : EpisodeGraph) (srcNodes tgtNodes : List EpisodeNode)
    (srcD tgtD : Str) : EpisodeGraph :=
  if srcNodes = [] ∨ tgtNodes = [] then g
  else srcNodes.foldl (clearOne tgtNodes srcD tgtD) g

/-- `_apply_replace`. -/
def applyReplace (g : EpisodeGraph) (source target : ScopeT) (ranges : List (Str × Str))
    (idx : ScopeIndex) (srcD tgtD : Str) : EpisodeGraph × ScopeIndex :=
  let srcNodes := indexGet idx source
  let tgtNodes := indexGet idx target
  let g1 := clearRanges g srcNodes tgtNodes srcD tgtD
  if ranges = [] then (g1, idx)
  else
    ranges.foldl (fun (p : EpisodeGraph × ScopeIndex) kv =>
      let srcNode : EpisodeNode := (source.1, source.2.1, source.2.2, kv.1)
      let tgtNode : EpisodeNode := (target.1, target.2.1, target.2.2, kv.2)
      let g2 := p.1.addEdge srcNode tgtNode true (some (addCtx srcD tgtD kv.1 kv.2)) none
      (g2, indexAdd (indexAdd p.2 source srcNode) target tgtNode)) (g1, idx)

/-- Key starts with `$`. -/
def startsDollar : Str → Bool
  | '$' :: _ => true
  | _ => false

abbrev EditsDoc := List (Str × List (Str × List (Str × Str)))

/-- Target loop of `apply_edits` for one source descriptor. -/
def applyTargets (source : ScopeT) (srcD : Str) :
    EpisodeGraph → ScopeIndex → List Str → List (Str × List (Str × Str)) →
    Except Str (EpisodeGraph × ScopeIndex)
  | g, idx, _, [] => .ok (g, idx)
  | g, idx, processed, (tgtD, config) :: rest =>
    if startsDollar tgtD then applyTargets source srcD g idx processed rest
    else if tgtD ∈ processed then .error (strL "Duplicate target")
    else
      match parseDescriptor tgtD with
      | .error e => .error e
      | .ok target =>
        let ranges := config.filter (fun kv => !startsDollar kv.1)
        let p := applyReplace g source target ranges idx srcD tgtD
        applyTargets source srcD p.1 p.2 (processed ++ [tgtD]) rest

/-- Source loop of `apply_edits`. -/
def applyEditsAux : EpisodeGraph → ScopeIndex → List ScopeT → EditsDoc →
    Except Str (EpisodeGraph × List ScopeT)
  | g, _, edited, [] => .ok (g, edited)
  | g, idx, edited, (srcD, targets) :: rest =>
    if startsDollar srcD then applyEditsAux g idx edited rest
    else
      match parseDescriptor srcD with
      | .error e => .error e
      | .ok source =>
        match applyTargets source srcD g idx [] targets with
        | .error e => .error e
        | .ok (g2, idx2) =>
          applyEditsAux g2 idx2 (if source ∈ edited then edited else edited ++ [source]) rest

/-- `apply_edits` from core/edits.py. -/
def applyEdits (g : EpisodeGraph) (edits : EditsDoc) : Except Str (EpisodeGraph × List ScopeT) :=
  applyEditsAux g (buildScopeIndex g) [] edits

/-! ### Collapse of source mappings (utils/mapping.py) -/

/-- `",".join(parts)`. -/
def joinComma (l : List Str) : Str := List.intercalate [','] l

/-- `range(s, e + 1)` over Python ints. -/
def intRangeList (s e : Int) : List Int := (List.range (e + 1 - s).toNat).map (fun k => s + k)

/-- Insert into a sorted duplicate-free list of ints. -/
def insertSortedUniqueInt (x : Int) : List Int → List Int
  | [] => [x]
  | y :: ys => if x < y then x :: y :: ys else if x = y then y :: ys else y :: insertSortedUniqueInt x ys

/-- `sorted(set_of_ints)`. -/
def sortedUniqueInts (l : List Int) : List Int :=
  l.foldl (fun acc x => insertSortedUniqueInt x acc) []

/-- Union of two sorted duplicate-free int lists. -/
def unionSorted (u v : List Int) : List Int :=
  v.foldl (fun acc x => insertSortedUniqueInt x acc) u

/-- `_expand_numeric_targets`. -/
def expandNumericTargets (values : List Str) : List Int :=
  sortedUniqueInts (values.foldl (fun acc value =>
    match parseRangeBounds value with
    | some (b0, some b1) => acc ++ intRangeList b0 b1
    | _ => if isDigitStr value then acc ++ [(digitsVal value : Int)] else acc) [])

/-- `_is_contiguous`. -/
def isContiguous : List Int → Bool
  | [] => true
  | [_] => true
  | a :: b :: rest => b = a + 1 && isContiguous (b :: rest)

/-- `_format_range`. -/
def formatRange (s e : Int) : Str := if s = e then intStr s else intStr s ++ '-' :: intStr e

/-- Run accumulator of `_compress_ranges`. -/
def compressGo (start prev : Int) : List Int → List Str
  | [] => [formatRange start prev]
  | current :: rest =>
    if current = prev + 1 then compressGo start current rest
    else formatRange start prev :: compressGo current current rest

/-- `_compress_ranges`. -/
def compressRanges : List Int → List Str
  | [] => []
  | v :: rest => compressGo v v rest

/-- First-occurrence deduplication (Python set contents). -/
def listDedupStr (l : List Str) : List Str :=
  l.foldl (fun acc x => if x ∈ acc then acc else acc ++ [x]) []

/-- `sorted(strings)` ascending. -/
def sortStrs (l : List Str) : List Str :=
  l.foldr (insertSorted (fun a b => !strLt b a)) []

/-- `_format_special_targets`. -/
def formatSpecialTargets (targets : List Str) : Str :=
  let numeric := sortedUniqueInts ((targets.filter isDigitStr).map (fun v => (digitsVal v : Int)))
  if numeric ≠ [] then joinComma (compressRanges numeric)
  else joinComma (sortStrs (listDedupStr targets))

/-- Unit record built by `_build_units` (a dict of ints in the source). -/
structure UnitRec where
  sourceStart : Int
  sourceEnd : Int
  sourceLen : Int
  targetStart : Int
  targetEnd : Int
  targetLen : Int
  ratioSign : Int
deriving DecidableEq

def defaultUnit : UnitRec := ⟨0, 0, 0, 0, 0, 0, 1⟩

def lookupIntList (cs : List (Int × List Int)) (k : Int) : List Int := (lookupA cs k).getD []

/-- Maximal runs of consecutive sources with identical target lists
(the grouping performed by the scanning loop of `_build_units`). -/
def splitRunsR (cs : List (Int × List Int)) (l : List Int) : List (List Int) :=
  l.foldr (fun k acc =>
    match acc with
    | (k2 :: grp) :: grps =>
      if k2 = k + 1 ∧ lookupIntList cs k2 = lookupIntList cs k then (k :: k2 :: grp) :: grps
      else [k] :: (k2 :: grp) :: grps
    | _ => [[k]]) []

/-- `_build_units`. -/
def buildUnits (cs : List (Int × List Int)) : List UnitRec :=
  (splitRunsR cs (sortedUniqueInts (cs.map (fun kv => kv.1)))).map (fun grp =>
    let k := grp.headD 0
    let lastKey := grp.getLastD 0
    let targets := lookupIntList cs k
    let sourceLen : Int := (grp.length : Int)
    let targetLen : Int := (targets.length : Int)
    { sourceStart := k, sourceEnd := lastKey, sourceLen := sourceLen,
      targetStart := targets.headD 0, targetEnd := targets.getLastD 0,
      targetLen := targetLen,
      ratioSign := if targetLen ≥ sourceLen then 1 else -1 })

/-- `_can_merge_unit`. -/
def canMergeUnit (prev nxt : UnitRec) : Bool :=
  if nxt.sourceStart ≠ prev.sourceEnd + 1 then false
  else if nxt.ratioSign ≠ prev.ratioSign then false
  else if prev.ratioSign = 1 then
    nxt.targetLen = prev.targetLen && nxt.targetStart = prev.targetEnd + 1
  else
    nxt.targetLen = prev.targetLen && nxt.sourceLen = prev.sourceLen &&
      nxt.targetStart = prev.targetStart + prev.targetLen

/-- `_merge_units`: maximal runs of pairwise-mergeable adjacent units. -/
def splitSegmentsR (units : List UnitRec) : List (List UnitRec) :=
  units.foldr (fun u acc =>
    match acc with
    | (v :: seg) :: segs =>
      if canMergeUnit u v then (u :: v :: seg) :: segs else [u] :: (v :: seg) :: segs
    | _ => [[u]]) []

/-- `_compute_ratio` (Python `%` and `//` are floor-based). -/
def computeRatioFn (sourceLen targetLen : Int) : Option Int :=
  if targetLen = sourceLen then none
  else
    let p : Int × Int × Int :=
      if targetLen > sourceLen then (targetLen, sourceLen, 1) else (sourceLen, targetLen, -1)
    if p.2.1 = 0 ∨ Int.fmod p.1 p.2.1 ≠ 0 then none
    else some (p.2.2 * Int.fdiv p.1 p.2.1)

/-- `_format_target_with_ratio`. -/
def formatTargetWithRatio (s e : Int) (r : Option Int) : Str :=
  let base := formatRange s e
  match r with
  | none => base
  | some rv => if rv = 1 then base else base ++ '|' :: intStr rv

/-- `_collapse_numeric_entries`. -/
def collapseNumericEntries (entries : List ((Int × Int) × List Str)) : List (Str × Str) :=
  let perSource := entries.foldl (fun ps kv =>
    let sourceStart := kv.1.1
    let sourceEnd := kv.1.2
    let targetValues := kv.2
    let sourceValues := intRangeList sourceStart sourceEnd
    if sourceValues = [] then ps
    else
      let numericTargets := expandNumericTargets targetValues
      if numericTargets = [] then ps
      else if sourceValues.length = 1 then setAssoc ps sourceStart numericTargets
      else if numericTargets.length ≠ sourceValues.length then ps
      else (List.zip sourceValues numericTargets).foldl
        (fun ps2 z => setAssoc ps2 z.1 [z.2]) ps) []
  if perSource = [] then []
  else
    let contiguousSources := perSource.filter (fun kv => isContiguous kv.2)
    let nonContiguousSources := perSource.filter (fun kv => !isContiguous kv.2)
    let mapping1 := nonContiguousSources.foldl
      (fun m kv => setAssoc m (intStr kv.1) (joinComma (compressRanges kv.2))) []
    if contiguousSources = [] then mapping1
    else
      let units := buildUnits contiguousSources
      let segments := splitSegmentsR units
      segments.foldl (fun m segment =>
        let sourceStart := (segment.headD defaultUnit).sourceStart
        let sourceEnd := (segment.getLastD defaultUnit).sourceEnd
        let sourceLen := (segment.map (fun u => u.sourceLen)).sum
        let targetStart := (segment.headD defaultUnit).targetStart
        let targetEnd := (segment.getLastD defaultUnit).targetEnd
        let targetLen := targetEnd - targetStart + 1
        let ratio := computeRatioFn sourceLen targetLen
        setAssoc m (formatRange sourceStart sourceEnd)
          (formatTargetWithRatio targetStart targetEnd ratio)) mapping1

/-- `_parse_source_key`. -/
def parseSourceKey (key : Str) : Option (Int × Int) :=
  if '|' ∈ key ∨ ',' ∈ key then none
  else
    match parseRangeBounds key with
    | none => none
    | some (_, none) => none
    | some (s, some e) => some (s, e)

/-- `_format_source_key`. -/
def formatSourceKey (s e : Int) : Str := if s = e then intStr s else intStr s ++ '-' :: intStr e

/-- Stable sort of `(start, end, value)` rows by start. -/
def sortIntItems (l : List (Int × Int × Str)) : List (Int × Int × Str) :=
  l.foldr (insertSorted (fun a b => decide (a.1 ≤ b.1))) []

/-- Aggressive scan of `_merge_adjacent_numeric_keys`: find the first prefix
of a contiguous episode run whose target union is a contiguous range of the
same cardinality; returns (consumed, last episode, formatted union key). -/
def aggGo : List Int → Nat → Option Int → List (Int × Str × List Int) → Option (Nat × Int × Str)
  | _, _, _, [] => none
  | unionSet, count, prevEp, (ep, _, expanded) :: rest =>
    if (match prevEp with | some p => decide (ep ≠ p + 1) | none => false) then none
    else
      let union2 := unionSorted unionSet expanded
      let count2 := count + 1
      if union2 = [] then aggGo union2 count2 (some ep) rest
      else
        let umin := union2.headD 0
        let umax := union2.getLastD 0
        if umax - umin + 1 = (union2.length : Int) ∧ union2.length = count2 then
          some (count2, ep, formatSourceKey umin umax)
        else aggGo union2 count2 (some ep) rest

/-- Fallback scan: maximal run of consecutive episodes with byte-identical
formatted target specs; returns (run end, consumed). -/
def fallbackScan (curVal : Str) : Int → Nat → List (Int × Str × List Int) → Int × Nat
  | runEnd, k, [] => (runEnd, k)
  | runEnd, k, (ep, val, _) :: rest =>
    if ep = runEnd + 1 ∧ val = curVal then fallbackScan curVal ep (k + 1) rest
    else (runEnd, k)

/-- Main `while idx < n` loop of `_merge_adjacent_numeric_keys`; each
iteration consumes at least one episode row, so `fuel = rows` suffices. -/
def mergeAdjLoop : Nat → List (Int × Str × List Int) → List (Int × Int × Str)
  | 0, _ => []
  | _, [] => []
  | fuel + 1, eps@((ep0, val0, _) :: _) =>
    match aggGo [] 0 none eps with
    | some (count, lastEp, key) => (ep0, lastEp, key) :: mergeAdjLoop fuel (eps.drop count)
    | none =>
      let fb := fallbackScan val0 ep0 1 eps.tail
      (ep0, fb.1, val0) :: mergeAdjLoop fuel (eps.drop fb.2)

/-- `_merge_adjacent_numeric_keys`. -/
def mergeAdjacentNumericKeys (mapping : List (Str × Str)) : List (Str × Str) :=
  let others := mapping.filter (fun kv => (parseSourceKey kv.1).isNone)
  let numericItems := mapping.filterMap (fun kv =>
    (parseSourceKey kv.1).map (fun b => (b.1, b.2, kv.2)))
  if numericItems = [] then mapping
  else
    let episodes := (sortIntItems numericItems).foldl (fun eps item =>
      eps ++ (intRangeList item.1 item.2.1).map (fun ep =>
        let pieces := listDedupStr (((splitCh ',' item.2.2).map pyStrip).filter (fun p => p ≠ []))
        (ep, item.2.2, expandNumericTargets pieces))) []
    let outEntries := mergeAdjLoop episodes.length episodes
    let out := outEntries.foldl (fun m t => setAssoc m (formatSourceKey t.1 t.2.1) t.2.2) []
    others.foldl (fun m kv => setAssoc m kv.1 kv.2) out

/-- Classification loop of `collapse_source_mappings` for one source part. -/
def classifyPart (targetRanges : List Str)
    (acc : List ((Int × Int) × List Str) × List (Str × List Str)) (part : Str) :
    List ((Int × Int) × List Str) × List (Str × List Str) :=
  if '|' ∈ part then (acc.1, setAssoc acc.2 part targetRanges)
  else
    match parseRangeBounds part with
    | some (start, some e) =>
      let targetBounds := targetRanges.map parseRangeBounds
      let allNumeric := targetBounds.all (fun b =>
        match b with
        | some (_, some _) => true
        | _ => false)
      let sourceLen := e - start + 1
      let numericTargets := expandNumericTargets targetRanges
      if allNumeric ∧ numericTargets ≠ [] ∧ (numericTargets.length : Int) = sourceLen then
        (acc.1 ++ [((start, e), targetRanges)], acc.2)
      else (acc.1, setAssoc acc.2 part targetRanges)
    | _ => (acc.1, setAssoc acc.2 part targetRanges)

/-- `collapse_source_mappings` from utils/mapping.py. -/
def collapseSourceMappings (sourceMap : List (Str × List Str)) : List (Str × Str) :=
  let cls := sourceMap.foldl (fun acc kv =>
    let sourceParts := ((splitCh ',' kv.1).map pyStrip).filter (fun p => p ≠ [])
    sourceParts.foldl (classifyPart kv.2) acc) ([], [])
  let numericEntries := cls.1
  let specialEntries := cls.2
  let result1 := if numericEntries ≠ [] then collapseNumericEntries numericEntries else []
  let result2 := specialEntries.foldl (fun m kv =>
    let spec := formatSpecialTargets kv.2
    if spec ≠ [] then setAssoc m kv.1 spec else m) result1
  mergeAdjacentNumericKeys result2

/-! ## Lemmas about the string primitives -/

theorem mem_dropWhile_of_mem {α : Type} {p : α → Bool} {c : α} :
    ∀ {l : List α}, c ∈ l → ¬p c = true → c ∈ l.dropWhile p := by
  intro l
  induction l with
  | nil => intro h _; cases h
  | cons a as ih =>
    intro h hc
    by_cases hpa : p a = true
    · rw [List.dropWhile_cons_of_pos hpa]
      rcases List.mem_cons.mp h with rfl | h2
      · exact absurd hpa hc
      · exact ih h2 hc
    · rw [List.dropWhile_cons_of_neg hpa]
      exact h

theorem dropWhile_eq_self_of_none {α : Type} {p : α → Bool} {l : List α}
    (h : ∀ c ∈ l, ¬p c = true) : l.dropWhile p = l := by
  cases l with
  | nil => rfl
  | cons a as => exact List.dropWhile_cons_of_neg (h a (List.mem_cons_self _ _))

theorem dropWhile_idem {α : Type} {p : α → Bool} : ∀ l : List α,
    (l.dropWhile p).dropWhile p = l.dropWhile p := by
  intro l
  induction l with
  | nil => rfl
  | cons a as ih =>
    by_cases hpa : p a = true
    · rw [List.dropWhile_cons_of_pos hpa]; exact ih
    · rw [List.dropWhile_cons_of_neg hpa, List.dropWhile_cons_of_neg hpa]

theorem pyStrip_of_nospace {s : Str} (h : ∀ c ∈ s, ¬pyIsSpace c = true) : pyStrip s = s := by
  unfold pyStrip pyStripLeft pyStripRight
  rw [dropWhile_eq_self_of_none h,
    dropWhile_eq_self_of_none (fun c hc => h c (List.mem_reverse.mp hc)), List.reverse_reverse]

theorem pyStrip_allspace {s : Str} (h : ∀ c ∈ s, pyIsSpace c = true) : pyStrip s = [] := by
  unfold pyStrip pyStripLeft pyStripRight
  rw [List.dropWhile_eq_nil_iff.mpr h]
  rfl

theorem mem_pyStrip {s : Str} {c : Char} (h : c ∈ s) (hc : ¬pyIsSpace c = true) :
    c ∈ pyStrip s := by
  unfold pyStrip pyStripLeft pyStripRight
  have h1 : c ∈ s.dropWhile pyIsSpace := mem_dropWhile_of_mem h hc
  have h2 : c ∈ (s.dropWhile pyIsSpace).reverse := List.mem_reverse.mpr h1
  exact List.mem_reverse.mpr (mem_dropWhile_of_mem h2 hc)

theorem dropWhile_append_sep {p : Char → Bool} {x y : Str} {sep : Char}
    (hsep : ¬p sep = true) : (x ++ sep :: y).dropWhile p = x.dropWhile p ++ sep :: y := by
  rw [List.dropWhile_append]
  by_cases hx : (x.dropWhile p).isEmpty
  · rw [if_pos hx, List.dropWhile_cons_of_neg hsep]
    rw [List.isEmpty_iff] at hx
    rw [hx]
    rfl
  · rw [if_neg hx]

theorem reverse_append_sep {x y : Str} {sep : Char} :
    (x ++ sep :: y).reverse = y.reverse ++ sep :: x.reverse := by
  simp [List.reverse_append]

theorem pyStripLeft_append_sep {x y : Str} {sep : Char} (hsep : ¬pyIsSpace sep = true) :
    pyStripLeft (x ++ sep :: y) = pyStripLeft x ++ sep :: y :=
  dropWhile_append_sep hsep

theorem pyStripRight_append_sep {x y : Str} {sep : Char} (hsep : ¬pyIsSpace sep = true) :
    pyStripRight (x ++ sep :: y) = x ++ sep :: pyStripRight y := by
  unfold pyStripRight
  rw [reverse_append_sep, dropWhile_append_sep hsep, reverse_append_sep,
    List.reverse_reverse]

theorem pyStrip_append_sep {x y : Str} {sep : Char} (hsep : ¬pyIsSpace sep = true) :
    pyStrip (x ++ sep :: y) = pyStripLeft x ++ sep :: pyStripRight y := by
  unfold pyStrip
  rw [pyStripLeft_append_sep hsep, pyStripRight_append_sep hsep]

theorem stripLeft_stripRight_comm : ∀ s : Str,
    pyStripLeft (pyStripRight s) = pyStripRight (pyStripLeft s) := by
  intro s
  induction s with
  | nil => rfl
  | cons c t ih =>
    have hsrc : pyStripRight (c :: t) =
        if (t.reverse.dropWhile pyIsSpace).isEmpty then (if pyIsSpace c then [] else [c])
        else c :: pyStripRight t := by
      unfold pyStripRight
      rw [List.reverse_cons, List.dropWhile_append]
      by_cases hr : (t.reverse.dropWhile pyIsSpace).isEmpty
      · rw [if_pos hr, if_pos hr]
        by_cases hc : pyIsSpace c = true
        · rw [if_pos hc]
          simp [List.dropWhile, hc]
        · rw [if_neg hc]
          simp [List.dropWhile, hc]
      · rw [if_neg hr, if_neg hr]
        simp
    by_cases hc : pyIsSpace c = true
    · have hleft : pyStripLeft (c :: t) = pyStripLeft t := by
        unfold pyStripLeft
        exact List.dropWhile_cons_of_pos hc
      by_cases hr : (t.reverse.dropWhile pyIsSpace).isEmpty
      · have hrt : pyStripRight t = [] := by
          unfold pyStripRight
          rw [List.isEmpty_iff] at hr
          rw [hr]
          rfl
        calc pyStripLeft (pyStripRight (c :: t))
            = pyStripLeft [] := by rw [hsrc, if_pos hr, if_pos hc]
          _ = pyStripLeft (pyStripRight t) := by rw [hrt]
          _ = pyStripRight (pyStripLeft t) := ih
          _ = pyStripRight (pyStripLeft (c :: t)) := by rw [hleft]
      · calc pyStripLeft (pyStripRight (c :: t))
            = pyStripLeft (c :: pyStripRight t) := by rw [hsrc, if_neg hr]
          _ = pyStripLeft (pyStripRight t) := by
              unfold pyStripLeft
              exact List.dropWhile_cons_of_pos hc
          _ = pyStripRight (pyStripLeft t) := ih
          _ = pyStripRight (pyStripLeft (c :: t)) := by rw [hleft]
    · have hleft : pyStripLeft (c :: t) = c :: t := by
        unfold pyStripLeft
        exact List.dropWhile_cons_of_neg hc
      by_cases hr : (t.reverse.dropWhile pyIsSpace).isEmpty
      · calc pyStripLeft (pyStripRight (c :: t))
            = pyStripLeft [c] := by rw [hsrc, if_pos hr, if_neg hc]
          _ = [c] := by
              unfold pyStripLeft
              exact List.dropWhile_cons_of_neg hc
          _ = pyStripRight (c :: t) := by rw [hsrc, if_pos hr, if_neg hc]
          _ = pyStripRight (pyStripLeft (c :: t)) := by rw [hleft]
      · calc pyStripLeft (pyStripRight (c :: t))
            = pyStripLeft (c :: pyStripRight t) := by rw [hsrc, if_neg hr]
          _ = c :: pyStripRight t := by
              unfold pyStripLeft
              exact List.dropWhile_cons_of_neg hc
          _ = pyStripRight (c :: t) := by rw [hsrc, if_neg hr]
          _ = pyStripRight (pyStripLeft (c :: t)) := by rw [hleft]

theorem pyStripRight_idem (s : Str) : pyStripRight (pyStripRight s) = pyStripRight s := by
  unfold pyStripRight
  rw [List.reverse_reverse, dropWhile_idem]

theorem pyStrip_stripRight (s : Str) : pyStrip (pyStripRight s) = pyStrip s := by
  unfold pyStrip
  rw [stripLeft_stripRight_comm s]
  exact pyStripRight_idem _

theorem pyInt_stripRight (s : Str) : pyInt (pyStripRight s) = pyInt s := by
  unfold pyInt
  rw [pyStrip_stripRight]

theorem digit_facts {c : Char} (h : c.isDigit = true) :
    c ≠ ',' ∧ c ≠ '-' ∧ c ≠ '|' ∧ c ≠ '+' ∧ pyIsSpace c = false := by
  refine ⟨?_, ?_, ?_, ?_, ?_⟩
  · rintro rfl; exact absurd h (by decide)
  · rintro rfl; exact absurd h (by decide)
  · rintro rfl; exact absurd h (by decide)
  · rintro rfl; exact absurd h (by decide)
  · by_contra hsp
    rw [Bool.not_eq_false] at hsp
    simp only [pyIsSpace, Bool.or_eq_true, decide_eq_true_eq] at hsp
    rcases hsp with ((((rfl | rfl) | rfl) | rfl) | rfl) | rfl <;> exact absurd h (by decide)

theorem isDigitStr_iff {s : Str} :
    isDigitStr s = true ↔ (s ≠ [] ∧ ∀ c ∈ s, c.isDigit = true) := by
  simp [isDigitStr, List.all_eq_true, List.isEmpty_iff]

theorem pyIntDigitsGo_digits : ∀ (s : Str) (acc : Nat), (∀ c ∈ s, c.isDigit = true) →
    pyIntDigitsGo acc s = some (s.foldl (fun a c => a * 10 + digitVal c) acc) := by
  intro s
  induction s with
  | nil => intro acc _; rfl
  | cons c cs ih =>
    intro acc h
    have hc := h c (List.mem_cons_self _ _)
    rw [List.foldl_cons]
    rw [pyIntDigitsGo.eq_def]
    dsimp only
    rw [if_pos hc]
    exact ih _ (fun x hx => h x (List.mem_cons_of_mem _ hx))

theorem pyIntDigits_digits {s : Str} (hne : s ≠ []) (h : ∀ c ∈ s, c.isDigit = true) :
    pyIntDigits s = some (digitsVal s) := by
  cases s with
  | nil => exact absurd rfl hne
  | cons c cs =>
    have hc := h c (List.mem_cons_self _ _)
    simp only [pyIntDigits, hc, if_true]
    rw [pyIntDigitsGo_digits cs _ (fun x hx => h x (List.mem_cons_of_mem _ hx))]
    unfold digitsVal
    rw [List.foldl_cons]
    norm_num

theorem pyInt_digits {s : Str} (hne : s ≠ []) (h : ∀ c ∈ s, c.isDigit = true) :
    pyInt s = some ((digitsVal s : Int)) := by
  have hstrip : pyStrip s = s :=
    pyStrip_of_nospace (fun c hc => by simp [(digit_facts (h c hc)).2.2.2.2])
  cases s with
  | nil => exact absurd rfl hne
  | cons c cs =>
    have hd := digit_facts (h c (List.mem_cons_self _ _))
    simp only [pyInt, hstrip]
    rw [if_neg hd.2.1, if_neg hd.2.2.2.1]
    rw [pyIntDigits_digits (by simp) h]
    rfl

theorem takeWhile_neq_append {x y : Str} {sep : Char} (h : sep ∉ x) :
    (x ++ sep :: y).takeWhile (fun c => c != sep) = x := by
  induction x with
  | nil => simp [List.takeWhile]
  | cons a as ih =>
    have ha : (a != sep) = true := by
      simp only [bne_iff_ne, ne_eq]
      rintro rfl
      exact h (List.mem_cons_self _ _)
    simp only [List.cons_append, List.takeWhile_cons, ha, if_true]
    rw [ih (fun hm => h (List.mem_cons_of_mem _ hm))]

theorem dropWhile_neq_append {x y : Str} {sep : Char} (h : sep ∉ x) :
    (x ++ sep :: y).dropWhile (fun c => c != sep) = sep :: y := by
  induction x with
  | nil => simp [List.dropWhile]
  | cons a as ih =>
    have ha : (a != sep) = true := by
      simp only [bne_iff_ne, ne_eq]
      rintro rfl
      exact h (List.mem_cons_self _ _)
    simp only [List.cons_append, List.dropWhile_cons, ha, if_true]
    exact ih (fun hm => h (List.mem_cons_of_mem _ hm))

theorem parseRangeBounds_digits {s : Str} (hd : isDigitStr s = true) :
    parseRangeBounds s = some ((digitsVal s : Int), some ((digitsVal s : Int))) := by
  obtain ⟨hne, h⟩ := isDigitStr_iff.mp hd
  have hstrip : pyStrip s = s :=
    pyStrip_of_nospace (fun c hc => by simp [(digit_facts (h c hc)).2.2.2.2])
  have hnc : ',' ∉ s := fun hm => (digit_facts (h _ hm)).1 rfl
  have hnp : '|' ∉ s := fun hm => (digit_facts (h _ hm)).2.2.1 rfl
  have hnd : '-' ∉ s := fun hm => (digit_facts (h _ hm)).2.1 rfl
  simp only [parseRangeBounds, hstrip]
  rw [if_neg hne, if_neg hne, if_neg hnc]
  unfold splitRatioPart
  rw [if_neg hnp]
  dsimp only
  rw [if_neg hnd, pyInt_digits hne h]

theorem parseRangeBounds_closed {s1 s2 : Str} (hd1 : isDigitStr s1 = true)
    (hd2 : isDigitStr s2 = true) :
    parseRangeBounds (s1 ++ '-' :: s2) =
      if (digitsVal s1 : Int) > (digitsVal s2 : Int) then
        some ((digitsVal s2 : Int), some ((digitsVal s1 : Int)))
      else some ((digitsVal s1 : Int), some ((digitsVal s2 : Int))) := by
  obtain ⟨hne1, h1⟩ := isDigitStr_iff.mp hd1
  obtain ⟨hne2, h2⟩ := isDigitStr_iff.mp hd2
  have hmem : ∀ c ∈ s1 ++ '-' :: s2, c = '-' ∨ c.isDigit = true := by
    intro c hc
    rcases List.mem_append.mp hc with hc | hc
    · exact Or.inr (h1 c hc)
    · rcases List.mem_cons.mp hc with rfl | hc
      · exact Or.inl rfl
      · exact Or.inr (h2 c hc)
  have hne : s1 ++ '-' :: s2 ≠ [] := by simp
  have hstrip : pyStrip (s1 ++ '-' :: s2) = s1 ++ '-' :: s2 := by
    apply pyStrip_of_nospace
    intro c hc
    rcases hmem c hc with rfl | hdig
    · decide
    · simp [(digit_facts hdig).2.2.2.2]
  have hnc : ',' ∉ s1 ++ '-' :: s2 := by
    intro hm
    rcases hmem _ hm with he | hdig
    · exact absurd he (by decide)
    · exact (digit_facts hdig).1 rfl
  have hnp : '|' ∉ s1 ++ '-' :: s2 := by
    intro hm
    rcases hmem _ hm with he | hdig
    · exact absurd he (by decide)
    · exact (digit_facts hdig).2.2.1 rfl
  have hd : '-' ∈ s1 ++ '-' :: s2 := List.mem_append.mpr (Or.inr (List.mem_cons_self _ _))
  have hnds1 : '-' ∉ s1 := fun hm => (digit_facts (h1 _ hm)).2.1 rfl
  simp only [parseRangeBounds, hstrip]
  rw [if_neg hne, if_neg hne, if_neg hnc]
  unfold splitRatioPart
  rw [if_neg hnp]
  dsimp only
  rw [if_pos hd, takeWhile_neq_append hnds1, dropWhile_neq_append hnds1,
    pyInt_digits hne1 h1]
  dsimp only [List.tail_cons]
  rw [if_neg hne2, pyInt_digits hne2 h2]

theorem parseRangeBounds_open {s1 : Str} (hd1 : isDigitStr s1 = true) :
    parseRangeBounds (s1 ++ ['-']) = some ((digitsVal s1 : Int), none) := by
  obtain ⟨hne1, h1⟩ := isDigitStr_iff.mp hd1
  have hmem : ∀ c ∈ s1 ++ ['-'], c = '-' ∨ c.isDigit = true := by
    intro c hc
    rcases List.mem_append.mp hc with hc | hc
    · exact Or.inr (h1 c hc)
    · rcases List.mem_singleton.mp hc with rfl
      exact Or.inl rfl
  have hne : s1 ++ ['-'] ≠ [] := by simp
  have hstrip : pyStrip (s1 ++ ['-']) = s1 ++ ['-'] := by
    apply pyStrip_of_nospace
    intro c hc
    rcases hmem c hc with rfl | hdig
    · decide
    · simp [(digit_facts hdig).2.2.2.2]
  have hnc : ',' ∉ s1 ++ ['-'] := by
    intro hm
    rcases hmem _ hm with he | hdig
    · exact absurd he (by decide)
    · exact (digit_facts hdig).1 rfl
  have hnp : '|' ∉ s1 ++ ['-'] := by
    intro hm
    rcases hmem _ hm with he | hdig
    · exact absurd he (by decide)
    · exact (digit_facts hdig).2.2.1 rfl
  have hd : '-' ∈ s1 ++ ['-'] := List.mem_append.mpr (Or.inr (List.mem_singleton.mpr rfl))
  have hnds1 : '-' ∉ s1 := fun hm => (digit_facts (h1 _ hm)).2.1 rfl
  simp only [parseRangeBounds, hstrip]
  rw [if_neg hne, if_neg hne, if_neg hnc]
  unfold splitRatioPart
  rw [if_neg hnp]
  dsimp only
  rw [if_pos hd, takeWhile_neq_append hnds1, dropWhile_neq_append hnds1,
    pyInt_digits hne1 h1]
  simp

theorem parseRangeBounds_bad_ratio {base rest : Str} (hb : '|' ∉ base)
    (hbad : rest = [] ∨ pyInt rest = none ∨ pyInt rest = some 0) :
    parseRangeBounds (base ++ '|' :: rest) = none := by
  have hne : base ++ '|' :: rest ≠ [] := by simp
  have hstrip : pyStrip (base ++ '|' :: rest) = pyStripLeft base ++ '|' :: pyStripRight rest :=
    pyStrip_append_sep (by decide)
  have hnorm_ne : pyStripLeft base ++ '|' :: pyStripRight rest ≠ [] := by simp
  simp only [parseRangeBounds, hstrip]
  rw [if_neg hne, if_neg hnorm_ne]
  by_cases hcomma : ',' ∈ pyStripLeft base ++ '|' :: pyStripRight rest
  · rw [if_pos hcomma]
  · rw [if_neg hcomma]
    have hnp2 : '|' ∉ pyStripLeft base := by
      intro hm
      exact hb ((List.dropWhile_sublist _).subset hm)
    have hp : '|' ∈ pyStripLeft base ++ '|' :: pyStripRight rest :=
      List.mem_append.mpr (Or.inr (List.mem_cons_self _ _))
    unfold splitRatioPart
    rw [if_pos hp, takeWhile_neq_append hnp2, dropWhile_neq_append hnp2]
    dsimp only [List.tail_cons]
    by_cases hre : pyStripRight rest = []
    · rw [if_pos hre]
    · rw [if_neg hre, pyInt_stripRight rest]
      rcases hbad with rfl | hnone | hzero
      · exact absurd (by simp [pyStripRight]) hre
      · rw [hnone]
      · rw [hzero]
        simp

/-- C7: `parse_range_bounds` is total with the stated rejections and
normalizations: it returns `None` for an empty or whitespace-only string,
for any string containing `,`, and for a `|` ratio suffix that is empty,
non-integer or zero; a closed range `a-b` with `a > b` comes back swapped
as `(b, a)`; `a-` yields `(a, None)`; a single number `n` yields `(n, n)`. -/
theorem c7_parse_range_bounds :
    (∀ s : Str, (∀ c ∈ s, pyIsSpace c = true) → parseRangeBounds s = none) ∧
    (∀ s : Str, ',' ∈ s → parseRangeBounds s = none) ∧
    (∀ base rest : Str, '|' ∉ base →
      (rest = [] ∨ pyInt rest = none ∨ pyInt rest = some 0) →
      parseRangeBounds (base ++ '|' :: rest) = none) ∧
    (∀ s1 s2 : Str, isDigitStr s1 = true → isDigitStr s2 = true →
      (digitsVal s1 : Int) > (digitsVal s2 : Int) →
      parseRangeBounds (s1 ++ '-' :: s2) =
        some ((digitsVal s2 : Int), some ((digitsVal s1 : Int)))) ∧
    (∀ s1 : Str, isDigitStr s1 = true →
      parseRangeBounds (s1 ++ ['-']) = some ((digitsVal s1 : Int), none)) ∧
    (∀ s : Str, isDigitStr s = true →
      parseRangeBounds s = some ((digitsVal s : Int), some ((digitsVal s : Int)))) := by
  refine ⟨?_, ?_, ?_, ?_, ?_, ?_⟩
  · intro s h
    by_cases hs : s = []
    · subst hs; rfl
    · have hstrip := pyStrip_allspace h
      simp only [parseRangeBounds, hstrip]
      rw [if_neg hs]
      simp
  · intro s h
    have hs : s ≠ [] := by rintro rfl; cases h
    simp only [parseRangeBounds]
    rw [if_neg hs]
    by_cases h0 : pyStrip s = []
    · simp [h0]
    · rw [if_neg h0, if_pos (mem_pyStrip h (by decide))]
  · exact fun base rest hb hbad => parseRangeBounds_bad_ratio hb hbad
  · intro s1 s2 h1 h2 hgt
    rw [parseRangeBounds_closed h1 h2, if_pos hgt]
  · exact fun s1 h1 => parseRangeBounds_open h1
  · exact fun s h => parseRangeBounds_digits h

/-- Witness for C7 at concrete inputs. -/
theorem c7_witness :
    parseRangeBounds (strL " ") = none ∧
    parseRangeBounds (strL "1,2") = none ∧
    parseRangeBounds (strL "3|0") = none ∧
    parseRangeBounds (strL "9-4") = some (4, some 9) ∧
    parseRangeBounds (strL "4-") = some (4, none) ∧
    parseRangeBounds (strL "12") = some (12, some 12) :=
  ⟨c7_parse_range_bounds.1 (strL " ") (by decide),
    c7_parse_range_bounds.2.1 (strL "1,2") (by decide),
    c7_parse_range_bounds.2.2.1 (strL "3") (strL "0") (by decide) (Or.inr (Or.inr (by decide))),
    c7_parse_range_bounds.2.2.2.1 (strL "9") (strL "4") (by decide) (by decide) (by decide),
    c7_parse_range_bounds.2.2.2.2.1 (strL "4") (by decide),
    c7_parse_range_bounds.2.2.2.2.2 (strL "12") (by decide)⟩

/-! ## Lemmas about association lists (Python dicts) -/

theorem lookupA_setAssoc_self {κ ν : Type} [DecidableEq κ] (l : List (κ × ν)) (k : κ) (v : ν) :
    lookupA (setAssoc l k v) k = some v := by
  induction l with
  | nil => simp [setAssoc, lookupA]
  | cons kv rest ih =>
    obtain ⟨k0, v0⟩ := kv
    by_cases h : k0 = k
    · simp [setAssoc, lookupA, h]
    · simp [setAssoc, lookupA, h, ih]

theorem lookupA_setAssoc_other {κ ν : Type} [DecidableEq κ] (l : List (κ × ν)) (k k' : κ)
    (v : ν) (h : k' ≠ k) : lookupA (setAssoc l k v) k' = lookupA l k' := by
  induction l with
  | nil =>
    simp only [setAssoc, lookupA]
    rw [if_neg (fun he => h he.symm)]
  | cons kv rest ih =>
    obtain ⟨k0, v0⟩ := kv
    by_cases h0 : k0 = k
    · subst h0
      have hne : ¬(k0 = k') := fun he => h (Eq.symm he)
      simp only [setAssoc, if_pos rfl]
      simp only [lookupA]
      rw [if_neg hne, if_neg hne]
    · simp only [setAssoc, if_neg h0, lookupA]
      by_cases h1 : k0 = k'
      · rw [if_pos h1, if_pos h1]
      · rw [if_neg h1, if_neg h1]
        exact ih

theorem lookupA_mem_keys {κ ν : Type} [DecidableEq κ] {l : List (κ × ν)} {k : κ} {v : ν}
    (h : lookupA l k = some v) : k ∈ l.map Prod.fst := by
  induction l with
  | nil => simp [lookupA] at h
  | cons kv rest ih =>
    obtain ⟨k0, v0⟩ := kv
    by_cases h0 : k0 = k
    · simp [h0]
    · simp only [lookupA, if_neg h0] at h
      simp [ih h]

theorem lookupA_append {κ ν : Type} [DecidableEq κ] (l1 l2 : List (κ × ν)) (k : κ) :
    lookupA (l1 ++ l2) k =
      match lookupA l1 k with
      | some v => some v
      | none => lookupA l2 k := by
  induction l1 with
  | nil => simp [lookupA]
  | cons kv rest ih =>
    obtain ⟨k0, v0⟩ := kv
    by_cases h0 : k0 = k
    · simp [lookupA, h0]
    · simp only [List.cons_append, lookupA, if_neg h0]
      exact ih

theorem lookupA_storeMerge (s1 s2 : MetaStore) (k : MetaKeyT)
    (hnd : (s2.map Prod.fst).Nodup) :
    (∀ m, lookupA s2 k = some m → lookupA (storeMerge s1 s2) k = some m) ∧
    (lookupA s2 k = none → lookupA (storeMerge s1 s2) k = lookupA s1 k) := by
  induction s2 generalizing s1 with
  | nil => exact ⟨fun m hm => by simp [lookupA] at hm, fun _ => rfl⟩
  | cons kv rest ih =>
    obtain ⟨k0, v0⟩ := kv
    have hnd2 : (rest.map Prod.fst).Nodup := (List.nodup_cons.mp hnd).2
    have hk0 : k0 ∉ rest.map Prod.fst := (List.nodup_cons.mp hnd).1
    have hmerge : storeMerge s1 ((k0, v0) :: rest) = storeMerge (setAssoc s1 k0 v0) rest := rfl
    constructor
    · intro m hm
      by_cases h0 : k0 = k
      · subst h0
        simp only [lookupA, if_pos rfl] at hm
        injection hm with hv
        subst hv
        rw [hmerge]
        have hrest : lookupA rest k0 = none := by
          cases hr : lookupA rest k0 with
          | none => rfl
          | some v => exact absurd (lookupA_mem_keys hr) hk0
        rw [(ih (setAssoc s1 k0 v0) hnd2).2 hrest]
        exact lookupA_setAssoc_self s1 k0 v0
      · simp only [lookupA, if_neg h0] at hm
        rw [hmerge]
        exact (ih (setAssoc s1 k0 v0) hnd2).1 m hm
    · intro hm
      by_cases h0 : k0 = k
      · subst h0
        simp [lookupA] at hm
      · simp only [lookupA, if_neg h0] at hm
        rw [hmerge, (ih (setAssoc s1 k0 v0) hnd2).2 hm]
        exact lookupA_setAssoc_other s1 k0 k v0 (fun he => h0 he.symm)

/-! ## C1: metadata source precedence -/

def c1key : MetaKeyT := (strL "tmdb_show", strL "42", some (strL "s1"))

def c1storeA : MetaStore := [(c1key, { type := some SourceType.tv, episodes := some 10 })]

def c1storeB : MetaStore := [(c1key, { duration := some 1440 })]

/-- C1 counterexample: source A stores `episodes=10`, a later source B stores
only `duration=1440` for `tmdb_show:42:s1`; the merged store holds B's record
whole, so `episodes` is `None` rather than the claimed `10`. -/
theorem c1_counterexample :
    (lookupA (collectMetadata [c1storeA, c1storeB]) c1key).map SourceMeta.episodes =
      some none ∧ some (none : Option Int) ≠ some (some (10 : Int)) := by
  constructor
  · rfl
  · simp

/-- C1 (amended): merging metadata stores is last-writer-wins with
whole-record replacement per descriptor: a key present in the later store
takes the later record entirely (fields the later source leaves unset come
back unset), keys absent from the later store keep the earlier record, and
`_collect_metadata` folds the per-source stores in registration order;
in the scenario of the claim the merged record is
`episodes=None, duration=1440`. -/
theorem c1_merge_whole_record :
    (∀ (s1 s2 : MetaStore) (k : MetaKeyT), (s2.map Prod.fst).Nodup →
      (∀ m, lookupA s2 k = some m → lookupA (storeMerge s1 s2) k = some m) ∧
      (lookupA s2 k = none → lookupA (storeMerge s1 s2) k = lookupA s1 k)) ∧
    (∀ s1 s2 : MetaStore, collectMetadata [s1, s2] = storeMerge (storeMerge [] s1) s2) ∧
    lookupA (collectMetadata [c1storeA, c1storeB]) c1key =
      some { type := none, episodes := none, duration := some 1440, startYear := none } := by
  refine ⟨fun s1 s2 k hnd => lookupA_storeMerge s1 s2 k hnd, fun s1 s2 => rfl, ?_⟩
  rfl

/-- Witness for C1's amended theorem at the concrete stores. -/
theorem c1_witness :
    lookupA (storeMerge c1storeA c1storeB) c1key =
      some { type := none, episodes := none, duration := some 1440, startYear := none } :=
  (c1_merge_whole_record.1 c1storeA c1storeB c1key (by decide)).1 _ rfl

/-! ## C10: `MetaStore.get` versus `MetaStore.peek` -/

/-- C10: `peek` returns the stored record or `None` and leaves the store
unchanged; `get` on a present key returns the stored record and leaves the
store unchanged; `get` on a missing key appends a fresh all-`None`
`SourceMeta`, growing the store by one entry, and returns it. -/
theorem c10_get_peek (s : MetaStore) (k : MetaKeyT) :
    storePeek s k = (lookupA s k, s) ∧
    (∀ m, lookupA s k = some m → storeGet s k = (m, s)) ∧
    (lookupA s k = none →
      storeGet s k = (emptyMeta, s ++ [(k, emptyMeta)]) ∧
      (storeGet s k).2.length = s.length + 1 ∧
      lookupA (storeGet s k).2 k = some emptyMeta ∧
      emptyMeta = { type := none, episodes := none, duration := none, startYear := none }) := by
  refine ⟨rfl, ?_, ?_⟩
  · intro m hm
    unfold storeGet
    rw [hm]
  · intro hm
    unfold storeGet
    rw [hm]
    refine ⟨rfl, by simp, ?_, rfl⟩
    rw [lookupA_append, hm]
    simp [lookupA]

def c10key : MetaKeyT := (strL "anidb", strL "1", none)

/-- Witness for C10: a missing key is created by `get`, a present key is
returned untouched by `get` and `peek`. -/
theorem c10_witness :
    storeGet ([] : MetaStore) c10key = (emptyMeta, [(c10key, emptyMeta)]) ∧
    storeGet [(c10key, emptyMeta)] c10key = (emptyMeta, [(c10key, emptyMeta)]) ∧
    storePeek [(c10key, emptyMeta)] c10key = (some emptyMeta, [(c10key, emptyMeta)]) :=
  ⟨((c10_get_peek [] c10key).2.2 rfl).1,
    (c10_get_peek [(c10key, emptyMeta)] c10key).2.1 emptyMeta rfl,
    (c10_get_peek [(c10key, emptyMeta)] c10key).1⟩

/-! ## C8: edits descriptor parsing -/

theorem splitCh_no_sep {sep : Char} {s : Str} (h : sep ∉ s) : splitCh sep s = [s] := by
  induction s with
  | nil => rfl
  | cons c cs ih =>
    have hc : ¬(c = sep) := fun he => h (he ▸ List.mem_cons_self _ _)
    have hcs : sep ∉ cs := fun hm => h (List.mem_cons_of_mem _ hm)
    simp only [splitCh, if_neg hc, ih hcs]

theorem splitCh_append_sep {sep : Char} {x y : Str} (h : sep ∉ x) :
    splitCh sep (x ++ sep :: y) = x :: splitCh sep y := by
  induction x with
  | nil => simp [splitCh]
  | cons c cs ih =>
    have hc : ¬(c = sep) := fun he => h (he ▸ List.mem_cons_self _ _)
    have hcs : sep ∉ cs := fun hm => h (List.mem_cons_of_mem _ hm)
    simp only [List.cons_append, splitCh, if_neg hc, List.append_eq, ih hcs]

/-- C8: `provider:id` parses with no scope except `anidb:N`, which is
normalized to scope `R`; `provider:id:scope` parses with the scope; any
other colon-split arity raises an edit error (failing the operation). -/
theorem c8_parse_descriptor :
    (∀ p i : Str, ':' ∉ p → ':' ∉ i →
      parseDescriptor (p ++ ':' :: i) =
        .ok (p, i, if p = strL "anidb" then some (strL "R") else none)) ∧
    (∀ p i sc : Str, ':' ∉ p → ':' ∉ i → ':' ∉ sc →
      parseDescriptor (p ++ ':' :: (i ++ ':' :: sc)) = .ok (p, i, some sc)) ∧
    (∀ s : Str, (splitCh ':' s).length < 2 ∨ 3 < (splitCh ':' s).length →
      ∃ e, parseDescriptor s = .error e) := by
  refine ⟨?_, ?_, ?_⟩
  · intro p i hp hi
    unfold parseDescriptor
    rw [splitCh_append_sep hp, splitCh_no_sep hi]
    by_cases hpa : p = strL "anidb" <;> simp [hpa]
  · intro p i sc hp hi hsc
    unfold parseDescriptor
    rw [splitCh_append_sep hp, splitCh_append_sep hi, splitCh_no_sep hsc]
  · intro s h
    cases hsp : splitCh ':' s with
    | nil => exact ⟨_, by unfold parseDescriptor; rw [hsp]⟩
    | cons a r1 =>
      cases r1 with
      | nil => exact ⟨_, by unfold parseDescriptor; rw [hsp]⟩
      | cons b r2 =>
        cases r2 with
        | nil => rw [hsp] at h; simp at h
        | cons c r3 =>
          cases r3 with
          | nil => rw [hsp] at h; simp at h
          | cons d r4 => exact ⟨_, by unfold parseDescriptor; rw [hsp]⟩

/-- Witness for C8 at concrete descriptors. -/
theorem c8_witness :
    parseDescriptor (strL "anidb:5") = .ok (strL "anidb", strL "5", some (strL "R")) ∧
    parseDescriptor (strL "tvdb_show:9:s1") =
      .ok (strL "tvdb_show", strL "9", some (strL "s1")) ∧
    (∃ e, parseDescriptor (strL "a:b:c:d") = .error e) :=
  ⟨c8_parse_descriptor.1 (strL "anidb") (strL "5") (by decide) (by decide),
    c8_parse_descriptor.2.1 (strL "tvdb_show") (strL "9") (strL "s1")
      (by decide) (by decide) (by decide),
    c8_parse_descriptor.2.2 (strL "a:b:c:d") (by decide)⟩

/-! ## C2: collapse and ratio inference -/

/-- C2 counterexample: for source range `1-6` mapped to exactly `{"1-12"}`,
collapse classifies the entry as special (12 targets for 6 sources) and
emits `"1-6": "1-12"` with no ratio, not the claimed `"1-12|2"`. -/
theorem c2_counterexample :
    collapseSourceMappings [(strL "1-6", [strL "1-12"])] = [(strL "1-6", strL "1-12")] ∧
    (strL "1-12" : Str) ≠ strL "1-12|2" := by
  constructor
  · rfl
  · decide

/-- C2 (amended): collapsing `{"1-6": {"1-12"}}` yields `{"1-6": "1-12"}`
(the entry is special because the expanded target count 12 differs from the
source length 6, so no ratio is inferred); ratio inference on merged
contiguous units is performed by `_compute_ratio`, which returns `None` when
`S == T`, the integer quotient `max/min` signed positive when `T > S` and
negative when `S > T` provided the smaller length divides the larger, and
`None` when it does not divide. -/
theorem c2_collapse_ratio :
    collapseSourceMappings [(strL "1-6", [strL "1-12"])] = [(strL "1-6", strL "1-12")] ∧
    (∀ S T : Int, 0 < S → 0 < T →
      (S = T → computeRatioFn S T = none) ∧
      (S < T → Int.fmod T S = 0 → computeRatioFn S T = some (Int.fdiv T S)) ∧
      (T < S → Int.fmod S T = 0 → computeRatioFn S T = some (-(Int.fdiv S T))) ∧
      (S ≠ T → (S < T → Int.fmod T S ≠ 0) → (T < S → Int.fmod S T ≠ 0) →
        computeRatioFn S T = none)) := by
  constructor
  · rfl
  · intro S T hS hT
    refine ⟨?_, ?_, ?_, ?_⟩
    · intro h
      unfold computeRatioFn
      rw [if_pos h.symm]
    · intro hlt hmod
      unfold computeRatioFn
      rw [if_neg (by omega : ¬T = S), if_pos (by omega : T > S)]
      dsimp only
      rw [if_neg (by simp [hmod]; omega)]
      simp
    · intro hlt hmod
      unfold computeRatioFn
      rw [if_neg (by omega : ¬T = S), if_neg (by omega : ¬T > S)]
      dsimp only
      rw [if_neg (by simp [hmod]; omega)]
      simp
    · intro hne h1 h2
      unfold computeRatioFn
      rw [if_neg (fun he => hne he.symm)]
      by_cases hlt : T > S
      · rw [if_pos hlt]
        dsimp only
        rw [if_pos (Or.inr (h1 hlt))]
      · rw [if_neg hlt]
        dsimp only
        rw [if_pos (Or.inr (h2 (by omega)))]

/-- Witness for C2's amended theorem at concrete lengths. -/
theorem c2_witness :
    computeRatioFn 6 12 = some 2 ∧ computeRatioFn 12 6 = some (-2) ∧
    computeRatioFn 5 5 = none ∧ computeRatioFn 3 4 = none :=
  ⟨(c2_collapse_ratio.2 6 12 (by decide) (by decide)).2.1 (by decide) (by decide),
    (c2_collapse_ratio.2 12 6 (by decide) (by decide)).2.2.1 (by decide) (by decide),
    (c2_collapse_ratio.2 5 5 (by decide) (by decide)).1 rfl,
    (c2_collapse_ratio.2 3 4 (by decide) (by decide)).2.2.2 (by decide)
      (fun _ => by decide) (fun h => absurd h (by decide))⟩

/-! ## Lemmas about graph primitives -/

theorem ensureNode_adj {α : Type} [DecidableEq α] (g : BaseGraph α) (a : α) :
    (g.ensureNode a).adj = g.adj := by
  unfold BaseGraph.ensureNode
  split <;> rfl

theorem mem_ensureNode_self {α : Type} [DecidableEq α] (g : BaseGraph α) (a : α) :
    a ∈ (g.ensureNode a).nodesList := by
  unfold BaseGraph.ensureNode
  split
  · assumption
  · simp

theorem mem_ensureNode_of_mem {α : Type} [DecidableEq α] {g : BaseGraph α} {a x : α}
    (h : x ∈ g.nodesList) : x ∈ (g.ensureNode a).nodesList := by
  unfold BaseGraph.ensureNode
  split
  · exact h
  · simp [h]

theorem mem_insertAdj_self {α : Type} [DecidableEq α] (l : List (α × α)) (e : α × α) :
    e ∈ insertAdj l e := by
  unfold insertAdj
  split
  · assumption
  · simp

theorem mem_insertAdj_of_mem {α : Type} [DecidableEq α] {l : List (α × α)} {e e' : α × α}
    (h : e' ∈ l) : e' ∈ insertAdj l e := by
  unfold insertAdj
  split
  · exact h
  · simp [h]

theorem mem_insertAdj_iff {α : Type} [DecidableEq α] {l : List (α × α)} {e e' : α × α} :
    e' ∈ insertAdj l e ↔ e' ∈ l ∨ e' = e := by
  unfold insertAdj
  split
  · rename_i hmem
    constructor
    · exact fun h => Or.inl h
    · rintro (h | rfl)
      · exact h
      · exact hmem
  · simp

theorem addEdge_self_adj {α : Type} [DecidableEq α] (g : BaseGraph α) (a : α) (bidir : Bool) :
    (g.addEdge a a bidir).adj = g.adj := by
  unfold BaseGraph.addEdge
  rw [if_pos rfl]
  exact ensureNode_adj g a

theorem addEdge_self_mem_nodes {α : Type} [DecidableEq α] (g : BaseGraph α) (a : α)
    (bidir : Bool) : a ∈ (g.addEdge a a bidir).nodesList := by
  unfold BaseGraph.addEdge
  rw [if_pos rfl]
  exact mem_ensureNode_self g a

theorem addEdge_adj_characterization {α : Type} [DecidableEq α] (g : BaseGraph α) (a b : α)
    (hab : a ≠ b) {e : α × α} :
    (e ∈ (g.addEdge a b true).adj ↔ e ∈ g.adj ∨ e = (a, b) ∨ e = (b, a)) := by
  unfold BaseGraph.addEdge
  rw [if_neg hab]
  simp only [ensureNode_adj]
  rw [if_pos trivial]
  rw [mem_insertAdj_iff, mem_insertAdj_iff]
  tauto

theorem addEdge_hasEdge {α : Type} [DecidableEq α] (g : BaseGraph α) (a b : α) (hab : a ≠ b) :
    (g.addEdge a b true).hasEdge a b = true := by
  unfold BaseGraph.hasEdge
  have := (addEdge_adj_characterization g a b hab (e := (a, b))).mpr (Or.inr (Or.inl rfl))
  simp [this]

theorem addEdge_adj_of_present {α : Type} [DecidableEq α] (g : BaseGraph α) (a b : α)
    (bidir : Bool) (h1 : (a, b) ∈ g.adj) (h2 : (b, a) ∈ g.adj) :
    (g.addEdge a b bidir).adj = g.adj := by
  unfold BaseGraph.addEdge
  by_cases hab : a = b
  · rw [if_pos hab]
    exact ensureNode_adj _ _
  · rw [if_neg hab]
    simp only [ensureNode_adj]
    have e1 : insertAdj g.adj (a, b) = g.adj := by unfold insertAdj; rw [if_pos h1]
    have e2 : insertAdj g.adj (b, a) = g.adj := by unfold insertAdj; rw [if_pos h2]
    rw [e1, e2]
    cases bidir <;> rfl

theorem hasEdge_false_iff {α : Type} [DecidableEq α] {g : BaseGraph α} {a b : α} :
    g.hasEdge a b = false ↔ ((a, b) ∉ g.adj ∧ (b, a) ∉ g.adj) := by
  unfold BaseGraph.hasEdge
  simp

theorem removeEdge_hasEdge {α : Type} [DecidableEq α] (g : BaseGraph α) (a b : α) :
    (g.removeEdge a b).hasEdge a b = false := by
  rw [hasEdge_false_iff]
  unfold BaseGraph.removeEdge
  constructor
  · intro hmem
    have := (List.mem_filter.mp hmem).2
    simp at this
  · intro hmem
    have := (List.mem_filter.mp hmem).2
    simp at this

theorem removeEdge_adj_of_absent {α : Type} [DecidableEq α] (g : BaseGraph α) (a b : α)
    (h : g.hasEdge a b = false) : (g.removeEdge a b).adj = g.adj := by
  rw [hasEdge_false_iff] at h
  unfold BaseGraph.removeEdge
  apply List.filter_eq_self.mpr
  intro e he
  simp only [decide_eq_true_eq]
  exact ⟨fun hab => h.1 (hab ▸ he), fun hba => h.2 (hba ▸ he)⟩

theorem removeEdge_nodes {α : Type} [DecidableEq α] (g : BaseGraph α) (a b : α) :
    (g.removeEdge a b).nodesList = g.nodesList := rfl

theorem lookupA_provAppend_self (l : List ((EpisodeNode × EpisodeNode) × List ProvenanceEvent))
    (k : EpisodeNode × EpisodeNode) (ev : ProvenanceEvent) :
    lookupA (provAppend l k ev) k = some ((lookupA l k).getD [] ++ [ev]) := by
  induction l with
  | nil => simp [provAppend, lookupA]
  | cons kv rest ih =>
    obtain ⟨k0, evs⟩ := kv
    by_cases h : k0 = k
    · subst h
      simp [provAppend, lookupA]
    · simp only [provAppend, if_neg h, lookupA]
      exact ih

theorem eventsOf_recordEvent (g : EpisodeGraph) (action : Str) (a b : EpisodeNode)
    (ctx : Option ProvenanceContext) (eff : Bool) (d : Option DetailsT) :
    (g.recordEvent action a b ctx eff d).eventsOf a b =
      g.eventsOf a b ++ [mkEvent g action ctx eff d] := by
  unfold EpisodeGraph.eventsOf EpisodeGraph.recordEvent
  dsimp only
  rw [lookupA_provAppend_self]
  rfl

/-! ## C4: self-loops and the `effective` flag -/

def c4node : EpisodeNode := (strL "anilist", strL "1", none, strL "1")

/-- C4 counterexample: adding a self-loop to the empty episode graph leaves
the edge set empty but records an event with `effective = true` (since
`has_edge(a, a)` is always false), contradicting the claim that self-loop
adds record `effective = false`. -/
theorem c4_counterexample :
    (EpisodeGraph.empty.addEdge c4node c4node true none none).base.adj = [] ∧
    (EpisodeGraph.empty.addEdge c4node c4node true none none).eventsOf c4node c4node =
      [{ seq := 1, action := strL "add", stage := strL "unknown", actor := none,
         reason := none, effective := true, details := none }] := by
  constructor <;> rfl

/-- C4 (amended): a self-loop add leaves the adjacency unchanged while
ensuring the node exists; every add records exactly one event with
`effective = not has_edge(a,b)` computed before the mutation, and every
remove one with `effective = has_edge(a,b)` — so an add of a missing edge
(`a ≠ b`) inserts it and records `effective = true`, an add of an edge
already present in both directions changes nothing and records
`effective = false`, a remove of an absent edge changes nothing and records
`effective = false`, and a remove always deletes the edge; for a self-loop,
`has_edge(a,a)` being false, the event records `effective = true` even
though the edge set is unchanged. -/
theorem c4_effective_semantics :
    (∀ (g : EpisodeGraph) (a : EpisodeNode) (bidir : Bool) (p : Option ProvenanceContext)
       (d : Option DetailsT),
      (g.addEdge a a bidir p d).base.adj = g.base.adj ∧
      (g.addEdge a a bidir p d).base.hasNode a = true) ∧
    (∀ (g : EpisodeGraph) (a b : EpisodeNode) (bidir : Bool) (p : Option ProvenanceContext)
       (d : Option DetailsT),
      (g.addEdge a b bidir p d).eventsOf a b =
        g.eventsOf a b ++ [mkEvent g (strL "add") p (!g.base.hasEdge a b) d]) ∧
    (∀ (g : EpisodeGraph) (a b : EpisodeNode) (p : Option ProvenanceContext)
       (d : Option DetailsT),
      (g.removeEdge a b p d).eventsOf a b =
        g.eventsOf a b ++ [mkEvent g (strL "remove") p (g.base.hasEdge a b) d]) ∧
    (∀ (g : EpisodeGraph) (action : Str) (p : Option ProvenanceContext) (e : Bool)
       (d : Option DetailsT),
      (mkEvent g action p e d).effective = e ∧ (mkEvent g action p e d).seq = g.provenanceSeq + 1) ∧
    (∀ (g : EpisodeGraph) (a b : EpisodeNode) (p : Option ProvenanceContext)
       (d : Option DetailsT), a ≠ b → (g.addEdge a b true p d).base.hasEdge a b = true) ∧
    (∀ (g : EpisodeGraph) (a b : EpisodeNode) (bidir : Bool) (p : Option ProvenanceContext)
       (d : Option DetailsT), (a, b) ∈ g.base.adj → (b, a) ∈ g.base.adj →
      (g.addEdge a b bidir p d).base.adj = g.base.adj) ∧
    (∀ (g : EpisodeGraph) (a b : EpisodeNode) (p : Option ProvenanceContext)
       (d : Option DetailsT), g.base.hasEdge a b = false →
      (g.removeEdge a b p d).base.adj = g.base.adj) ∧
    (∀ (g : EpisodeGraph) (a b : EpisodeNode) (p : Option ProvenanceContext)
       (d : Option DetailsT), (g.removeEdge a b p d).base.hasEdge a b = false) := by
  refine ⟨?_, ?_, ?_, ?_, ?_, ?_, ?_, ?_⟩
  · intro g a bidir p d
    constructor
    · unfold EpisodeGraph.addEdge EpisodeGraph.recordEvent
      dsimp only
      exact addEdge_self_adj g.base a bidir
    · unfold EpisodeGraph.addEdge EpisodeGraph.recordEvent BaseGraph.hasNode
      dsimp only
      simp only [decide_eq_true_eq]
      exact addEdge_self_mem_nodes g.base a bidir
  · intro g a b bidir p d
    unfold EpisodeGraph.addEdge
    exact eventsOf_recordEvent _ _ a b p _ d
  · intro g a b p d
    unfold EpisodeGraph.removeEdge
    exact eventsOf_recordEvent _ _ a b p _ d
  · intro g action p e d
    exact ⟨rfl, rfl⟩
  · intro g a b p d hab
    unfold EpisodeGraph.addEdge EpisodeGraph.recordEvent
    exact addEdge_hasEdge g.base a b hab
  · intro g a b bidir p d h1 h2
    unfold EpisodeGraph.addEdge EpisodeGraph.recordEvent
    exact addEdge_adj_of_present g.base a b bidir h1 h2
  · intro g a b p d h
    unfold EpisodeGraph.removeEdge EpisodeGraph.recordEvent
    exact removeEdge_adj_of_absent g.base a b h
  · intro g a b p d
    unfold EpisodeGraph.removeEdge EpisodeGraph.recordEvent
    exact removeEdge_hasEdge g.base a b

def c4node2 : EpisodeNode := (strL "tvdb_show", strL "2", some (strL "s1"), strL "1")

/-- Witness for C4's amended theorem at concrete graphs. -/
theorem c4_witness :
    (EpisodeGraph.empty.addEdge c4node c4node true none none).base.adj =
      EpisodeGraph.empty.base.adj ∧
    (EpisodeGraph.empty.addEdge c4node c4node2 true none none).base.hasEdge c4node c4node2 =
      true ∧
    ((EpisodeGraph.empty.addEdge c4node c4node2 true none none).removeEdge c4node c4node2
      none none).base.hasEdge c4node c4node2 = false :=
  ⟨(c4_effective_semantics.1 EpisodeGraph.empty c4node true none none).1,
    c4_effective_semantics.2.2.2.2.1 EpisodeGraph.empty c4node c4node2 none none (by decide),
    c4_effective_semantics.2.2.2.2.2.2.2 _ c4node c4node2 none none⟩

/-! ## C9: the projection never maps a scope to itself -/

theorem foldl_preserves {β σ : Type} (f : σ → β → σ) (P : σ → Prop)
    (hf : ∀ s b, P s → P (f s b)) : ∀ (l : List β) (s : σ), P s → P (l.foldl f s) := by
  intro l
  induction l with
  | nil => exact fun s hs => hs
  | cons x xs ih => exact fun s hs => ih (f s x) (hf s x hs)

theorem mem_targetBucketAdd_key {tgt tgt' : IdNodeT} {rb : RangeBucket} {sr tr : Str} :
    ∀ b : TargetBucket, (tgt, rb) ∈ targetBucketAdd b tgt' sr tr →
      (∃ rb0, (tgt, rb0) ∈ b) ∨ tgt = tgt' := by
  intro b
  induction b with
  | nil =>
    intro h
    simp only [targetBucketAdd, List.mem_singleton] at h
    exact Or.inr (congrArg Prod.fst h)
  | cons kv rest ih =>
    obtain ⟨k, rb0⟩ := kv
    intro h
    by_cases hk : k = tgt'
    · simp only [targetBucketAdd, if_pos hk] at h
      rcases List.mem_cons.mp h with h | h
      · exact Or.inl ⟨rb0, by rw [show tgt = k from (congrArg Prod.fst h)]; simp⟩
      · exact Or.inl ⟨rb, List.mem_cons_of_mem _ h⟩
    · simp only [targetBucketAdd, if_neg hk] at h
      rcases List.mem_cons.mp h with h | h
      · exact Or.inl ⟨rb0, by rw [show tgt = k from congrArg Prod.fst h]; simp⟩
      · rcases ih h with ⟨rb1, hm⟩ | he
        · exact Or.inl ⟨rb1, List.mem_cons_of_mem _ hm⟩
        · exact Or.inr he

/-- The no-self-target invariant of a partially built source-target map. -/
def NoSelfTarget (m : SourceTargetMap) : Prop :=
  ∀ src tb tgt rb, (src, tb) ∈ m → (tgt, rb) ∈ tb → tgt ≠ src

theorem stmAdd_preserves {src' tgt' : IdNodeT} {sr tr : Str} (hne : tgt' ≠ src') :
    ∀ m : SourceTargetMap, NoSelfTarget m → NoSelfTarget (stmAdd m src' tgt' sr tr) := by
  intro m
  induction m with
  | nil =>
    intro _ src tb tgt rb hm htb
    simp only [stmAdd, List.mem_singleton] at hm
    rw [Prod.ext_iff] at hm
    obtain ⟨h1, h2⟩ := hm
    dsimp only at h1 h2
    subst h1
    rw [h2] at htb
    simp only [List.mem_singleton] at htb
    rw [show tgt = tgt' from congrArg Prod.fst htb]
    exact hne
  | cons kv rest ih =>
    obtain ⟨k, b⟩ := kv
    intro hP src tb tgt rb hm htb
    have hPrest : NoSelfTarget rest :=
      fun s t tg r hmm htt => hP s t tg r (List.mem_cons_of_mem _ hmm) htt
    by_cases hk : k = src'
    · simp only [stmAdd, if_pos hk] at hm
      rcases List.mem_cons.mp hm with hm | hm
      · rw [Prod.ext_iff] at hm
        obtain ⟨h1, h2⟩ := hm
        dsimp only at h1 h2
        subst h1
        rw [h2] at htb
        rcases mem_targetBucketAdd_key b htb with ⟨rb0, hmm⟩ | he
        · exact hP src b tgt rb0 (List.mem_cons_self _ _) hmm
        · rw [he, hk]
          exact hne
      · exact hPrest src tb tgt rb hm htb
    · simp only [stmAdd, if_neg hk] at hm
      rcases List.mem_cons.mp hm with hm | hm
      · rw [Prod.ext_iff] at hm
        obtain ⟨h1, h2⟩ := hm
        dsimp only at h1 h2
        subst h1
        rw [h2] at htb
        exact hP src b tgt rb (List.mem_cons_self _ _) htb
      · exact ih hPrest src tb tgt rb hm htb

theorem stmVisitNeighbor_preserves (node : EpisodeNode) (srcRange : Str)
    (m : SourceTargetMap) (neighbor : EpisodeNode) (hP : NoSelfTarget m) :
    NoSelfTarget (stmVisitNeighbor node srcRange m neighbor) := by
  unfold stmVisitNeighbor
  by_cases h1 : neighbor = node
  · rw [if_pos h1]; exact hP
  · rw [if_neg h1]
    by_cases h2 : node.1 = neighbor.1 ∧ node.2.1 = neighbor.2.1 ∧ node.2.2.1 = neighbor.2.2.1
    · rw [if_pos h2]; exact hP
    · rw [if_neg h2]
      cases hk : normalizeEpisodeKey (rangeOf neighbor) with
      | none => exact hP
      | some tr =>
        apply stmAdd_preserves _ _ hP
        intro he
        rw [Prod.ext_iff, Prod.ext_iff] at he
        exact h2 ⟨he.1.symm, he.2.1.symm, he.2.2.symm⟩

/-- C9: `build_source_target_map` never emits an entry whose target
(provider, id, scope) equals the source (provider, id, scope): edges between
two range nodes of the same entity are skipped, so the projection (and hence
the rendered payload) never maps a descriptor to itself. -/
theorem c9_no_self_mapping (g : BaseGraph EpisodeNode) :
    ∀ src tb tgt rb, (src, tb) ∈ buildSourceTargetMap g → (tgt, rb) ∈ tb → tgt ≠ src := by
  have h : NoSelfTarget (buildSourceTargetMap g) := by
    unfold buildSourceTargetMap
    apply foldl_preserves _ NoSelfTarget
    · intro m node hP
      cases hk : normalizeEpisodeKey (rangeOf node) with
      | none => exact hP
      | some srcRange =>
        exact foldl_preserves _ NoSelfTarget
          (fun m2 nb hP2 => stmVisitNeighbor_preserves node srcRange m2 nb hP2) _ m hP
    · intro src tb tgt rb hm
      cases hm
  exact h

def c9na : EpisodeNode := (strL "anilist", strL "1", none, strL "1")

def c9nb : EpisodeNode := (strL "tvdb_show", strL "2", some (strL "s1"), strL "1")

def c9graph : BaseGraph EpisodeNode := BaseGraph.empty.addEdge c9na c9nb true

/-- Witness for C9 on a concrete two-node graph. -/
theorem c9_witness :
    ((strL "tvdb_show", strL "2", some (strL "s1")) : IdNodeT) ≠
      (strL "anilist", strL "1", none) :=
  c9_no_self_mapping c9graph (strL "anilist", strL "1", none)
    [((strL "tvdb_show", strL "2", some (strL "s1")), [(strL "1", [strL "1"])])]
    (strL "tvdb_show", strL "2", some (strL "s1")) [(strL "1", [strL "1"])]
    (by decide) (by decide)

/-! ## BFS and component correctness -/

theorem mem_neighborsList_iff {α : Type} [DecidableEq α] {g : BaseGraph α} {a x : α} :
    x ∈ g.neighborsList a ↔ (a, x) ∈ g.adj := by
  unfold BaseGraph.neighborsList
  constructor
  · intro hx
    rcases List.mem_map.mp hx with ⟨e, he, rfl⟩
    obtain ⟨e1, e2⟩ := e
    have h1 := (List.mem_filter.mp he).2
    simp only [decide_eq_true_eq] at h1
    dsimp only at h1 ⊢
    subst h1
    exact (List.mem_filter.mp he).1
  · intro h
    exact List.mem_map.mpr ⟨(a, x), List.mem_filter.mpr ⟨h, by simp⟩, rfl⟩

theorem bfsAux_nil {α : Type} [DecidableEq α] (g : BaseGraph α) (visited : List α)
    (hq : ∀ x ∈ ([] : List α), x ∈ g.univ) : bfsAux g [] visited hq = visited := by
  rw [bfsAux]

theorem bfsAux_cons_mem {α : Type} [DecidableEq α] (g : BaseGraph α) (n : α)
    (rest visited : List α) (hq : ∀ x ∈ n :: rest, x ∈ g.univ)
    (hq2 : ∀ x ∈ rest, x ∈ g.univ) (hn : n ∈ visited) :
    bfsAux g (n :: rest) visited hq = bfsAux g rest visited hq2 := by
  rw [bfsAux]
  rw [dif_pos hn]

theorem bfsAux_cons_new {α : Type} [DecidableEq α] (g : BaseGraph α) (n : α)
    (rest visited : List α) (hq : ∀ x ∈ n :: rest, x ∈ g.univ)
    (hq2 : ∀ x ∈ rest ++ (g.neighborsList n).filter (fun x => decide (x ∉ visited ++ [n])),
      x ∈ g.univ)
    (hn : n ∉ visited) :
    bfsAux g (n :: rest) visited hq =
      bfsAux g (rest ++ (g.neighborsList n).filter (fun x => decide (x ∉ visited ++ [n])))
        (visited ++ [n]) hq2 := by
  rw [bfsAux]
  rw [dif_neg hn]

theorem bfsAux_main {α : Type} [DecidableEq α] (g : BaseGraph α) (s : α) :
    ∀ (queue visited : List α) (hq : ∀ x ∈ queue, x ∈ g.univ),
      (∀ v ∈ visited, ∀ y ∈ g.neighborsList v, y ∈ visited ∨ y ∈ queue) →
      (∀ q ∈ queue, g.Reach s q) →
      (∀ v ∈ visited, g.Reach s v) →
      visited.Nodup →
      (∀ v ∈ visited, v ∈ bfsAux g queue visited hq) ∧
      (∀ q ∈ queue, q ∈ bfsAux g queue visited hq) ∧
      (∀ v ∈ bfsAux g queue visited hq, ∀ y ∈ g.neighborsList v, y ∈ bfsAux g queue visited hq) ∧
      (∀ x ∈ bfsAux g queue visited hq, g.Reach s x) ∧
      (bfsAux g queue visited hq).Nodup := by
  intro queue visited hq
  induction queue, visited, hq using bfsAux.induct g with
  | case1 visited hq _ =>
    intro hclosed _ hreach hnd
    rw [bfsAux_nil]
    refine ⟨fun v hv => hv, fun q hqq => absurd hqq (List.not_mem_nil q), ?_, hreach, hnd⟩
    intro v hv y hy
    rcases hclosed v hv y hy with h | h
    · exact h
    · cases h
  | case2 visited n rest hq hn _ ih =>
    intro hclosed hqreach hreach hnd
    rw [bfsAux_cons_mem g n rest visited hq (fun x hx => hq x (List.mem_cons_of_mem _ hx)) hn]
    have hclosed2 : ∀ v ∈ visited, ∀ y ∈ g.neighborsList v, y ∈ visited ∨ y ∈ rest := by
      intro v hv y hy
      rcases hclosed v hv y hy with h | h
      · exact Or.inl h
      · rcases List.mem_cons.mp h with rfl | h2
        · exact Or.inl hn
        · exact Or.inr h2
    have ih2 := ih hclosed2 (fun q hqq => hqreach q (List.mem_cons_of_mem _ hqq)) hreach hnd
    refine ⟨ih2.1, ?_, ih2.2.2.1, ih2.2.2.2.1, ih2.2.2.2.2⟩
    intro q hqq
    rcases List.mem_cons.mp hqq with rfl | h2
    · exact ih2.1 q hn
    · exact ih2.2.1 q h2
  | case3 visited n rest hq hn visited2 newNbrs _ ih =>
    intro hclosed hqreach hreach hnd
    rw [bfsAux_cons_new g n rest visited hq
      (fun x hx => by
        rcases List.mem_append.mp hx with h | h
        · exact hq x (List.mem_cons_of_mem _ h)
        · have h2 : x ∈ g.neighborsList n := List.mem_of_mem_filter h
          unfold BaseGraph.neighborsList at h2
          rcases List.mem_map.mp h2 with ⟨e, he, rfl⟩
          exact List.mem_append.mpr
            (Or.inr (List.mem_map.mpr ⟨e, List.mem_of_mem_filter he, rfl⟩))) hn]
    have hreachn : g.Reach s n := hqreach n (List.mem_cons_self _ _)
    have hclosed2 : ∀ v ∈ visited ++ [n], ∀ y ∈ g.neighborsList v,
        y ∈ visited ++ [n] ∨
          y ∈ rest ++ (g.neighborsList n).filter (fun x => decide (x ∉ visited ++ [n])) := by
      intro v hv y hy
      rcases List.mem_append.mp hv with hv | hv
      · rcases hclosed v hv y hy with h | h
        · exact Or.inl (List.mem_append_left _ h)
        · rcases List.mem_cons.mp h with rfl | h2
          · exact Or.inl (List.mem_append_right _ (List.mem_singleton.mpr rfl))
          · exact Or.inr (List.mem_append_left _ h2)
      · rcases List.mem_singleton.mp hv with rfl
        by_cases hy2 : y ∈ visited ++ [v]
        · exact Or.inl hy2
        · refine Or.inr (List.mem_append_right _ ?_)
          exact List.mem_filter.mpr ⟨hy, by simpa using hy2⟩
    have hqreach2 : ∀ q ∈ rest ++ (g.neighborsList n).filter
        (fun x => decide (x ∉ visited ++ [n])), g.Reach s q := by
      intro q hqq
      rcases List.mem_append.mp hqq with h | h
      · exact hqreach q (List.mem_cons_of_mem _ h)
      · have h2 : q ∈ g.neighborsList n := List.mem_of_mem_filter h
        exact Relation.ReflTransGen.tail hreachn (mem_neighborsList_iff.mp h2)
    have hreach2 : ∀ v ∈ visited ++ [n], g.Reach s v := by
      intro v hv
      rcases List.mem_append.mp hv with hv | hv
      · exact hreach v hv
      · rcases List.mem_singleton.mp hv with rfl
        exact hreachn
    have hnd2 : (visited ++ [n]).Nodup := by
      rw [List.nodup_append]
      refine ⟨hnd, List.nodup_singleton n, ?_⟩
      intro a ha
      simp only [List.mem_singleton]
      rintro rfl
      exact hn ha
    have ih2 := ih hclosed2 hqreach2 hreach2 hnd2
    refine ⟨?_, ?_, ih2.2.2.1, ih2.2.2.2.1, ih2.2.2.2.2⟩
    · intro v hv
      exact ih2.1 v (List.mem_append_left _ hv)
    · intro q hqq
      rcases List.mem_cons.mp hqq with rfl | h2
      · exact ih2.1 q (List.mem_append_right _ (List.mem_singleton.mpr rfl))
      · exact ih2.2.1 q (List.mem_append_left _ h2)

theorem getComponent_spec {α : Type} [DecidableEq α] (g : BaseGraph α) (s : α)
    (hs : s ∈ g.nodesList) :
    (∀ x ∈ g.getComponent s, g.Reach s x) ∧
    s ∈ g.getComponent s ∧
    (∀ v ∈ g.getComponent s, ∀ y, (v, y) ∈ g.adj → y ∈ g.getComponent s) ∧
    (g.getComponent s).Nodup := by
  unfold BaseGraph.getComponent
  rw [dif_pos hs]
  have h := bfsAux_main g s [s] []
    (by
      intro x hx
      rcases List.mem_singleton.mp hx with rfl
      exact List.mem_append.mpr (Or.inl hs))
    (by intro v hv; cases hv)
    (by
      intro q hqq
      rcases List.mem_singleton.mp hqq with rfl
      exact Relation.ReflTransGen.refl)
    (by intro v hv; cases hv)
    List.nodup_nil
  exact ⟨h.2.2.2.1, h.2.1 s (List.mem_singleton.mpr rfl),
    fun v hv y hadj => h.2.2.1 v hv y (mem_neighborsList_iff.mpr hadj), h.2.2.2.2⟩

theorem mem_getComponent_of_reach {α : Type} [DecidableEq α] {g : BaseGraph α} {s x : α}
    (hs : s ∈ g.nodesList) (hr : g.Reach s x) : x ∈ g.getComponent s := by
  induction hr with
  | refl => exact (getComponent_spec g s hs).2.1
  | tail hab hbc ih => exact (getComponent_spec g s hs).2.2.1 _ ih _ hbc

theorem mem_getComponent_iff {α : Type} [DecidableEq α] {g : BaseGraph α} {s x : α}
    (hs : s ∈ g.nodesList) : x ∈ g.getComponent s ↔ g.Reach s x :=
  ⟨fun h => (getComponent_spec g s hs).1 x h, mem_getComponent_of_reach hs⟩

theorem getComponent_absent {α : Type} [DecidableEq α] (g : BaseGraph α) (s : α)
    (hs : s ∉ g.nodesList) : g.getComponent s = [] := by
  unfold BaseGraph.getComponent
  rw [dif_neg hs]

theorem reach_symm {α : Type} {g : BaseGraph α} (hsymm : g.Symm) {a b : α}
    (h : g.Reach a b) : g.Reach b a := by
  induction h with
  | refl => exact Relation.ReflTransGen.refl
  | tail hab hbc ih =>
    exact Relation.ReflTransGen.trans
      (Relation.ReflTransGen.single (hsymm _ _ hbc)) ih

theorem reach_mono {α : Type} {g g' : BaseGraph α} (h : ∀ e ∈ g.adj, e ∈ g'.adj) {a b : α}
    (hr : g.Reach a b) : g'.Reach a b :=
  Relation.ReflTransGen.mono (fun x y hxy => h (x, y) hxy) hr

theorem reach_eq_of_sandwich {α : Type} {g0 g : BaseGraph α}
    (hmono : ∀ e ∈ g0.adj, e ∈ g.adj) (hnew : ∀ e ∈ g.adj, g0.Reach e.1 e.2) {a b : α} :
    g.Reach a b ↔ g0.Reach a b := by
  constructor
  · intro h
    induction h with
    | refl => exact Relation.ReflTransGen.refl
    | tail hab hbc ih => exact Relation.ReflTransGen.trans ih (hnew _ hbc)
  · exact reach_mono hmono

/-! ## C5: transitive closure -/

theorem insertSorted_perm {α : Type} (le : α → α → Bool) (x : α) :
    ∀ l : List α, List.Perm (insertSorted le x l) (x :: l) := by
  intro l
  induction l with
  | nil => exact List.Perm.refl _
  | cons y ys ih =>
    unfold insertSorted
    by_cases h : le x y
    · rw [if_pos h]
    · rw [if_neg h]
      exact List.Perm.trans (List.Perm.cons y ih) (List.Perm.swap x y ys)

theorem sortNodes_perm (l : List EpisodeNode) : List.Perm (sortNodes l) l := by
  induction l with
  | nil => exact List.Perm.refl _
  | cons a t ih =>
    unfold sortNodes
    rw [List.foldr_cons]
    exact List.Perm.trans (insertSorted_perm nodeLe a _) (List.Perm.cons a ih)

theorem mem_sortNodes {l : List EpisodeNode} {x : EpisodeNode} :
    x ∈ sortNodes l ↔ x ∈ l := (sortNodes_perm l).mem_iff

theorem sortNodes_nodup {l : List EpisodeNode} (h : l.Nodup) : (sortNodes l).Nodup :=
  ((sortNodes_perm l).nodup_iff).mpr h

theorem two_le_length_of_distinct_mem {α : Type} {l : List α} {a b : α}
    (ha : a ∈ l) (hb : b ∈ l) (hab : a ≠ b) : 2 ≤ l.length := by
  cases l with
  | nil => cases ha
  | cons x t =>
    cases t with
    | nil =>
      rcases List.mem_singleton.mp ha with rfl
      rcases List.mem_singleton.mp hb with rfl
      exact absurd rfl hab
    | cons y t2 => simp only [List.length_cons]; omega

theorem hasEdge_comm {α : Type} [DecidableEq α] (g : BaseGraph α) (a b : α) :
    g.hasEdge a b = g.hasEdge b a := by
  unfold BaseGraph.hasEdge
  exact Bool.or_comm _ _

theorem hasEdge_mono {α : Type} [DecidableEq α] {g g' : BaseGraph α} {a b : α}
    (h : ∀ e ∈ g.adj, e ∈ g'.adj) (he : g.hasEdge a b = true) : g'.hasEdge a b = true := by
  unfold BaseGraph.hasEdge at *
  simp only [Bool.or_eq_true, decide_eq_true_eq] at *
  rcases he with he | he
  · exact Or.inl (h _ he)
  · exact Or.inr (h _ he)

theorem hasEdge_true_iff {α : Type} [DecidableEq α] {g : BaseGraph α} {a b : α} :
    g.hasEdge a b = true ↔ ((a, b) ∈ g.adj ∨ (b, a) ∈ g.adj) := by
  unfold BaseGraph.hasEdge
  simp

theorem addEdge_nodes_mono {α : Type} [DecidableEq α] (g : BaseGraph α) (a b : α)
    (bidir : Bool) {x : α} (h : x ∈ g.nodesList) : x ∈ (g.addEdge a b bidir).nodesList := by
  unfold BaseGraph.addEdge
  by_cases hab : a = b
  · rw [if_pos hab]
    exact mem_ensureNode_of_mem h
  · rw [if_neg hab]
    exact mem_ensureNode_of_mem (mem_ensureNode_of_mem h)

theorem addEdge_adj_append {α : Type} [DecidableEq α] (g : BaseGraph α) (a b : α)
    (hab : a ≠ b) (h1 : (a, b) ∉ g.adj) (h2 : (b, a) ∉ g.adj) :
    (g.addEdge a b true).adj = g.adj ++ [(a, b), (b, a)] := by
  unfold BaseGraph.addEdge
  rw [if_neg hab]
  simp only [ensureNode_adj]
  rw [if_pos trivial]
  have e1 : insertAdj g.adj (a, b) = g.adj ++ [(a, b)] := by
    unfold insertAdj
    rw [if_neg h1]
  rw [e1]
  have h2b : (b, a) ∉ g.adj ++ [(a, b)] := by
    intro hm
    rcases List.mem_append.mp hm with hm | hm
    · exact h2 hm
    · rcases List.mem_singleton.mp hm with he
      have hba : b = a := congrArg Prod.fst he
      exact hab hba.symm
  unfold insertAdj
  rw [if_neg h2b, List.append_assoc]
  rfl

theorem symm_addEdge {α : Type} [DecidableEq α] {g : BaseGraph α} (hs : g.Symm) (a b : α) :
    (g.addEdge a b true).Symm := by
  by_cases hab : a = b
  · subst hab
    intro x y hxy
    rw [addEdge_self_adj] at hxy ⊢
    exact hs x y hxy
  · intro x y hxy
    rw [addEdge_adj_characterization g a b hab] at hxy ⊢
    rcases hxy with h | h | h
    · exact Or.inl (hs x y h)
    · rw [Prod.ext_iff] at h
      obtain ⟨h1, h2⟩ := h
      dsimp only at h1 h2
      subst h1; subst h2
      exact Or.inr (Or.inr rfl)
    · rw [Prod.ext_iff] at h
      obtain ⟨h1, h2⟩ := h
      dsimp only at h1 h2
      subst h1; subst h2
      exact Or.inr (Or.inl rfl)

theorem episode_addEdge_base (g : EpisodeGraph) (a b : EpisodeNode) (bidir : Bool)
    (p : Option ProvenanceContext) (d : Option DetailsT) :
    (g.addEdge a b bidir p d).base = g.base.addEdge a b bidir := rfl

/-- Invariant threaded through `add_transitive_edges` relative to the
starting graph `g0`: adjacency only grows, every new edge joins two distinct
marker-free nodes already reachable from one another in `g0`, symmetry and
the node set are preserved (up to growth), and the directed adjacency count
grows by exactly two per counted edge. -/
def TransInv (g0 g : EpisodeGraph) (added : Nat) : Prop :=
  (∀ e ∈ g0.base.adj, e ∈ g.base.adj) ∧
  (∀ e ∈ g.base.adj, e ∈ g0.base.adj ∨
    (hasMarker (rangeOf e.1) = false ∧ hasMarker (rangeOf e.2) = false ∧
      g0.base.Reach e.1 e.2 ∧ e.1 ≠ e.2)) ∧
  g.base.Symm ∧
  (∀ x ∈ g0.base.nodesList, x ∈ g.base.nodesList) ∧
  g.base.adj.length = g0.base.adj.length + 2 * added

theorem TransInv_init (g0 : EpisodeGraph) (hs : g0.base.Symm) : TransInv g0 g0 0 :=
  ⟨fun _ he => he, fun e he => Or.inl he, hs, fun _ hx => hx, by omega⟩

theorem TransInv_reach_iff {g0 g : EpisodeGraph} {added : Nat} (h : TransInv g0 g added)
    {a b : EpisodeNode} : g.base.Reach a b ↔ g0.base.Reach a b := by
  apply reach_eq_of_sandwich h.1
  intro e he
  rcases h.2.1 e he with he0 | ⟨_, _, hr, _⟩
  · exact Relation.ReflTransGen.single he0
  · exact hr

theorem transInner_spec (ctx : Option ProvenanceContext) (s : EpisodeNode)
    {g0 : EpisodeGraph} (hsymm0 : g0.base.Symm) :
    ∀ (ts : List EpisodeNode) (g : EpisodeGraph) (added : Nat),
      TransInv g0 g added →
      (∀ t ∈ ts, g0.base.Reach s t) →
      s ∉ ts →
      TransInv g0 (transInner ctx s g added ts).1 (transInner ctx s g added ts).2 ∧
      (∀ e ∈ g.base.adj, e ∈ (transInner ctx s g added ts).1.base.adj) ∧
      (∀ t ∈ ts, hasMarker (rangeOf s) = false → hasMarker (rangeOf t) = false →
        (transInner ctx s g added ts).1.base.hasEdge s t = true) := by
  intro ts
  induction ts with
  | nil =>
    intro g added hinv _ _
    exact ⟨hinv, fun e he => he, fun t ht => absurd ht (List.not_mem_nil t)⟩
  | cons t rest ih =>
    intro g added hinv hreach hnotin
    have hrrest : ∀ u ∈ rest, g0.base.Reach s u :=
      fun u hu => hreach u (List.mem_cons_of_mem _ hu)
    have hnrest : s ∉ rest := fun hm => hnotin (List.mem_cons_of_mem _ hm)
    have hst : g0.base.Reach s t := hreach t (List.mem_cons_self _ _)
    have hsnet : s ≠ t := fun he => hnotin (he ▸ List.mem_cons_self _ _)
    by_cases hmem : (s, t) ∈ g.base.adj
    · have heq : transInner ctx s g added (t :: rest) = transInner ctx s g added rest := by
        unfold transInner
        rw [if_pos hmem]
        rw [transInner.eq_def]
      rw [heq]
      have ihr := ih g added hinv hrrest hnrest
      refine ⟨ihr.1, ihr.2.1, ?_⟩
      intro u hu hcs hcu
      rcases List.mem_cons.mp hu with rfl | hu2
      · exact hasEdge_mono ihr.2.1 (hasEdge_true_iff.mpr (Or.inl hmem))
      · exact ihr.2.2 u hu2 hcs hcu
    · by_cases hmark : hasMarker (rangeOf s) || hasMarker (rangeOf t)
      · have heq : transInner ctx s g added (t :: rest) = transInner ctx s g added rest := by
          unfold transInner
          rw [if_neg hmem, if_pos hmark]
          rw [transInner.eq_def]
        rw [heq]
        have ihr := ih g added hinv hrrest hnrest
        refine ⟨ihr.1, ihr.2.1, ?_⟩
        intro u hu hcs hcu
        rcases List.mem_cons.mp hu with rfl | hu2
        · rw [hcs, hcu] at hmark
          simp at hmark
        · exact ihr.2.2 u hu2 hcs hcu
      · have heq : transInner ctx s g added (t :: rest) =
            transInner ctx s (g.addEdge s t true ctx none) (added + 1) rest := by
          unfold transInner
          rw [if_neg hmem, if_neg hmark]
          rw [transInner.eq_def]
        rw [heq]
        simp only [Bool.or_eq_true, not_or, Bool.not_eq_true] at hmark
        have hts : (t, s) ∉ g.base.adj := fun hm => hmem (hinv.2.2.1 t s hm)
        have hbase : (g.addEdge s t true ctx none).base = g.base.addEdge s t true :=
          episode_addEdge_base g s t true ctx none
        have hadj : (g.addEdge s t true ctx none).base.adj =
            g.base.adj ++ [(s, t), (t, s)] := by
          rw [hbase]
          exact addEdge_adj_append g.base s t hsnet hmem hts
        have hinv2 : TransInv g0 (g.addEdge s t true ctx none) (added + 1) := by
          refine ⟨?_, ?_, ?_, ?_, ?_⟩
          · intro e he
            rw [hadj]
            exact List.mem_append_left _ (hinv.1 e he)
          · intro e he
            rw [hadj] at he
            rcases List.mem_append.mp he with he | he
            · exact hinv.2.1 e he
            · rcases List.mem_cons.mp he with rfl | he
              · exact Or.inr ⟨hmark.1, hmark.2, hst, hsnet⟩
              · rcases List.mem_singleton.mp he with rfl
                exact Or.inr ⟨hmark.2, hmark.1, reach_symm hsymm0 hst,
                  fun he2 => hsnet he2.symm⟩
          · rw [hbase]
            exact symm_addEdge hinv.2.2.1 s t
          · intro x hx
            rw [hbase]
            exact addEdge_nodes_mono g.base s t true (hinv.2.2.2.1 x hx)
          · rw [hadj]
            have hc := hinv.2.2.2.2
            simp only [List.length_append, List.length_cons, List.length_nil]
            omega
        have ihr := ih (g.addEdge s t true ctx none) (added + 1) hinv2 hrrest hnrest
        refine ⟨ihr.1, ?_, ?_⟩
        · intro e he
          apply ihr.2.1
          rw [hadj]
          exact List.mem_append_left _ he
        · intro u hu hcs hcu
          rcases List.mem_cons.mp hu with rfl | hu2
          · apply hasEdge_mono ihr.2.1
            rw [hbase]
            exact addEdge_hasEdge g.base s u hsnet
          · exact ihr.2.2 u hu2 hcs hcu

theorem transPairs_cons (ctx : Option ProvenanceContext) (g : EpisodeGraph) (added : Nat)
    (s : EpisodeNode) (rest : List EpisodeNode) :
    transPairs ctx g added (s :: rest) =
      transPairs ctx (transInner ctx s g added rest).1 (transInner ctx s g added rest).2 rest :=
  rfl

theorem transPairs_spec (ctx : Option ProvenanceContext) {g0 : EpisodeGraph}
    (hsymm0 : g0.base.Symm) :
    ∀ (l : List EpisodeNode) (g : EpisodeGraph) (added : Nat),
      TransInv g0 g added →
      (∀ s ∈ l, ∀ t ∈ l, g0.base.Reach s t) →
      l.Nodup →
      TransInv g0 (transPairs ctx g added l).1 (transPairs ctx g added l).2 ∧
      (∀ e ∈ g.base.adj, e ∈ (transPairs ctx g added l).1.base.adj) ∧
      (∀ s ∈ l, ∀ t ∈ l, s ≠ t →
        hasMarker (rangeOf s) = false → hasMarker (rangeOf t) = false →
        (transPairs ctx g added l).1.base.hasEdge s t = true) := by
  intro l
  induction l with
  | nil =>
    intro g added hinv _ _
    exact ⟨hinv, fun e he => he, fun s hs => absurd hs (List.not_mem_nil s)⟩
  | cons s rest ih =>
    intro g added hinv hpair hnd
    have hnd2 := List.nodup_cons.mp hnd
    have hreach : ∀ t ∈ rest, g0.base.Reach s t :=
      fun t ht => hpair s (List.mem_cons_self _ _) t (List.mem_cons_of_mem _ ht)
    have hin := transInner_spec ctx s hsymm0 rest g added hinv hreach hnd2.1
    rw [transPairs_cons]
    have hpair2 : ∀ x ∈ rest, ∀ y ∈ rest, g0.base.Reach x y :=
      fun x hx y hy => hpair x (List.mem_cons_of_mem _ hx) y (List.mem_cons_of_mem _ hy)
    have ihr := ih (transInner ctx s g added rest).1 (transInner ctx s g added rest).2
      hin.1 hpair2 hnd2.2
    refine ⟨ihr.1, ?_, ?_⟩
    · intro e he
      exact ihr.2.1 e (hin.2.1 e he)
    · intro x hx y hy hxy hmx hmy
      rcases List.mem_cons.mp hx with rfl | hx2
      · rcases List.mem_cons.mp hy with rfl | hy2
        · exact absurd rfl hxy
        · exact hasEdge_mono ihr.2.1 (hin.2.2 y hy2 hmx hmy)
      · rcases List.mem_cons.mp hy with rfl | hy2
        · have hxe := hin.2.2 x hx2 hmy hmx
          rw [hasEdge_comm] at hxe
          exact hasEdge_mono ihr.2.1 hxe
        · exact ihr.2.2 x hx2 y hy2 hxy hmx hmy

/-- "Component fully connected" goal predicate for the outer loop of
`add_transitive_edges`: every pair of distinct marker-free nodes reachable
from `a` in the original graph is directly adjacent in `gg`. -/
def CompDone (g0 gg : EpisodeGraph) (a : EpisodeNode) : Prop :=
  ∀ x y : EpisodeNode, g0.base.Reach a x → g0.base.Reach a y → x ≠ y →
    hasMarker (rangeOf x) = false → hasMarker (rangeOf y) = false →
    gg.base.hasEdge x y = true

theorem compDone_mono {g0 gg gg' : EpisodeGraph} {a : EpisodeNode}
    (hmono : ∀ e ∈ gg.base.adj, e ∈ gg'.base.adj) (h : CompDone g0 gg a) :
    CompDone g0 gg' a :=
  fun x y hx hy hxy hmx hmy => hasEdge_mono hmono (h x y hx hy hxy hmx hmy)

theorem transOuter_cons_mem (ctx : Option ProvenanceContext) (g : EpisodeGraph)
    (visited : List EpisodeNode) (added : Nat) (n : EpisodeNode) (rest : List EpisodeNode)
    (hmem : n ∈ visited) :
    transOuter ctx g visited added (n :: rest) = transOuter ctx g visited added rest := by
  conv_lhs => unfold transOuter
  rw [if_pos hmem]

theorem transOuter_cons_small (ctx : Option ProvenanceContext) (g : EpisodeGraph)
    (visited : List EpisodeNode) (added : Nat) (n : EpisodeNode) (rest : List EpisodeNode)
    (hmem : n ∉ visited) (hsmall : (g.base.getComponent n).length < 2) :
    transOuter ctx g visited added (n :: rest) =
      transOuter ctx g (visited ++ g.base.getComponent n) added rest := by
  conv_lhs => unfold transOuter
  rw [if_neg hmem]
  dsimp only
  rw [if_pos hsmall]

theorem transOuter_cons_big (ctx : Option ProvenanceContext) (g : EpisodeGraph)
    (visited : List EpisodeNode) (added : Nat) (n : EpisodeNode) (rest : List EpisodeNode)
    (hmem : n ∉ visited) (hsmall : ¬ (g.base.getComponent n).length < 2) :
    transOuter ctx g visited added (n :: rest) =
      transOuter ctx (transPairs ctx g added (sortNodes (g.base.getComponent n))).1
        (visited ++ g.base.getComponent n)
        (transPairs ctx g added (sortNodes (g.base.getComponent n))).2 rest := by
  conv_lhs => unfold transOuter
  rw [if_neg hmem]
  dsimp only
  rw [if_neg hsmall]

theorem transOuter_spec (ctx : Option ProvenanceContext) {g0 : EpisodeGraph}
    (hsymm0 : g0.base.Symm) :
    ∀ (ns visited : List EpisodeNode) (g : EpisodeGraph) (added : Nat),
      TransInv g0 g added →
      (∀ n ∈ ns, n ∈ g0.base.nodesList) →
      (∀ a ∈ visited, CompDone g0 g a) →
      TransInv g0 (transOuter ctx g visited added ns).1 (transOuter ctx g visited added ns).2 ∧
      (∀ a ∈ visited, CompDone g0 (transOuter ctx g visited added ns).1 a) ∧
      (∀ a ∈ ns, CompDone g0 (transOuter ctx g visited added ns).1 a) := by
  intro ns
  induction ns with
  | nil =>
    intro visited g added hinv _ hvis
    exact ⟨hinv, hvis, fun a ha => absurd ha (List.not_mem_nil a)⟩
  | cons n rest ih =>
    intro visited g added hinv hns hvis
    have hns' : ∀ m ∈ rest, m ∈ g0.base.nodesList :=
      fun m hm => hns m (List.mem_cons_of_mem _ hm)
    by_cases hmem : n ∈ visited
    · rw [transOuter_cons_mem ctx g visited added n rest hmem]
      have ihr := ih visited g added hinv hns' hvis
      refine ⟨ihr.1, ihr.2.1, ?_⟩
      intro a ha
      rcases List.mem_cons.mp ha with rfl | ha2
      · exact ihr.2.1 a hmem
      · exact ihr.2.2 a ha2
    · have hng : n ∈ g.base.nodesList := hinv.2.2.2.1 n (hns n (List.mem_cons_self _ _))
      have hcomp := getComponent_spec g.base n hng
      have hmemc : ∀ x : EpisodeNode, x ∈ g.base.getComponent n ↔ g0.base.Reach n x :=
        fun x => (mem_getComponent_iff hng).trans (TransInv_reach_iff hinv)
      by_cases hsmall : (g.base.getComponent n).length < 2
      · rw [transOuter_cons_small ctx g visited added n rest hmem hsmall]
        have hdone : ∀ a ∈ g.base.getComponent n, CompDone g0 g a := by
          intro a ha x y hax hay hxy _ _
          exfalso
          have hna : g0.base.Reach n a := (hmemc a).mp ha
          have hx : x ∈ g.base.getComponent n :=
            (hmemc x).mpr (Relation.ReflTransGen.trans hna hax)
          have hy : y ∈ g.base.getComponent n :=
            (hmemc y).mpr (Relation.ReflTransGen.trans hna hay)
          exact hxy (by
            have h2 : ¬ 2 ≤ (g.base.getComponent n).length := by omega
            by_contra hne
            exact h2 (two_le_length_of_distinct_mem hx hy hne))
        have hvis2 : ∀ a ∈ visited ++ g.base.getComponent n, CompDone g0 g a := by
          intro a ha
          rcases List.mem_append.mp ha with ha | ha
          · exact hvis a ha
          · exact hdone a ha
        have ihr := ih (visited ++ g.base.getComponent n) g added hinv hns' hvis2
        refine ⟨ihr.1, ?_, ?_⟩
        · intro a ha
          exact ihr.2.1 a (List.mem_append_left _ ha)
        · intro a ha
          rcases List.mem_cons.mp ha with rfl | ha2
          · exact ihr.2.1 a (List.mem_append_right _ hcomp.2.1)
          · exact ihr.2.2 a ha2
      · rw [transOuter_cons_big ctx g visited added n rest hmem hsmall]
        have hpairwise : ∀ x ∈ sortNodes (g.base.getComponent n),
            ∀ y ∈ sortNodes (g.base.getComponent n), g0.base.Reach x y := by
          intro x hx y hy
          have hnx : g0.base.Reach n x := (hmemc x).mp (mem_sortNodes.mp hx)
          have hny : g0.base.Reach n y := (hmemc y).mp (mem_sortNodes.mp hy)
          exact Relation.ReflTransGen.trans (reach_symm hsymm0 hnx) hny
        have hp := transPairs_spec ctx hsymm0 (sortNodes (g.base.getComponent n)) g added
          hinv hpairwise (sortNodes_nodup hcomp.2.2.2)
        have hdone : ∀ a ∈ g.base.getComponent n,
            CompDone g0 (transPairs ctx g added (sortNodes (g.base.getComponent n))).1 a := by
          intro a ha x y hax hay hxy hmx hmy
          have hna : g0.base.Reach n a := (hmemc a).mp ha
          have hx : x ∈ g.base.getComponent n :=
            (hmemc x).mpr (Relation.ReflTransGen.trans hna hax)
          have hy : y ∈ g.base.getComponent n :=
            (hmemc y).mpr (Relation.ReflTransGen.trans hna hay)
          exact hp.2.2 x (mem_sortNodes.mpr hx) y (mem_sortNodes.mpr hy) hxy hmx hmy
        have hvis2 : ∀ a ∈ visited ++ g.base.getComponent n,
            CompDone g0 (transPairs ctx g added (sortNodes (g.base.getComponent n))).1 a := by
          intro a ha
          rcases List.mem_append.mp ha with ha | ha
          · exact compDone_mono hp.2.1 (hvis a ha)
          · exact hdone a ha
        have ihr := ih (visited ++ g.base.getComponent n)
          (transPairs ctx g added (sortNodes (g.base.getComponent n))).1
          (transPairs ctx g added (sortNodes (g.base.getComponent n))).2
          hp.1 hns' hvis2
        refine ⟨ihr.1, ?_, ?_⟩
        · intro a ha
          exact ihr.2.1 a (List.mem_append_left _ ha)
        · intro a ha
          rcases List.mem_cons.mp ha with rfl | ha2
          · exact ihr.2.1 a (List.mem_append_right _ hcomp.2.1)
          · exact ihr.2.2 a ha2

/-- **C5.** After `add_transitive_edges` on a symmetric episode graph: every pair
of distinct nodes of a connected component whose range labels carry neither `,`
nor `|` ends up directly adjacent; every edge of the result is either an original
edge or a new edge between distinct, originally connected, marker-free nodes (so
no new edge touches a node whose range label contains `,` or `|`); and the
returned counter accounts exactly for the added edges: the adjacency list grew by
two directed entries per counted undirected edge. -/
theorem c5_add_transitive_edges (g : EpisodeGraph) (ctx : Option ProvenanceContext)
    (hsymm : g.base.Symm) :
    (∀ a b : EpisodeNode, a ∈ g.base.nodesList → g.base.Reach a b → a ≠ b →
      hasMarker (rangeOf a) = false → hasMarker (rangeOf b) = false →
      (g.addTransitiveEdges ctx).1.base.hasEdge a b = true) ∧
    (∀ e ∈ (g.addTransitiveEdges ctx).1.base.adj, e ∈ g.base.adj ∨
      (hasMarker (rangeOf e.1) = false ∧ hasMarker (rangeOf e.2) = false ∧
        g.base.Reach e.1 e.2 ∧ e.1 ≠ e.2)) ∧
    (g.addTransitiveEdges ctx).1.base.adj.length =
      g.base.adj.length + 2 * (g.addTransitiveEdges ctx).2 := by
  have h := transOuter_spec ctx hsymm g.base.nodesList [] g 0 (TransInv_init g hsymm)
    (fun n hn => hn) (fun a ha => absurd ha (List.not_mem_nil a))
  unfold EpisodeGraph.addTransitiveEdges
  refine ⟨?_, h.1.2.1, h.1.2.2.2.2⟩
  intro a b ha hr hne hma hmb
  exact h.2.2 a ha a b Relation.ReflTransGen.refl hr hne hma hmb

def c5na : EpisodeNode := (strL "tmdb_show", strL "77", none, strL "1-12")

def c5nb : EpisodeNode := (strL "anidb", strL "5", none, strL "1-12")

def c5nc : EpisodeNode := (strL "tvdb_show", strL "9", none, strL "1-12")

def c5g : EpisodeGraph :=
  (EpisodeGraph.empty.addEdge c5na c5nb true none none).addEdge c5nb c5nc true none none

theorem c5_witness :
    (c5g.addTransitiveEdges none).1.base.hasEdge c5na c5nc = true := by
  have hadj : c5g.base.adj = [(c5na, c5nb), (c5nb, c5na), (c5nb, c5nc), (c5nc, c5nb)] := by
    decide
  have hsymm : c5g.base.Symm := by
    intro x y hxy
    rw [hadj] at hxy ⊢
    simp only [List.mem_cons, List.not_mem_nil, or_false] at hxy
    rcases hxy with h | h | h | h <;>
      (rw [Prod.ext_iff] at h; rcases h with ⟨rfl, rfl⟩; decide)
  have hab : (c5na, c5nb) ∈ c5g.base.adj := by rw [hadj]; decide
  have hbc : (c5nb, c5nc) ∈ c5g.base.adj := by rw [hadj]; decide
  have hreach : c5g.base.Reach c5na c5nc :=
    Relation.ReflTransGen.tail (Relation.ReflTransGen.single hab) hbc
  have h := c5_add_transitive_edges c5g none hsymm
  exact h.1 c5na c5nc (by decide) hreach (by decide) (by decide) (by decide)

/-! ## C6: metadata-driven inference -/

theorem truthy_iff {o : Option Int} : truthy o = true ↔ ∃ v : Int, o = some v ∧ v ≠ 0 := by
  cases o <;> simp [truthy]

theorem relativeDelta_comm (a b : Option Int) : relativeDelta a b = relativeDelta b a := by
  cases a with
  | none => cases b <;> rfl
  | some x =>
    cases b with
    | none => rfl
    | some y =>
      unfold relativeDelta
      dsimp only
      by_cases h : x = 0 ∧ y = 0
      · have h' : y = 0 ∧ x = 0 := ⟨h.2, h.1⟩
        rw [if_pos h, if_pos h']
      · have h' : ¬(y = 0 ∧ x = 0) := fun h2 => h ⟨h2.2, h2.1⟩
        rw [if_neg h, if_neg h']
        have h1 : (x - y).natAbs = (y - x).natAbs := by omega
        rw [h1, max_comm x.natAbs y.natAbs]

theorem metaMatch_eq_true_iff (m1 m2 : SourceMeta) :
    metaMatch m1 m2 = true ↔
      (m1.type = m2.type ∧ m1.episodes = m2.episodes ∧
        ¬(m1.type = some SourceType.movie ∧
          (¬truthy m1.startYear ∨ ¬truthy m2.startYear ∨ m1.startYear ≠ m2.startYear)) ∧
        ¬(m1.type = some SourceType.tv ∧ (truthy m1.startYear ∧ truthy m2.startYear) ∧
          m1.startYear ≠ m2.startYear) ∧
        ¬(m1.type = some SourceType.movie ∧
          (¬truthy m1.duration ∨ ¬truthy m2.duration ∨
            relativeDelta m1.duration m2.duration > 1/10)) ∧
        ¬(m1.type = some SourceType.tv ∧ (truthy m1.duration ∧ truthy m2.duration) ∧
          relativeDelta m1.duration m2.duration > 1/10)) := by
  unfold metaMatch
  dsimp only
  split_ifs with h1 h2 h3 h4 h5 h6 <;> simp_all

theorem metaMatch_symm {m1 m2 : SourceMeta} (h : metaMatch m1 m2 = true) :
    metaMatch m2 m1 = true := by
  rw [metaMatch_eq_true_iff] at h ⊢
  obtain ⟨ht, he, ha1, ha2, ha3, ha4⟩ := h
  refine ⟨ht.symm, he.symm, ?_, ?_, ?_, ?_⟩
  · rintro ⟨hm, hd⟩
    apply ha1
    refine ⟨ht.trans hm, ?_⟩
    rcases hd with hd | hd | hd
    · exact Or.inr (Or.inl hd)
    · exact Or.inl hd
    · exact Or.inr (Or.inr (fun he2 => hd he2.symm))
  · rintro ⟨hm, hy, hd⟩
    exact ha2 ⟨ht.trans hm, ⟨hy.2, hy.1⟩, fun he2 => hd he2.symm⟩
  · rintro ⟨hm, hd⟩
    apply ha3
    refine ⟨ht.trans hm, ?_⟩
    rcases hd with hd | hd | hd
    · exact Or.inr (Or.inl hd)
    · exact Or.inl hd
    · exact Or.inr (Or.inr (by rw [relativeDelta_comm]; exact hd))
  · rintro ⟨hm, hy, hd⟩
    exact ha4 ⟨ht.trans hm, ⟨hy.2, hy.1⟩, by rw [relativeDelta_comm]; exact hd⟩

theorem rangeFromEpisodes_pos {N : Int} (hN : 0 < N) :
    rangeFromEpisodes (some N) =
      some (if N = 1 then strL "1" else strL "1-" ++ intStr N) := by
  unfold rangeFromEpisodes
  dsimp only
  rw [if_neg (by omega : ¬ N ≤ 0)]
  split_ifs <;> rfl

theorem addEdge_adj_mono {α : Type} [DecidableEq α] (g : BaseGraph α) (a b : α)
    (bidir : Bool) {e : α × α} (he : e ∈ g.adj) : e ∈ (g.addEdge a b bidir).adj := by
  unfold BaseGraph.addEdge
  by_cases hab : a = b
  · rw [if_pos hab, ensureNode_adj]
    exact he
  · rw [if_neg hab]
    dsimp only
    have he1 : e ∈ ((g.ensureNode a).ensureNode b).adj := by
      rw [ensureNode_adj, ensureNode_adj]
      exact he
    cases bidir with
    | false =>
      rw [if_neg (by decide : ¬ (false = true))]
      exact mem_insertAdj_of_mem he1
    | true =>
      rw [if_pos rfl]
      exact mem_insertAdj_of_mem (mem_insertAdj_of_mem he1)

theorem inferFold_adj_mono (g : EpisodeGraph)
    (pr : (SourceMeta × IdNodeT) × (SourceMeta × IdNodeT)) {e : EpisodeNode × EpisodeNode}
    (he : e ∈ g.base.adj) : e ∈ (inferFold g pr).base.adj := by
  unfold inferFold
  by_cases h : metaMatch pr.1.1 pr.2.1 = true
  · rw [if_pos h]
    cases hr : rangeFromEpisodes pr.1.1.episodes with
    | none => exact he
    | some er =>
      dsimp only
      rw [episode_addEdge_base]
      exact addEdge_adj_mono _ _ _ _ he
  · rw [if_neg h]
    exact he

theorem pairs_foldl_adj_mono :
    ∀ (l : List ((SourceMeta × IdNodeT) × (SourceMeta × IdNodeT))) (g : EpisodeGraph)
      (e : EpisodeNode × EpisodeNode), e ∈ g.base.adj → e ∈ (l.foldl inferFold g).base.adj := by
  intro l
  induction l with
  | nil => exact fun g e he => he
  | cons x rest ih => exact fun g e he => ih (inferFold g x) e (inferFold_adj_mono g x he)

theorem inferFold_emit (g : EpisodeGraph)
    (pr : (SourceMeta × IdNodeT) × (SourceMeta × IdNodeT)) {N : Int}
    (hm : metaMatch pr.1.1 pr.2.1 = true) (he : pr.1.1.episodes = some N) (hN : 0 < N)
    (hne : pr.1.2 ≠ pr.2.2) :
    (inferFold g pr).base.hasEdge
      (pr.1.2.1, pr.1.2.2.1, pr.1.2.2.2, if N = 1 then strL "1" else strL "1-" ++ intStr N)
      (pr.2.2.1, pr.2.2.2.1, pr.2.2.2.2, if N = 1 then strL "1" else strL "1-" ++ intStr N) =
      true := by
  unfold inferFold
  rw [if_pos hm, he, rangeFromEpisodes_pos hN]
  dsimp only
  rw [episode_addEdge_base]
  apply addEdge_hasEdge
  intro hcontra
  apply hne
  rw [Prod.ext_iff, Prod.ext_iff, Prod.ext_iff] at hcontra
  exact Prod.ext_iff.mpr ⟨hcontra.1, Prod.ext_iff.mpr ⟨hcontra.2.1, hcontra.2.2.1⟩⟩

theorem pairs_foldl_emit {N : Int} :
    ∀ (l : List ((SourceMeta × IdNodeT) × (SourceMeta × IdNodeT))) (g : EpisodeGraph)
      (pr : (SourceMeta × IdNodeT) × (SourceMeta × IdNodeT)), pr ∈ l →
      metaMatch pr.1.1 pr.2.1 = true → pr.1.1.episodes = some N → 0 < N →
      pr.1.2 ≠ pr.2.2 →
      (l.foldl inferFold g).base.hasEdge
        (pr.1.2.1, pr.1.2.2.1, pr.1.2.2.2, if N = 1 then strL "1" else strL "1-" ++ intStr N)
        (pr.2.2.1, pr.2.2.2.1, pr.2.2.2.2, if N = 1 then strL "1" else strL "1-" ++ intStr N) =
        true := by
  intro l
  induction l with
  | nil => intro g pr hpr; cases hpr
  | cons x rest ih =>
    intro g pr hpr hm he hN hne
    rcases List.mem_cons.mp hpr with rfl | hpr2
    · exact hasEdge_mono (fun e he2 => pairs_foldl_adj_mono rest (inferFold g pr) e he2)
        (inferFold_emit g pr hm he hN hne)
    · exact ih (inferFold g x) pr hpr2 hm he hN hne

theorem comps_foldl_emit (store : MetaStore) {N : Int} :
    ∀ (L : List (List IdNodeT)) (g : EpisodeGraph) (comp : List IdNodeT)
      (pr : (SourceMeta × IdNodeT) × (SourceMeta × IdNodeT)),
      comp ∈ L → pr ∈ listPairs (metaNodesOf store comp) →
      metaMatch pr.1.1 pr.2.1 = true → pr.1.1.episodes = some N → 0 < N →
      pr.1.2 ≠ pr.2.2 →
      (L.foldl (fun acc comp => (listPairs (metaNodesOf store comp)).foldl inferFold acc)
          g).base.hasEdge
        (pr.1.2.1, pr.1.2.2.1, pr.1.2.2.2, if N = 1 then strL "1" else strL "1-" ++ intStr N)
        (pr.2.2.1, pr.2.2.2.1, pr.2.2.2.2, if N = 1 then strL "1" else strL "1-" ++ intStr N) =
        true := by
  intro L
  induction L with
  | nil => intro g comp pr hc; cases hc
  | cons c rest ih =>
    intro g comp pr hc hpr hm he hN hne
    rcases List.mem_cons.mp hc with rfl | hc2
    · rw [List.foldl_cons]
      have hbase := pairs_foldl_emit (listPairs (metaNodesOf store comp)) g pr hpr hm he hN hne
      have hmono : ∀ (l2 : List (List IdNodeT)) (g2 : EpisodeGraph)
          (e : EpisodeNode × EpisodeNode), e ∈ g2.base.adj →
          e ∈ (l2.foldl (fun acc comp =>
            (listPairs (metaNodesOf store comp)).foldl inferFold acc) g2).base.adj := by
        intro l2
        induction l2 with
        | nil => exact fun g2 e he2 => he2
        | cons c2 r2 ih2 =>
          intro g2 e he2
          exact ih2 _ e (pairs_foldl_adj_mono (listPairs (metaNodesOf store c2)) g2 e he2)
      exact hasEdge_mono (fun e he2 => hmono rest _ e he2) hbase
    · rw [List.foldl_cons]
      exact ih _ comp pr hc2 hpr hm he hN hne

theorem mem_listPairs_of_mem {β : Type} :
    ∀ {l : List β} {x y : β}, x ∈ l → y ∈ l → x ≠ y →
      (x, y) ∈ listPairs l ∨ (y, x) ∈ listPairs l := by
  intro l
  induction l with
  | nil => intro x y hx; cases hx
  | cons z rest ih =>
    intro x y hx hy hxy
    rcases List.mem_cons.mp hx with rfl | hx2
    · rcases List.mem_cons.mp hy with rfl | hy2
      · exact absurd rfl hxy
      · exact Or.inl (show (x, y) ∈ rest.map (fun w => (x, w)) ++ listPairs rest from
          List.mem_append_left _ (List.mem_map.mpr ⟨y, hy2, rfl⟩))
    · rcases List.mem_cons.mp hy with rfl | hy2
      · exact Or.inr (show (y, x) ∈ rest.map (fun w => (y, w)) ++ listPairs rest from
          List.mem_append_left _ (List.mem_map.mpr ⟨x, hx2, rfl⟩))
      · rcases ih hx2 hy2 hxy with h | h
        · exact Or.inl (show _ ∈ rest.map (fun w => (z, w)) ++ listPairs rest from
            List.mem_append_right _ h)
        · exact Or.inr (show _ ∈ rest.map (fun w => (z, w)) ++ listPairs rest from
            List.mem_append_right _ h)

theorem mem_metaNodesOf {store : MetaStore} {comp : List IdNodeT} {a : IdNodeT}
    {m : SourceMeta} {e : Int} (ha : a ∈ comp) (hm : lookupA store a = some m)
    (he : m.episodes = some e) (hpos : 0 < e) : (m, a) ∈ metaNodesOf store comp := by
  unfold metaNodesOf
  apply List.mem_filterMap.mpr
  refine ⟨a, ha, ?_⟩
  dsimp only
  rw [hm]
  dsimp only
  rw [he]
  dsimp only
  rw [if_neg (by omega : ¬ e ≤ 0)]

theorem iterComponentsAux_cons (g : BaseGraph IdNodeT) (n : IdNodeT)
    (rest visited : List IdNodeT) :
    iterComponentsAux g (n :: rest) visited =
      if n ∈ visited then iterComponentsAux g rest visited
      else g.getComponent n :: iterComponentsAux g rest (visited ++ g.getComponent n) :=
  rfl

theorem iterComponentsAux_shape (g : BaseGraph IdNodeT) :
    ∀ (ns visited : List IdNodeT), (∀ n ∈ ns, n ∈ g.nodesList) →
      ∀ comp ∈ iterComponentsAux g ns visited,
        ∃ n ∈ g.nodesList, comp = g.getComponent n := by
  intro ns
  induction ns with
  | nil => intro visited _ comp hc; cases hc
  | cons n rest ih =>
    intro visited hns comp hc
    rw [iterComponentsAux_cons] at hc
    by_cases hv : n ∈ visited
    · rw [if_pos hv] at hc
      exact ih visited (fun m hm => hns m (List.mem_cons_of_mem _ hm)) comp hc
    · rw [if_neg hv] at hc
      rcases List.mem_cons.mp hc with rfl | hc2
      · exact ⟨n, hns n (List.mem_cons_self _ _), rfl⟩
      · exact ih _ (fun m hm => hns m (List.mem_cons_of_mem _ hm)) comp hc2

theorem iterComponentsAux_cover (g : BaseGraph IdNodeT) :
    ∀ (ns visited : List IdNodeT), (∀ n ∈ ns, n ∈ g.nodesList) → ∀ a ∈ ns,
      a ∈ visited ∨ ∃ comp ∈ iterComponentsAux g ns visited, a ∈ comp := by
  intro ns
  induction ns with
  | nil => intro visited _ a ha; cases ha
  | cons n rest ih =>
    intro visited hns a ha
    have hns' : ∀ m ∈ rest, m ∈ g.nodesList := fun m hm => hns m (List.mem_cons_of_mem _ hm)
    by_cases hv : n ∈ visited
    · rw [iterComponentsAux_cons, if_pos hv]
      rcases List.mem_cons.mp ha with rfl | ha2
      · exact Or.inl hv
      · exact ih visited hns' a ha2
    · rw [iterComponentsAux_cons, if_neg hv]
      rcases List.mem_cons.mp ha with rfl | ha2
      · exact Or.inr ⟨g.getComponent a, List.mem_cons_self _ _,
          (getComponent_spec g a (hns a (List.mem_cons_self _ _))).2.1⟩
      · rcases ih (visited ++ g.getComponent n) hns' a ha2 with hvc | ⟨comp, hcm, hac⟩
        · rcases List.mem_append.mp hvc with hvc | hvc
          · exact Or.inl hvc
          · exact Or.inr ⟨g.getComponent n, List.mem_cons_self _ _, hvc⟩
        · exact Or.inr ⟨comp, List.mem_cons_of_mem _ hcm, hac⟩

theorem iterComponents_cover_pair (g : BaseGraph IdNodeT) (a b : IdNodeT)
    (ha : a ∈ g.nodesList) (hr : g.Reach a b) :
    ∃ comp ∈ iterComponents g, a ∈ comp ∧ b ∈ comp := by
  unfold iterComponents
  rcases iterComponentsAux_cover g g.nodesList [] (fun n hn => hn) a ha with h | ⟨comp, hc, hac⟩
  · cases h
  · obtain ⟨n, hn, rfl⟩ := iterComponentsAux_shape g g.nodesList [] (fun n hn => hn) _ hc
    have hna : g.Reach n a := (mem_getComponent_iff hn).mp hac
    exact ⟨_, hc, hac, (mem_getComponent_iff hn).mpr (hna.trans hr)⟩

/-- **C6.** Metadata-driven inference: for identifier-graph-connected entities
`a` and `b` whose stored metadata matches (with a usable episode count `N > 0`),
`infer_episode_mappings` emits an episode edge whose endpoints both carry the
range label `"1"` when `N = 1` and `"1-N"` otherwise; and for entities of type
movie a match holds only if both `start_year` values are present (nonzero) and
equal and both `duration` values are present (nonzero) with
`relative_delta(durationA, durationB) ≤ 1/10`, where `relative_delta` on two
present values is `|a-b| / max(|a|,|b|)`, is `0` on `(0, 0)`, and a missing
duration on either side rejects a movie match. -/
theorem c6_infer_episode_mappings (store : MetaStore) (idg : BaseGraph IdNodeT)
    (a b : IdNodeT) (ma mb : SourceMeta) (N : Int)
    (hma : lookupA store a = some ma) (hmb : lookupA store b = some mb)
    (hNa : ma.episodes = some N) (hN : 0 < N) (hab : a ≠ b)
    (han : a ∈ idg.nodesList) (hreach : idg.Reach a b)
    (hmatch : metaMatch ma mb = true) :
    ((inferEpisodeMappings store idg).base.hasEdge
        (a.1, a.2.1, a.2.2, if N = 1 then strL "1" else strL "1-" ++ intStr N)
        (b.1, b.2.1, b.2.2, if N = 1 then strL "1" else strL "1-" ++ intStr N) = true) ∧
    (∀ m1 m2 : SourceMeta, metaMatch m1 m2 = true → m1.type = some SourceType.movie →
      (∃ y : Int, y ≠ 0 ∧ m1.startYear = some y ∧ m2.startYear = some y) ∧
      (∃ d1 d2 : Int, d1 ≠ 0 ∧ d2 ≠ 0 ∧ m1.duration = some d1 ∧ m2.duration = some d2) ∧
      relativeDelta m1.duration m2.duration ≤ 1/10) ∧
    (∀ x y : Int, ¬(x = 0 ∧ y = 0) →
      relativeDelta (some x) (some y) =
        ((x - y).natAbs : ℚ) / ((max x.natAbs y.natAbs : Nat) : ℚ)) ∧
    relativeDelta (some 0) (some 0) = 0 ∧
    (∀ m1 m2 : SourceMeta, m1.type = some SourceType.movie →
      (m1.duration = none ∨ m2.duration = none) → metaMatch m1 m2 = false) := by
  refine ⟨?_, ?_, ?_, ?_, ?_⟩
  · have hEq : ma.episodes = mb.episodes := ((metaMatch_eq_true_iff ma mb).mp hmatch).2.1
    have hNb : mb.episodes = some N := hEq.symm.trans hNa
    obtain ⟨comp, hcomp, hac, hbc⟩ := iterComponents_cover_pair idg a b han hreach
    have hmaM : (ma, a) ∈ metaNodesOf store comp := mem_metaNodesOf hac hma hNa hN
    have hmbM : (mb, b) ∈ metaNodesOf store comp := mem_metaNodesOf hbc hmb hNb hN
    have hne : ((ma, a) : SourceMeta × IdNodeT) ≠ (mb, b) :=
      fun h => hab (congrArg Prod.snd h)
    unfold inferEpisodeMappings
    rcases mem_listPairs_of_mem hmaM hmbM hne with hp | hp
    · exact comps_foldl_emit store (iterComponents idg) EpisodeGraph.empty comp
        ((ma, a), (mb, b)) hcomp hp hmatch hNa hN hab
    · rw [hasEdge_comm]
      exact comps_foldl_emit store (iterComponents idg) EpisodeGraph.empty comp
        ((mb, b), (ma, a)) hcomp hp (metaMatch_symm hmatch) hNb hN
        (fun h => hab h.symm)
  · intro m1 m2 hm hmov
    have hc := (metaMatch_eq_true_iff m1 m2).mp hm
    have hy : truthy m1.startYear = true ∧ truthy m2.startYear = true ∧
        m1.startYear = m2.startYear := by
      by_contra hcon
      exact hc.2.2.1 ⟨hmov, by tauto⟩
    have hd : truthy m1.duration = true ∧ truthy m2.duration = true ∧
        ¬ relativeDelta m1.duration m2.duration > 1/10 := by
      by_contra hcon
      exact hc.2.2.2.2.1 ⟨hmov, by tauto⟩
    obtain ⟨y1, hy1, hy1ne⟩ := truthy_iff.mp hy.1
    obtain ⟨d1, hd1, hd1ne⟩ := truthy_iff.mp hd.1
    obtain ⟨d2, hd2, hd2ne⟩ := truthy_iff.mp hd.2.1
    exact ⟨⟨y1, hy1ne, hy1, hy.2.2.symm.trans hy1⟩,
      ⟨d1, d2, hd1ne, hd2ne, hd1, hd2⟩, le_of_not_lt hd.2.2⟩
  · intro x y h
    unfold relativeDelta
    dsimp only
    rw [if_neg h]
    rw [if_neg (by omega : ¬ max x.natAbs y.natAbs = 0)]
  · rfl
  · intro m1 m2 hmov hmiss
    cases hM : metaMatch m1 m2 with
    | false => rfl
    | true =>
      exfalso
      have hc := (metaMatch_eq_true_iff m1 m2).mp hM
      apply hc.2.2.2.2.1
      refine ⟨hmov, ?_⟩
      rcases hmiss with h | h
      · exact Or.inl (by rw [h]; decide)
      · exact Or.inr (Or.inl (by rw [h]; decide))

def c6a : IdNodeT := (strL "tmdb_show", strL "1", none)

def c6b : IdNodeT := (strL "anidb", strL "2", some (strL "R"))

def c6meta : SourceMeta := { type := none, episodes := some 3, duration := none, startYear := none }

def c6store : MetaStore := [(c6a, c6meta), (c6b, c6meta)]

def c6idg : BaseGraph IdNodeT := BaseGraph.empty.addEdge c6a c6b true

theorem c6_witness :
    (inferEpisodeMappings c6store c6idg).base.hasEdge
      (c6a.1, c6a.2.1, c6a.2.2, if (3 : Int) = 1 then strL "1" else strL "1-" ++ intStr 3)
      (c6b.1, c6b.2.1, c6b.2.2, if (3 : Int) = 1 then strL "1" else strL "1-" ++ intStr 3) =
      true :=
  (c6_infer_episode_mappings c6store c6idg c6a c6b c6meta c6meta 3
    (by decide) (by decide) rfl (by decide) (by decide) (by decide)
    (Relation.ReflTransGen.single (show (c6a, c6b) ∈ c6idg.adj by decide))
    (by decide)).1

/-! ## C3: the edits overlay as a replacement of scope-to-scope links -/

/-- The episode node that `_apply_replace` builds from a scope and a range. -/
def scopedNode (sc : ScopeT) (r : Str) : EpisodeNode := (sc.1, sc.2.1, sc.2.2, r)

theorem scopeOf_scopedNode (sc : ScopeT) (r : Str) : scopeOf (scopedNode sc r) = sc := rfl

/-- The edge joins the two scopes (in either orientation). -/
def TouchesScopes (S T : ScopeT) (e : EpisodeNode × EpisodeNode) : Prop :=
  (scopeOf e.1 = S ∧ scopeOf e.2 = T) ∨ (scopeOf e.1 = T ∧ scopeOf e.2 = S)

/-- Edge-set exactness between two scopes: the directed `S`-to-`T` edges are
precisely the declared range pairs. -/
def PExact (S T : ScopeT) (ranges : List (Str × Str)) (g : EpisodeGraph) : Prop :=
  ∀ u v : EpisodeNode, scopeOf u = S → scopeOf v = T →
    ((u, v) ∈ g.base.adj ↔ ∃ kv ∈ ranges, u = scopedNode S kv.1 ∧ v = scopedNode T kv.2)

/-- Both endpoints of every edge are registered nodes (true of every graph
built through `add_edge`, which ensures its endpoints). -/
def EdgesClosed (g : EpisodeGraph) : Prop :=
  ∀ e ∈ g.base.adj, e.1 ∈ g.base.nodesList ∧ e.2 ∈ g.base.nodesList

/-- The scope index is complete for the graph's nodes and only files nodes
under their own scope. -/
def ScopeIdxOk (g : EpisodeGraph) (idx : ScopeIndex) : Prop :=
  (∀ n ∈ g.base.nodesList, n ∈ indexGet idx (scopeOf n)) ∧
  (∀ sc : ScopeT, ∀ n ∈ indexGet idx sc, scopeOf n = sc)

/-- Invariant carried through `apply_edits`. -/
def EditInv (g : EpisodeGraph) (idx : ScopeIndex) : Prop :=
  g.base.Symm ∧ EdgesClosed g ∧ ScopeIdxOk g idx

/-- Graph component of a successful edits application (empty graph on error). -/
def okGraph (r : Except Str (EpisodeGraph × List ScopeT)) : EpisodeGraph :=
  match r with
  | .ok p => p.1
  | .error _ => EpisodeGraph.empty

/-- Edited-scope component of a successful edits application. -/
def okEdited (r : Except Str (EpisodeGraph × List ScopeT)) : List ScopeT :=
  match r with
  | .ok p => p.2
  | .error _ => []

theorem mem_removeEdge_iff {α : Type} [DecidableEq α] {g : BaseGraph α} {a b : α}
    {e : α × α} : e ∈ (g.removeEdge a b).adj ↔ e ∈ g.adj ∧ e ≠ (a, b) ∧ e ≠ (b, a) := by
  unfold BaseGraph.removeEdge
  simp [List.mem_filter]

theorem symm_removeEdge {α : Type} [DecidableEq α] {g : BaseGraph α} (hs : g.Symm)
    (a b : α) : (g.removeEdge a b).Symm := by
  intro x y hxy
  rw [mem_removeEdge_iff] at hxy ⊢
  refine ⟨hs x y hxy.1, ?_, ?_⟩
  · intro hx
    apply hxy.2.2
    rw [Prod.ext_iff] at hx ⊢
    exact ⟨hx.2, hx.1⟩
  · intro hx
    apply hxy.2.1
    rw [Prod.ext_iff] at hx ⊢
    exact ⟨hx.2, hx.1⟩

theorem episode_removeEdge_base (g : EpisodeGraph) (a b : EpisodeNode)
    (p : Option ProvenanceContext) (d : Option DetailsT) :
    (g.removeEdge a b p d).base = g.base.removeEdge a b := rfl

theorem episode_removeEdge_nodes (g : EpisodeGraph) (a b : EpisodeNode)
    (p : Option ProvenanceContext) (d : Option DetailsT) :
    (g.removeEdge a b p d).base.nodesList = g.base.nodesList := rfl

theorem addEdge_mem_nodes_left {α : Type} [DecidableEq α] (g : BaseGraph α) (a b : α)
    (bidir : Bool) : a ∈ (g.addEdge a b bidir).nodesList := by
  by_cases hab : a = b
  · subst hab
    exact addEdge_self_mem_nodes g a bidir
  · unfold BaseGraph.addEdge
    rw [if_neg hab]
    exact mem_ensureNode_of_mem (mem_ensureNode_self g a)

theorem addEdge_mem_nodes_right {α : Type} [DecidableEq α] (g : BaseGraph α) (a b : α)
    (bidir : Bool) : b ∈ (g.addEdge a b bidir).nodesList := by
  by_cases hab : a = b
  · subst hab
    exact addEdge_self_mem_nodes g a bidir
  · unfold BaseGraph.addEdge
    rw [if_neg hab]
    exact mem_ensureNode_self _ b

theorem indexGet_cons_self (k : ScopeT) (ns : List EpisodeNode) (tail : ScopeIndex) :
    indexGet ((k, ns) :: tail) k = ns := by
  unfold indexGet lookupA
  rw [if_pos rfl]
  rfl

theorem indexGet_cons_other {k sc' : ScopeT} (hk : k ≠ sc') (ns : List EpisodeNode)
    (tail : ScopeIndex) : indexGet ((k, ns) :: tail) sc' = indexGet tail sc' := by
  unfold indexGet lookupA
  rw [if_neg hk]
  rw [lookupA.eq_def]

theorem indexGet_nil (sc' : ScopeT) : indexGet [] sc' = [] := rfl

theorem mem_indexGet_indexAdd_iff {sc sc' : ScopeT} {n x : EpisodeNode} :
    ∀ {idx : ScopeIndex},
      x ∈ indexGet (indexAdd idx sc n) sc' ↔
        x ∈ indexGet idx sc' ∨ (sc' = sc ∧ x = n) := by
  intro idx
  induction idx with
  | nil =>
    show x ∈ indexGet [(sc, [n])] sc' ↔ x ∈ indexGet [] sc' ∨ (sc' = sc ∧ x = n)
    rw [indexGet_nil]
    by_cases h : sc = sc'
    · subst h
      rw [indexGet_cons_self]
      simp
    · rw [indexGet_cons_other h]
      rw [indexGet_nil]
      simp only [List.not_mem_nil, false_iff, false_or, not_and]
      exact fun he => (h he.symm).elim
  | cons kv rest ih =>
    obtain ⟨k, ns⟩ := kv
    by_cases hk : k = sc
    · subst hk
      have e1 : indexAdd ((k, ns) :: rest) k n =
          (k, if n ∈ ns then ns else ns ++ [n]) :: rest := by
        unfold indexAdd
        rw [if_pos rfl]
      rw [e1]
      by_cases hk' : k = sc'
      · subst hk'
        rw [indexGet_cons_self, indexGet_cons_self]
        by_cases hn : n ∈ ns
        · rw [if_pos hn]
          constructor
          · exact fun h => Or.inl h
          · rintro (h | ⟨_, rfl⟩)
            · exact h
            · exact hn
        · rw [if_neg hn]
          rw [List.mem_append, List.mem_singleton]
          constructor
          · rintro (h | rfl)
            · exact Or.inl h
            · exact Or.inr ⟨rfl, rfl⟩
          · rintro (h | ⟨_, rfl⟩)
            · exact Or.inl h
            · exact Or.inr rfl
      · rw [indexGet_cons_other hk', indexGet_cons_other hk']
        constructor
        · exact fun h => Or.inl h
        · rintro (h | ⟨h1, _⟩)
          · exact h
          · exact absurd h1.symm hk'
    · have e1 : indexAdd ((k, ns) :: rest) sc n = (k, ns) :: indexAdd rest sc n := by
        unfold indexAdd
        rw [if_neg hk]
        rw [indexAdd.eq_def]
      rw [e1]
      by_cases hk' : k = sc'
      · subst hk'
        rw [indexGet_cons_self, indexGet_cons_self]
        constructor
        · exact fun h => Or.inl h
        · rintro (h | ⟨h1, _⟩)
          · exact h
          · exact absurd h1 hk
      · rw [indexGet_cons_other hk', indexGet_cons_other hk']
        exact ih

theorem buildScopeIndex_ok (g : EpisodeGraph) : ScopeIdxOk g (buildScopeIndex g) := by
  unfold buildScopeIndex ScopeIdxOk
  have main : ∀ (ns : List EpisodeNode) (idx0 : ScopeIndex),
      (∀ sc : ScopeT, ∀ n ∈ indexGet idx0 sc, scopeOf n = sc) →
      (∀ sc : ScopeT, ∀ n ∈ indexGet
        (ns.foldl (fun idx n => indexAdd idx (scopeOf n) n) idx0) sc, scopeOf n = sc) ∧
      (∀ x ∈ ns, x ∈ indexGet
        (ns.foldl (fun idx n => indexAdd idx (scopeOf n) n) idx0) (scopeOf x)) ∧
      (∀ (x : EpisodeNode) (sc : ScopeT), x ∈ indexGet idx0 sc →
        x ∈ indexGet (ns.foldl (fun idx n => indexAdd idx (scopeOf n) n) idx0) sc) := by
    intro ns
    induction ns with
    | nil => exact fun idx0 h => ⟨h, fun x hx => absurd hx (List.not_mem_nil x),
        fun x sc hx => hx⟩
    | cons n rest ih =>
      intro idx0 h
      have h1 : ∀ sc : ScopeT, ∀ m ∈ indexGet (indexAdd idx0 (scopeOf n) n) sc,
          scopeOf m = sc := by
        intro sc m hm
        rcases mem_indexGet_indexAdd_iff.mp hm with hm | ⟨rfl, rfl⟩
        · exact h sc m hm
        · rfl
      have ihr := ih (indexAdd idx0 (scopeOf n) n) h1
      refine ⟨ihr.1, ?_, ?_⟩
      · intro x hx
        rcases List.mem_cons.mp hx with rfl | hx2
        · exact ihr.2.2 x (scopeOf x) (mem_indexGet_indexAdd_iff.mpr (Or.inr ⟨rfl, rfl⟩))
        · exact ihr.2.1 x hx2
      · intro x sc hx
        exact ihr.2.2 x sc (mem_indexGet_indexAdd_iff.mpr (Or.inl hx))
  have h := main g.base.nodesList [] (by
    intro sc n hn
    unfold indexGet lookupA at hn
    simp at hn)
  exact ⟨h.2.1, h.1⟩

theorem mem_episode_removeEdge_iff {g : EpisodeGraph} {a b : EpisodeNode}
    {p : Option ProvenanceContext} {d : Option DetailsT} {e : EpisodeNode × EpisodeNode} :
    e ∈ (g.removeEdge a b p d).base.adj ↔ e ∈ g.base.adj ∧ e ≠ (a, b) ∧ e ≠ (b, a) := by
  rw [episode_removeEdge_base]
  exact mem_removeEdge_iff

theorem clearOneFold_sub (tgtNodes : List EpisodeNode) (srcD tgtD : Str)
    (src : EpisodeNode) :
    ∀ (nbs : List EpisodeNode) (g0 : EpisodeGraph) (e : EpisodeNode × EpisodeNode),
      e ∈ (nbs.foldl (fun g2 nb =>
        if nb ∈ tgtNodes then
          g2.removeEdge src nb (some (clearCtx srcD tgtD (rangeOf src) (rangeOf nb))) none
        else g2) g0).base.adj → e ∈ g0.base.adj := by
  intro nbs
  induction nbs with
  | nil => exact fun g0 e he => he
  | cons nb rest ih =>
    intro g0 e he
    rw [List.foldl_cons] at he
    have h1 := ih _ e he
    by_cases ht : nb ∈ tgtNodes
    · rw [if_pos ht] at h1
      exact (mem_episode_removeEdge_iff.mp h1).1
    · rw [if_neg ht] at h1
      exact h1

theorem clearOneFold_kept (tgtNodes : List EpisodeNode) (srcD tgtD : Str)
    (src : EpisodeNode) {e : EpisodeNode × EpisodeNode}
    (hkeep : ∀ nb ∈ tgtNodes, e ≠ (src, nb) ∧ e ≠ (nb, src)) :
    ∀ (nbs : List EpisodeNode) (g0 : EpisodeGraph),
      e ∈ g0.base.adj →
      e ∈ (nbs.foldl (fun g2 nb =>
        if nb ∈ tgtNodes then
          g2.removeEdge src nb (some (clearCtx srcD tgtD (rangeOf src) (rangeOf nb))) none
        else g2) g0).base.adj := by
  intro nbs
  induction nbs with
  | nil => exact fun g0 he => he
  | cons nb rest ih =>
    intro g0 he
    rw [List.foldl_cons]
    apply ih
    by_cases ht : nb ∈ tgtNodes
    · rw [if_pos ht]
      exact mem_episode_removeEdge_iff.mpr ⟨he, (hkeep nb ht).1, (hkeep nb ht).2⟩
    · rw [if_neg ht]
      exact he

theorem clearOneFold_removes (tgtNodes : List EpisodeNode) (srcD tgtD : Str)
    (src : EpisodeNode) :
    ∀ (nbs : List EpisodeNode) (g0 : EpisodeGraph) (v : EpisodeNode),
      v ∈ nbs → v ∈ tgtNodes →
      (src, v) ∉ (nbs.foldl (fun g2 nb =>
        if nb ∈ tgtNodes then
          g2.removeEdge src nb (some (clearCtx srcD tgtD (rangeOf src) (rangeOf nb))) none
        else g2) g0).base.adj := by
  intro nbs
  induction nbs with
  | nil => intro g0 v hv; cases hv
  | cons nb rest ih =>
    intro g0 v hv ht
    rw [List.foldl_cons]
    rcases List.mem_cons.mp hv with rfl | hv2
    · intro hc
      have h1 := clearOneFold_sub tgtNodes srcD tgtD src rest _ _ hc
      rw [if_pos ht] at h1
      exact (mem_episode_removeEdge_iff.mp h1).2.1 rfl
    · exact ih _ v hv2 ht

theorem clearOneFold_nodes (tgtNodes : List EpisodeNode) (srcD tgtD : Str)
    (src : EpisodeNode) :
    ∀ (nbs : List EpisodeNode) (g0 : EpisodeGraph),
      (nbs.foldl (fun g2 nb =>
        if nb ∈ tgtNodes then
          g2.removeEdge src nb (some (clearCtx srcD tgtD (rangeOf src) (rangeOf nb))) none
        else g2) g0).base.nodesList = g0.base.nodesList := by
  intro nbs
  induction nbs with
  | nil => exact fun g0 => rfl
  | cons nb rest ih =>
    intro g0
    rw [List.foldl_cons]
    rw [ih]
    by_cases ht : nb ∈ tgtNodes
    · rw [if_pos ht]
      exact episode_removeEdge_nodes _ _ _ _ _
    · rw [if_neg ht]

theorem clearOneFold_symm (tgtNodes : List EpisodeNode) (srcD tgtD : Str)
    (src : EpisodeNode) :
    ∀ (nbs : List EpisodeNode) (g0 : EpisodeGraph), g0.base.Symm →
      (nbs.foldl (fun g2 nb =>
        if nb ∈ tgtNodes then
          g2.removeEdge src nb (some (clearCtx srcD tgtD (rangeOf src) (rangeOf nb))) none
        else g2) g0).base.Symm := by
  intro nbs
  induction nbs with
  | nil => exact fun g0 hs => hs
  | cons nb rest ih =>
    intro g0 hs
    rw [List.foldl_cons]
    apply ih
    by_cases ht : nb ∈ tgtNodes
    · rw [if_pos ht]
      rw [episode_removeEdge_base]
      exact symm_removeEdge hs src nb
    · rw [if_neg ht]
      exact hs

theorem clearFold_sub (tgtNodes : List EpisodeNode) (srcD tgtD : Str) :
    ∀ (srcs : List EpisodeNode) (g0 : EpisodeGraph) (e : EpisodeNode × EpisodeNode),
      e ∈ (srcs.foldl (clearOne tgtNodes srcD tgtD) g0).base.adj → e ∈ g0.base.adj := by
  intro srcs
  induction srcs with
  | nil => exact fun g0 e he => he
  | cons u rest ih =>
    intro g0 e he
    rw [List.foldl_cons] at he
    exact clearOneFold_sub tgtNodes srcD tgtD u _ g0 e (ih _ e he)

theorem clearFold_kept (tgtNodes : List EpisodeNode) (srcD tgtD : Str)
    {e : EpisodeNode × EpisodeNode} :
    ∀ (srcs : List EpisodeNode) (g0 : EpisodeGraph),
      (∀ u ∈ srcs, ∀ v ∈ tgtNodes, e ≠ (u, v) ∧ e ≠ (v, u)) →
      e ∈ g0.base.adj →
      e ∈ (srcs.foldl (clearOne tgtNodes srcD tgtD) g0).base.adj := by
  intro srcs
  induction srcs with
  | nil => exact fun g0 _ he => he
  | cons u rest ih =>
    intro g0 hk he
    rw [List.foldl_cons]
    apply ih _ (fun u2 hu2 => hk u2 (List.mem_cons_of_mem _ hu2))
    exact clearOneFold_kept tgtNodes srcD tgtD u
      (fun v hv => hk u (List.mem_cons_self _ _) v hv) _ g0 he

theorem clearFold_removes (tgtNodes : List EpisodeNode) (srcD tgtD : Str) :
    ∀ (srcs : List EpisodeNode) (g0 : EpisodeGraph) (u v : EpisodeNode),
      u ∈ srcs → v ∈ tgtNodes →
      (u, v) ∉ (srcs.foldl (clearOne tgtNodes srcD tgtD) g0).base.adj := by
  intro srcs
  induction srcs with
  | nil => intro g0 u v hu; cases hu
  | cons u0 rest ih =>
    intro g0 u v hu hv
    rw [List.foldl_cons]
    rcases List.mem_cons.mp hu with rfl | hu2
    · intro hc
      have h1 := clearFold_sub tgtNodes srcD tgtD rest _ _ hc
      revert h1
      show (u, v) ∉ (clearOne tgtNodes srcD tgtD g0 u).base.adj
      unfold clearOne
      by_cases hin : (u, v) ∈ g0.base.adj
      · exact clearOneFold_removes tgtNodes srcD tgtD u _ g0 v
          (mem_neighborsList_iff.mpr hin) hv
      · intro hc2
        exact hin (clearOneFold_sub tgtNodes srcD tgtD u _ g0 _ hc2)
    · exact ih _ u v hu2 hv

theorem clearFold_nodes (tgtNodes : List EpisodeNode) (srcD tgtD : Str) :
    ∀ (srcs : List EpisodeNode) (g0 : EpisodeGraph),
      (srcs.foldl (clearOne tgtNodes srcD tgtD) g0).base.nodesList = g0.base.nodesList := by
  intro srcs
  induction srcs with
  | nil => exact fun g0 => rfl
  | cons u rest ih =>
    intro g0
    rw [List.foldl_cons, ih]
    show (clearOne tgtNodes srcD tgtD g0 u).base.nodesList = g0.base.nodesList
    unfold clearOne
    exact clearOneFold_nodes tgtNodes srcD tgtD u _ g0

theorem clearFold_symm (tgtNodes : List EpisodeNode) (srcD tgtD : Str) :
    ∀ (srcs : List EpisodeNode) (g0 : EpisodeGraph), g0.base.Symm →
      (srcs.foldl (clearOne tgtNodes srcD tgtD) g0).base.Symm := by
  intro srcs
  induction srcs with
  | nil => exact fun g0 hs => hs
  | cons u rest ih =>
    intro g0 hs
    rw [List.foldl_cons]
    apply ih
    show (clearOne tgtNodes srcD tgtD g0 u).base.Symm
    unfold clearOne
    exact clearOneFold_symm tgtNodes srcD tgtD u _ g0 hs

theorem clearRanges_sub {g : EpisodeGraph} {srcNodes tgtNodes : List EpisodeNode}
    {srcD tgtD : Str} {e : EpisodeNode × EpisodeNode}
    (he : e ∈ (clearRanges g srcNodes tgtNodes srcD tgtD).base.adj) : e ∈ g.base.adj := by
  unfold clearRanges at he
  split_ifs at he with hg
  · exact he
  · exact clearFold_sub tgtNodes srcD tgtD srcNodes g e he

theorem clearRanges_nodes (g : EpisodeGraph) (srcNodes tgtNodes : List EpisodeNode)
    (srcD tgtD : Str) :
    (clearRanges g srcNodes tgtNodes srcD tgtD).base.nodesList = g.base.nodesList := by
  unfold clearRanges
  split_ifs with hg
  · rfl
  · exact clearFold_nodes tgtNodes srcD tgtD srcNodes g

theorem clearRanges_symm {g : EpisodeGraph} (hs : g.base.Symm)
    (srcNodes tgtNodes : List EpisodeNode) (srcD tgtD : Str) :
    (clearRanges g srcNodes tgtNodes srcD tgtD).base.Symm := by
  unfold clearRanges
  split_ifs with hg
  · exact hs
  · exact clearFold_symm tgtNodes srcD tgtD srcNodes g hs

theorem clearRanges_exact {g : EpisodeGraph} {idx : ScopeIndex} (hinv : EditInv g idx)
    (S T : ScopeT) (srcD tgtD : Str) (e : EpisodeNode × EpisodeNode) :
    e ∈ (clearRanges g (indexGet idx S) (indexGet idx T) srcD tgtD).base.adj ↔
      (e ∈ g.base.adj ∧ ¬ TouchesScopes S T e) := by
  obtain ⟨hsymm, hclosed, hidxc, hidxs⟩ := hinv
  have hmemS : ∀ x : EpisodeNode, x ∈ g.base.nodesList → scopeOf x = S →
      x ∈ indexGet idx S := fun x hx hsc => hsc ▸ hidxc x hx
  have hmemT : ∀ x : EpisodeNode, x ∈ g.base.nodesList → scopeOf x = T →
      x ∈ indexGet idx T := fun x hx hsc => hsc ▸ hidxc x hx
  unfold clearRanges
  split_ifs with hg
  · constructor
    · intro he
      refine ⟨he, ?_⟩
      rintro (⟨h1, h2⟩ | ⟨h1, h2⟩)
      · rcases hg with hg | hg
        · exact absurd (hg ▸ hmemS e.1 (hclosed e he).1 h1) (List.not_mem_nil e.1)
        · exact absurd (hg ▸ hmemT e.2 (hclosed e he).2 h2) (List.not_mem_nil e.2)
      · rcases hg with hg | hg
        · exact absurd (hg ▸ hmemS e.2 (hclosed e he).2 h2) (List.not_mem_nil e.2)
        · exact absurd (hg ▸ hmemT e.1 (hclosed e he).1 h1) (List.not_mem_nil e.1)
    · exact fun h => h.1
  · constructor
    · intro he
      have hmem := clearFold_sub (indexGet idx T) srcD tgtD (indexGet idx S) g e he
      refine ⟨hmem, ?_⟩
      rintro (⟨h1, h2⟩ | ⟨h1, h2⟩)
      · exact clearFold_removes (indexGet idx T) srcD tgtD (indexGet idx S) g e.1 e.2
          (hmemS e.1 (hclosed e hmem).1 h1) (hmemT e.2 (hclosed e hmem).2 h2) he
      · have hsym2 := clearFold_symm (indexGet idx T) srcD tgtD (indexGet idx S) g hsymm
        have he2 : (e.2, e.1) ∈
            ((indexGet idx S).foldl (clearOne (indexGet idx T) srcD tgtD) g).base.adj :=
          hsym2 e.1 e.2 he
        exact clearFold_removes (indexGet idx T) srcD tgtD (indexGet idx S) g e.2 e.1
          (hmemS e.2 (hclosed e hmem).2 h2) (hmemT e.1 (hclosed e hmem).1 h1) he2
    · rintro ⟨he, hnt⟩
      apply clearFold_kept (indexGet idx T) srcD tgtD (indexGet idx S) g _ he
      intro u hu v hv
      constructor
      · intro hc
        apply hnt
        exact Or.inl ⟨by rw [hc]; exact hidxs S u hu, by rw [hc]; exact hidxs T v hv⟩
      · intro hc
        apply hnt
        exact Or.inr ⟨by rw [hc]; exact hidxs T v hv, by rw [hc]; exact hidxs S u hu⟩

theorem mem_ensureNode_sub {α : Type} [DecidableEq α] {g : BaseGraph α} {a x : α}
    (h : x ∈ (g.ensureNode a).nodesList) : x ∈ g.nodesList ∨ x = a := by
  unfold BaseGraph.ensureNode at h
  split_ifs at h with hmem
  · exact Or.inl h
  · rcases List.mem_append.mp h with h | h
    · exact Or.inl h
    · exact Or.inr (List.mem_singleton.mp h)

theorem addEdge_nodes_sub {α : Type} [DecidableEq α] {g : BaseGraph α} {a b x : α}
    {bidir : Bool} (h : x ∈ (g.addEdge a b bidir).nodesList) :
    x ∈ g.nodesList ∨ x = a ∨ x = b := by
  unfold BaseGraph.addEdge at h
  by_cases hab : a = b
  · rw [if_pos hab] at h
    rcases mem_ensureNode_sub h with h | h
    · exact Or.inl h
    · exact Or.inr (Or.inl h)
  · rw [if_neg hab] at h
    have h2 : x ∈ ((g.ensureNode a).ensureNode b).nodesList := h
    rcases mem_ensureNode_sub h2 with h3 | h3
    · rcases mem_ensureNode_sub h3 with h4 | h4
      · exact Or.inl h4
      · exact Or.inr (Or.inl h4)
    · exact Or.inr (Or.inr h3)

/-- One step of the replacement loop of `_apply_replace`: add the declared
edge and index both endpoints. -/
def replaceStep (S T : ScopeT) (srcD tgtD : Str) (p : EpisodeGraph × ScopeIndex)
    (kv : Str × Str) : EpisodeGraph × ScopeIndex :=
  (p.1.addEdge (scopedNode S kv.1) (scopedNode T kv.2) true
    (some (addCtx srcD tgtD kv.1 kv.2)) none,
   indexAdd (indexAdd p.2 S (scopedNode S kv.1)) T (scopedNode T kv.2))

theorem applyReplace_eq_fold (g : EpisodeGraph) (S T : ScopeT) (rgs : List (Str × Str))
    (idx : ScopeIndex) (srcD tgtD : Str) :
    applyReplace g S T rgs idx srcD tgtD =
      rgs.foldl (replaceStep S T srcD tgtD)
        (clearRanges g (indexGet idx S) (indexGet idx T) srcD tgtD, idx) := by
  unfold applyReplace
  dsimp only
  split_ifs with hr
  · subst hr
    rfl
  · rfl

theorem replaceStep_inv (S T : ScopeT) (srcD tgtD : Str) (p : EpisodeGraph × ScopeIndex)
    (kv : Str × Str) (h : EditInv p.1 p.2) :
    EditInv (replaceStep S T srcD tgtD p kv).1 (replaceStep S T srcD tgtD p kv).2 := by
  obtain ⟨hs, hc, hic, his⟩ := h
  refine ⟨?_, ?_, ⟨?_, ?_⟩⟩
  · show (p.1.addEdge (scopedNode S kv.1) (scopedNode T kv.2) true _ none).base.Symm
    rw [episode_addEdge_base]
    exact symm_addEdge hs _ _
  · intro e he
    replace he : e ∈ (p.1.addEdge (scopedNode S kv.1) (scopedNode T kv.2) true
      (some (addCtx srcD tgtD kv.1 kv.2)) none).base.adj := he
    show e.1 ∈ (p.1.addEdge (scopedNode S kv.1) (scopedNode T kv.2) true
        (some (addCtx srcD tgtD kv.1 kv.2)) none).base.nodesList ∧
      e.2 ∈ (p.1.addEdge (scopedNode S kv.1) (scopedNode T kv.2) true
        (some (addCtx srcD tgtD kv.1 kv.2)) none).base.nodesList
    rw [episode_addEdge_base] at he ⊢
    by_cases hab : scopedNode S kv.1 = scopedNode T kv.2
    · rw [← hab] at he ⊢
      rw [addEdge_self_adj] at he
      exact ⟨addEdge_nodes_mono _ _ _ _ (hc e he).1, addEdge_nodes_mono _ _ _ _ (hc e he).2⟩
    · rw [addEdge_adj_characterization _ _ _ hab] at he
      rcases he with he | rfl | rfl
      · exact ⟨addEdge_nodes_mono _ _ _ _ (hc e he).1, addEdge_nodes_mono _ _ _ _ (hc e he).2⟩
      · exact ⟨addEdge_mem_nodes_left _ _ _ _, addEdge_mem_nodes_right _ _ _ _⟩
      · exact ⟨addEdge_mem_nodes_right _ _ _ _, addEdge_mem_nodes_left _ _ _ _⟩
  · intro n hn
    show n ∈ indexGet (indexAdd (indexAdd p.2 S (scopedNode S kv.1)) T (scopedNode T kv.2))
      (scopeOf n)
    have hn2 : n ∈ (p.1.base.addEdge (scopedNode S kv.1) (scopedNode T kv.2) true).nodesList := hn
    rcases addEdge_nodes_sub hn2 with hn3 | rfl | rfl
    · exact mem_indexGet_indexAdd_iff.mpr
        (Or.inl (mem_indexGet_indexAdd_iff.mpr (Or.inl (hic n hn3))))
    · exact mem_indexGet_indexAdd_iff.mpr
        (Or.inl (mem_indexGet_indexAdd_iff.mpr (Or.inr ⟨rfl, rfl⟩)))
    · exact mem_indexGet_indexAdd_iff.mpr (Or.inr ⟨rfl, rfl⟩)
  · intro sc n hn
    rcases mem_indexGet_indexAdd_iff.mp hn with hn | ⟨rfl, rfl⟩
    · rcases mem_indexGet_indexAdd_iff.mp hn with hn | ⟨rfl, rfl⟩
      · exact his sc n hn
      · rfl
    · rfl

theorem replaceFold_inv (S T : ScopeT) (srcD tgtD : Str) :
    ∀ (rgs : List (Str × Str)) (p0 : EpisodeGraph × ScopeIndex), EditInv p0.1 p0.2 →
      EditInv (rgs.foldl (replaceStep S T srcD tgtD) p0).1
        (rgs.foldl (replaceStep S T srcD tgtD) p0).2 := by
  intro rgs
  induction rgs with
  | nil => exact fun p0 h => h
  | cons kv rest ih =>
    intro p0 h
    rw [List.foldl_cons]
    exact ih _ (replaceStep_inv S T srcD tgtD p0 kv h)

theorem replaceStep_exact {S T : ScopeT} (hST : S ≠ T) (srcD tgtD : Str)
    (p : EpisodeGraph × ScopeIndex) (kv : Str × Str) {acc : List (Str × Str)}
    (hP : PExact S T acc p.1) : PExact S T (acc ++ [kv]) (replaceStep S T srcD tgtD p kv).1 := by
  intro u v hu hv
  have hne : scopedNode S kv.1 ≠ scopedNode T kv.2 := by
    intro hEq
    apply hST
    rw [← scopeOf_scopedNode S kv.1, hEq, scopeOf_scopedNode]
  show (u, v) ∈ (p.1.addEdge (scopedNode S kv.1) (scopedNode T kv.2) true _ none).base.adj ↔ _
  rw [episode_addEdge_base, addEdge_adj_characterization _ _ _ hne]
  have h0 := hP u v hu hv
  constructor
  · rintro (he | he | he)
    · obtain ⟨kv', hkv', h1, h2⟩ := h0.mp he
      exact ⟨kv', List.mem_append_left _ hkv', h1, h2⟩
    · rw [Prod.ext_iff] at he
      exact ⟨kv, List.mem_append_right _ (List.mem_singleton.mpr rfl), he.1, he.2⟩
    · exfalso
      apply hST
      have he1 : u = scopedNode T kv.2 := (Prod.ext_iff.mp he).1
      rw [← hu, he1]
      rfl
  · rintro ⟨kv', hkv', h1, h2⟩
    rcases List.mem_append.mp hkv' with hkv' | hkv'
    · exact Or.inl (h0.mpr ⟨kv', hkv', h1, h2⟩)
    · rcases List.mem_singleton.mp hkv' with rfl
      exact Or.inr (Or.inl (by rw [Prod.ext_iff]; exact ⟨h1, h2⟩))

theorem replaceFold_exact {S T : ScopeT} (hST : S ≠ T) (srcD tgtD : Str) :
    ∀ (rgs acc : List (Str × Str)) (p0 : EpisodeGraph × ScopeIndex),
      PExact S T acc p0.1 →
      PExact S T (acc ++ rgs) (rgs.foldl (replaceStep S T srcD tgtD) p0).1 := by
  intro rgs
  induction rgs with
  | nil =>
    intro acc p0 h
    rw [List.append_nil]
    exact h
  | cons kv rest ih =>
    intro acc p0 h
    rw [List.foldl_cons]
    have h2 := ih (acc ++ [kv]) (replaceStep S T srcD tgtD p0 kv)
      (replaceStep_exact hST srcD tgtD p0 kv h)
    rwa [List.append_assoc, List.singleton_append] at h2

theorem replaceStep_frame (S T : ScopeT) (srcD tgtD : Str)
    (p : EpisodeGraph × ScopeIndex) (kv : Str × Str) {e : EpisodeNode × EpisodeNode}
    (hnt : ¬ TouchesScopes S T e) :
    (e ∈ (replaceStep S T srcD tgtD p kv).1.base.adj ↔ e ∈ p.1.base.adj) := by
  show e ∈ (p.1.addEdge (scopedNode S kv.1) (scopedNode T kv.2) true _ none).base.adj ↔ _
  rw [episode_addEdge_base]
  by_cases hab : scopedNode S kv.1 = scopedNode T kv.2
  · rw [← hab, addEdge_self_adj]
  · rw [addEdge_adj_characterization _ _ _ hab]
    constructor
    · rintro (he | he | he)
      · exact he
      · exfalso
        apply hnt
        rw [he]
        exact Or.inl ⟨rfl, rfl⟩
      · exfalso
        apply hnt
        rw [he]
        exact Or.inr ⟨rfl, rfl⟩
    · exact fun he => Or.inl he

theorem replaceFold_frame (S T : ScopeT) (srcD tgtD : Str) :
    ∀ (rgs : List (Str × Str)) (p0 : EpisodeGraph × ScopeIndex)
      (e : EpisodeNode × EpisodeNode), ¬ TouchesScopes S T e →
      (e ∈ (rgs.foldl (replaceStep S T srcD tgtD) p0).1.base.adj ↔ e ∈ p0.1.base.adj) := by
  intro rgs
  induction rgs with
  | nil => exact fun p0 e _ => Iff.rfl
  | cons kv rest ih =>
    intro p0 e hnt
    rw [List.foldl_cons]
    rw [ih _ e hnt]
    exact replaceStep_frame S T srcD tgtD p0 kv hnt

theorem applyReplace_inv {g : EpisodeGraph} {idx : ScopeIndex} (hinv : EditInv g idx)
    (S T : ScopeT) (rgs : List (Str × Str)) (srcD tgtD : Str) :
    EditInv (applyReplace g S T rgs idx srcD tgtD).1 (applyReplace g S T rgs idx srcD tgtD).2 := by
  rw [applyReplace_eq_fold]
  apply replaceFold_inv
  dsimp only
  obtain ⟨hs, hc, hic, his⟩ := hinv
  refine ⟨clearRanges_symm hs _ _ _ _, ?_, ⟨?_, his⟩⟩
  · intro e he
    have he2 := clearRanges_sub he
    rw [clearRanges_nodes]
    exact hc e he2
  · intro n hn
    rw [clearRanges_nodes] at hn
    exact hic n hn

theorem applyReplace_frame {g : EpisodeGraph} {idx : ScopeIndex} (hinv : EditInv g idx)
    (S T : ScopeT) (rgs : List (Str × Str)) (srcD tgtD : Str)
    {e : EpisodeNode × EpisodeNode} (hnt : ¬ TouchesScopes S T e) :
    (e ∈ (applyReplace g S T rgs idx srcD tgtD).1.base.adj ↔ e ∈ g.base.adj) := by
  rw [applyReplace_eq_fold]
  rw [replaceFold_frame S T srcD tgtD rgs _ e hnt]
  show e ∈ (clearRanges g (indexGet idx S) (indexGet idx T) srcD tgtD).base.adj ↔ _
  rw [clearRanges_exact hinv S T srcD tgtD e]
  exact and_iff_left hnt

theorem applyReplace_exact {g : EpisodeGraph} {idx : ScopeIndex} (hinv : EditInv g idx)
    {S T : ScopeT} (hST : S ≠ T) (rgs : List (Str × Str)) (srcD tgtD : Str) :
    PExact S T rgs (applyReplace g S T rgs idx srcD tgtD).1 := by
  rw [applyReplace_eq_fold]
  have h0 : PExact S T []
      (clearRanges g (indexGet idx S) (indexGet idx T) srcD tgtD, idx).1 := by
    intro u v hu hv
    show (u, v) ∈ (clearRanges g (indexGet idx S) (indexGet idx T) srcD tgtD).base.adj ↔ _
    rw [clearRanges_exact hinv S T srcD tgtD (u, v)]
    simp only [List.not_mem_nil, false_and, exists_false, iff_false, not_and, not_not]
    intro _
    exact Or.inl ⟨hu, hv⟩
  have h := replaceFold_exact hST srcD tgtD rgs [] _ h0
  rwa [List.nil_append] at h

theorem applyTargets_cons (source : ScopeT) (srcD : Str) (g : EpisodeGraph)
    (idx : ScopeIndex) (processed : List Str) (tgtD : Str) (config : List (Str × Str))
    (rest : List (Str × List (Str × Str))) :
    applyTargets source srcD g idx processed ((tgtD, config) :: rest) =
      if startsDollar tgtD then applyTargets source srcD g idx processed rest
      else if tgtD ∈ processed then .error (strL "Duplicate target")
      else
        match parseDescriptor tgtD with
        | .error e => .error e
        | .ok target =>
          applyTargets source srcD
            (applyReplace g source target (config.filter (fun kv => !startsDollar kv.1))
              idx srcD tgtD).1
            (applyReplace g source target (config.filter (fun kv => !startsDollar kv.1))
              idx srcD tgtD).2
            (processed ++ [tgtD]) rest := rfl

theorem applyTargets_spec {S T : ScopeT} (hST : S ≠ T) (ranges : List (Str × Str)) :
    ∀ (tl : List (Str × List (Str × Str))) (source : ScopeT) (srcD : Str)
      (g : EpisodeGraph) (idx : ScopeIndex) (processed : List Str)
      (g2 : EpisodeGraph) (idx2 : ScopeIndex),
      applyTargets source srcD g idx processed tl = Except.ok (g2, idx2) →
      EditInv g idx →
      EditInv g2 idx2 ∧
      (∀ e : EpisodeNode × EpisodeNode,
        (∀ tD c T', (tD, c) ∈ tl → startsDollar tD = false →
          parseDescriptor tD = Except.ok T' → ¬ TouchesScopes source T' e) →
        ((e ∈ g2.base.adj) ↔ e ∈ g.base.adj)) ∧
      ((∀ tD c T', (tD, c) ∈ tl → startsDollar tD = false →
          parseDescriptor tD = Except.ok T' →
          ((source = S ∧ T' = T) ∨ (source = T ∧ T' = S)) →
          source = S ∧ T' = T ∧ c.filter (fun kv => !startsDollar kv.1) = ranges) →
        ((PExact S T ranges g → PExact S T ranges g2) ∧
         (∀ tD c, (tD, c) ∈ tl → startsDollar tD = false →
           parseDescriptor tD = Except.ok T → source = S →
           c.filter (fun kv => !startsDollar kv.1) = ranges →
           PExact S T ranges g2))) := by
  intro tl
  induction tl with
  | nil =>
    intro source srcD g idx processed g2 idx2 happly hinv
    have h : (g, idx) = (g2, idx2) := by injection happly
    have hg : g = g2 := congrArg Prod.fst h
    have hi : idx = idx2 := congrArg Prod.snd h
    subst hg
    subst hi
    exact ⟨hinv, fun e _ => Iff.rfl,
      fun _ => ⟨fun hP => hP, fun tD c htD => absurd htD (List.not_mem_nil _)⟩⟩
  | cons hd rest ih =>
    obtain ⟨tD0, c0⟩ := hd
    intro source srcD g idx processed g2 idx2 happly hinv
    rw [applyTargets_cons] at happly
    by_cases hd0 : startsDollar tD0 = true
    · rw [if_pos hd0] at happly
      have ihr := ih source srcD g idx processed g2 idx2 happly hinv
      refine ⟨ihr.1, ?_, ?_⟩
      · intro e hcondE
        exact ihr.2.1 e (fun tD c T' hm => hcondE tD c T' (List.mem_cons_of_mem _ hm))
      · intro hcond
        have hcondR := fun tD c T' hm => hcond tD c T' (List.mem_cons_of_mem _ hm)
        refine ⟨(ihr.2.2 hcondR).1, ?_⟩
        intro tDd cd hmem hdd hpdd hsrc hfil
        rcases List.mem_cons.mp hmem with heq | hmem2
        · have : tDd = tD0 := congrArg Prod.fst heq
          rw [this] at hdd
          rw [hd0] at hdd
          exact Bool.noConfusion hdd
        · exact (ihr.2.2 hcondR).2 tDd cd hmem2 hdd hpdd hsrc hfil
    · have hd0' : startsDollar tD0 = false := by
        cases hb : startsDollar tD0
        · rfl
        · exact absurd hb hd0
      rw [if_neg hd0] at happly
      by_cases hp0 : tD0 ∈ processed
      · rw [if_pos hp0] at happly
        exact Except.noConfusion happly
      · rw [if_neg hp0] at happly
        cases hpd : parseDescriptor tD0 with
        | error e0 =>
          rw [hpd] at happly
          exact Except.noConfusion happly
        | ok T0 =>
          rw [hpd] at happly
          dsimp only at happly
          have hinv2 := applyReplace_inv hinv source T0
            (c0.filter (fun kv => !startsDollar kv.1)) srcD tD0
          have ihr := ih source srcD
            (applyReplace g source T0 (c0.filter (fun kv => !startsDollar kv.1))
              idx srcD tD0).1
            (applyReplace g source T0 (c0.filter (fun kv => !startsDollar kv.1))
              idx srcD tD0).2
            (processed ++ [tD0]) g2 idx2 happly hinv2
          refine ⟨ihr.1, ?_, ?_⟩
          · intro e hcondE
            have hnt : ¬ TouchesScopes source T0 e :=
              hcondE tD0 c0 T0 (List.mem_cons_self _ _) hd0' hpd
            rw [ihr.2.1 e (fun tD c T' hm => hcondE tD c T' (List.mem_cons_of_mem _ hm))]
            exact applyReplace_frame hinv source T0
              (c0.filter (fun kv => !startsDollar kv.1)) srcD tD0 hnt
          · intro hcond
            have hcondR := fun tD c T' hm => hcond tD c T' (List.mem_cons_of_mem _ hm)
            have hpres2 := (ihr.2.2 hcondR).1
            constructor
            · intro hP
              by_cases hmatch : ((source = S ∧ T0 = T) ∨ (source = T ∧ T0 = S))
              · obtain ⟨hs1, hs2, hs3⟩ :=
                  hcond tD0 c0 T0 (List.mem_cons_self _ _) hd0' hpd hmatch
                subst hs1
                subst hs2
                apply hpres2
                have hx := applyReplace_exact hinv hST
                  (c0.filter (fun kv => !startsDollar kv.1)) srcD tD0
                nth_rewrite 1 [hs3] at hx
                exact hx
              · apply hpres2
                intro u v hu hv
                have hnt : ¬ TouchesScopes source T0 (u, v) := by
                  intro htc
                  apply hmatch
                  rcases htc with ⟨h1, h2⟩ | ⟨h1, h2⟩
                  · exact Or.inl ⟨h1.symm.trans hu, h2.symm.trans hv⟩
                  · exact Or.inr ⟨h2.symm.trans hv, h1.symm.trans hu⟩
                rw [applyReplace_frame hinv source T0
                  (c0.filter (fun kv => !startsDollar kv.1)) srcD tD0 hnt]
                exact hP u v hu hv
            · intro tDd cd hmem hdd hpdd hsrc hfil
              rcases List.mem_cons.mp hmem with heq | hmem2
              · have ht1 : tDd = tD0 := congrArg Prod.fst heq
                have ht2 : cd = c0 := congrArg Prod.snd heq
                rw [ht1] at hpdd
                rw [hpd] at hpdd
                have hT0 : T0 = T := by injection hpdd
                subst hT0
                subst hsrc
                apply hpres2
                have hx := applyReplace_exact hinv hST
                  (c0.filter (fun kv => !startsDollar kv.1)) srcD tD0
                rw [ht2] at hfil
                nth_rewrite 1 [hfil] at hx
                exact hx
              · exact (ihr.2.2 hcondR).2 tDd cd hmem2 hdd hpdd hsrc hfil

theorem applyEditsAux_cons (g : EpisodeGraph) (idx : ScopeIndex) (edited : List ScopeT)
    (srcD : Str) (targets : List (Str × List (Str × Str))) (rest : EditsDoc) :
    applyEditsAux g idx edited ((srcD, targets) :: rest) =
      if startsDollar srcD then applyEditsAux g idx edited rest
      else
        match parseDescriptor srcD with
        | .error e => .error e
        | .ok source =>
          match applyTargets source srcD g idx [] targets with
          | .error e => .error e
          | .ok (g2, idx2) =>
            applyEditsAux g2 idx2 (if source ∈ edited then edited else edited ++ [source])
              rest := rfl

theorem applyEditsAux_spec {S T : ScopeT} (hST : S ≠ T) (ranges : List (Str × Str)) :
    ∀ (doc : EditsDoc) (g : EpisodeGraph) (idx : ScopeIndex) (edited : List ScopeT)
      (g2 : EpisodeGraph) (edited2 : List ScopeT),
      applyEditsAux g idx edited doc = Except.ok (g2, edited2) →
      EditInv g idx →
      (∀ e : EpisodeNode × EpisodeNode,
        (∀ sD tl tD c S' T', (sD, tl) ∈ doc → (tD, c) ∈ tl → startsDollar sD = false →
          startsDollar tD = false → parseDescriptor sD = Except.ok S' →
          parseDescriptor tD = Except.ok T' → ¬ TouchesScopes S' T' e) →
        ((e ∈ g2.base.adj) ↔ e ∈ g.base.adj)) ∧
      ((∀ sD tl tD c S' T', (sD, tl) ∈ doc → (tD, c) ∈ tl → startsDollar sD = false →
          startsDollar tD = false → parseDescriptor sD = Except.ok S' →
          parseDescriptor tD = Except.ok T' →
          ((S' = S ∧ T' = T) ∨ (S' = T ∧ T' = S)) →
          S' = S ∧ T' = T ∧ c.filter (fun kv => !startsDollar kv.1) = ranges) →
        ((PExact S T ranges g → PExact S T ranges g2) ∧
         (∀ sD tl tD c, (sD, tl) ∈ doc → (tD, c) ∈ tl → startsDollar sD = false →
           startsDollar tD = false → parseDescriptor sD = Except.ok S →
           parseDescriptor tD = Except.ok T →
           c.filter (fun kv => !startsDollar kv.1) = ranges →
           PExact S T ranges g2))) := by
  intro doc
  induction doc with
  | nil =>
    intro g idx edited g2 edited2 happly hinv
    have h : (g, edited) = (g2, edited2) := by injection happly
    have hg : g = g2 := congrArg Prod.fst h
    subst hg
    exact ⟨fun e _ => Iff.rfl,
      fun _ => ⟨fun hP => hP, fun sD tl tD c hm => absurd hm (List.not_mem_nil _)⟩⟩
  | cons hd rest ih =>
    obtain ⟨sD0, tl0⟩ := hd
    intro g idx edited g2 edited2 happly hinv
    rw [applyEditsAux_cons] at happly
    by_cases hd0 : startsDollar sD0 = true
    · rw [if_pos hd0] at happly
      have ihr := ih g idx edited g2 edited2 happly hinv
      refine ⟨?_, ?_⟩
      · intro e hcondE
        exact ihr.1 e (fun sD tl tD c S' T' hm => hcondE sD tl tD c S' T'
          (List.mem_cons_of_mem _ hm))
      · intro hcond
        have hcondR := fun sD tl tD c S' T' hm => hcond sD tl tD c S' T'
          (List.mem_cons_of_mem _ hm)
        refine ⟨(ihr.2 hcondR).1, ?_⟩
        intro sDd tld tDd cd hmem htd hds hdt hpS hpT hfil
        rcases List.mem_cons.mp hmem with heq | hmem2
        · have h1 : sDd = sD0 := congrArg Prod.fst heq
          rw [h1] at hds
          rw [hd0] at hds
          exact Bool.noConfusion hds
        · exact (ihr.2 hcondR).2 sDd tld tDd cd hmem2 htd hds hdt hpS hpT hfil
    · have hd0' : startsDollar sD0 = false := by
        cases hb : startsDollar sD0
        · rfl
        · exact absurd hb hd0
      rw [if_neg hd0] at happly
      cases hps : parseDescriptor sD0 with
      | error e0 =>
        rw [hps] at happly
        exact Except.noConfusion happly
      | ok S0 =>
        rw [hps] at happly
        dsimp only at happly
        cases hat : applyTargets S0 sD0 g idx [] tl0 with
        | error e1 =>
          rw [hat] at happly
          exact Except.noConfusion happly
        | ok pr =>
          obtain ⟨g1, idx1⟩ := pr
          rw [hat] at happly
          dsimp only at happly
          have hts := applyTargets_spec hST ranges tl0 S0 sD0 g idx [] g1 idx1 hat hinv
          have ihr := ih g1 idx1
            (if S0 ∈ edited then edited else edited ++ [S0]) g2 edited2 happly hts.1
          refine ⟨?_, ?_⟩
          · intro e hcondE
            rw [ihr.1 e (fun sD tl tD c S' T' hm => hcondE sD tl tD c S' T'
              (List.mem_cons_of_mem _ hm))]
            exact hts.2.1 e (fun tD c T' hm hdT hpT =>
              hcondE sD0 tl0 tD c S0 T' (List.mem_cons_self _ _) hm hd0' hdT hps hpT)
          · intro hcond
            have hcondR := fun sD tl tD c S' T' hm => hcond sD tl tD c S' T'
              (List.mem_cons_of_mem _ hm)
            have hcondT : ∀ tD c T', (tD, c) ∈ tl0 → startsDollar tD = false →
                parseDescriptor tD = Except.ok T' →
                ((S0 = S ∧ T' = T) ∨ (S0 = T ∧ T' = S)) →
                S0 = S ∧ T' = T ∧ c.filter (fun kv => !startsDollar kv.1) = ranges :=
              fun tD c T' hm hdT hpT hmatch =>
                hcond sD0 tl0 tD c S0 T' (List.mem_cons_self _ _) hm hd0' hdT hps hpT hmatch
            refine ⟨?_, ?_⟩
            · intro hP
              exact (ihr.2 hcondR).1 ((hts.2.2 hcondT).1 hP)
            · intro sDd tld tDd cd hmem htd hds hdt hpS hpT hfil
              rcases List.mem_cons.mp hmem with heq | hmem2
              · have h1 : sDd = sD0 := congrArg Prod.fst heq
                have h2 : tld = tl0 := congrArg Prod.snd heq
                rw [h1] at hpS
                rw [hps] at hpS
                have hS0 : S0 = S := by injection hpS
                rw [h2] at htd
                exact (ihr.2 hcondR).1
                  ((hts.2.2 hcondT).2 tDd cd htd hdt hpT hS0 hfil)
              · exact (ihr.2 hcondR).2 sDd tld tDd cd hmem2 htd hds hdt hpS hpT hfil

/-- C3 counterexample: an edits document whose source and target descriptor
name the same scope, with body `{"5": "5"}`. The declared range pair denotes a
self-loop, which `add_edge` refuses, so after `apply_edits` the scope is marked
edited yet no edge at all exists — the set of edges between the named scopes is
empty rather than the declared one-element set. -/
def c3xdoc : EditsDoc :=
  [(strL "tmdb_show:7", [(strL "tmdb_show:7", [(strL "5", strL "5")])])]

theorem c3_counterexample :
    okEdited (applyEdits EpisodeGraph.empty c3xdoc) = [(strL "tmdb_show", strL "7", none)] ∧
    (okGraph (applyEdits EpisodeGraph.empty c3xdoc)).base.adj = [] := by
  constructor <;> rfl

/-- **C3 (amended).** On a symmetric graph whose edges join registered nodes,
for a (source, target) pair named in a successfully applied edits document such
that the source and target resolve to distinct scopes and no other entry of the
document resolves to the same unordered scope pair, the directed
source-scope-to-target-scope edges of the result are exactly the declared
(non-`$`) range pairs — in particular an empty body leaves no edges between the
two scopes; and an edge touching no scope pair named in the document is present
afterwards iff it was present before. (For a pair naming a single scope twice,
a range pair with equal ranges denotes a self-loop and is dropped, so exactness
can fail there.) -/
theorem c3_apply_edits (g : EpisodeGraph) (doc : EditsDoc) (g2 : EpisodeGraph)
    (edited2 : List ScopeT) (S T : ScopeT) (srcD tgtD : Str)
    (targets : List (Str × List (Str × Str))) (cfg : List (Str × Str))
    (happly : applyEdits g doc = Except.ok (g2, edited2))
    (hsymm : g.base.Symm) (hclosed : EdgesClosed g)
    (hmemS : (srcD, targets) ∈ doc) (hmemT : (tgtD, cfg) ∈ targets)
    (hdS : startsDollar srcD = false) (hdT : startsDollar tgtD = false)
    (hpS : parseDescriptor srcD = Except.ok S) (hpT : parseDescriptor tgtD = Except.ok T)
    (hST : S ≠ T)
    (huniq : ∀ sD tl tD c S' T', (sD, tl) ∈ doc → (tD, c) ∈ tl →
      startsDollar sD = false → startsDollar tD = false →
      parseDescriptor sD = Except.ok S' → parseDescriptor tD = Except.ok T' →
      ((S' = S ∧ T' = T) ∨ (S' = T ∧ T' = S)) →
      S' = S ∧ T' = T ∧ c.filter (fun kv => !startsDollar kv.1) =
        cfg.filter (fun kv => !startsDollar kv.1)) :
    PExact S T (cfg.filter (fun kv => !startsDollar kv.1)) g2 ∧
    (∀ e : EpisodeNode × EpisodeNode,
      (∀ sD tl tD c S' T', (sD, tl) ∈ doc → (tD, c) ∈ tl → startsDollar sD = false →
        startsDollar tD = false → parseDescriptor sD = Except.ok S' →
        parseDescriptor tD = Except.ok T' → ¬ TouchesScopes S' T' e) →
      ((e ∈ g2.base.adj) ↔ e ∈ g.base.adj)) := by
  have hinv : EditInv g (buildScopeIndex g) := ⟨hsymm, hclosed, buildScopeIndex_ok g⟩
  have happly2 : applyEditsAux g (buildScopeIndex g) [] doc = Except.ok (g2, edited2) :=
    happly
  have h := applyEditsAux_spec hST (cfg.filter (fun kv => !startsDollar kv.1)) doc g
    (buildScopeIndex g) [] g2 edited2 happly2 hinv
  exact ⟨(h.2 huniq).2 srcD targets tgtD cfg hmemS hmemT hdS hdT hpS hpT rfl, h.1⟩

def c3S : ScopeT := (strL "tmdb_show", strL "7", none)

def c3T : ScopeT := (strL "tvdb_show", strL "3", none)

def c3n1 : EpisodeNode := (strL "tmdb_show", strL "7", none, strL "1")

def c3n2 : EpisodeNode := (strL "tvdb_show", strL "3", none, strL "9")

def c3g : EpisodeGraph := EpisodeGraph.empty.addEdge c3n1 c3n2 true none none

def c3cfg : List (Str × Str) := [(strL "1", strL "1-12")]

def c3targets : List (Str × List (Str × Str)) := [(strL "tvdb_show:3", c3cfg)]

def c3doc : EditsDoc := [(strL "tmdb_show:7", c3targets)]

theorem c3_witness :
    (scopedNode c3S (strL "1"), scopedNode c3T (strL "1-12")) ∈
      (okGraph (applyEdits c3g c3doc)).base.adj := by
  have hadj : c3g.base.adj = [(c3n1, c3n2), (c3n2, c3n1)] := by decide
  have hsymm : c3g.base.Symm := by
    intro x y hxy
    rw [hadj] at hxy ⊢
    simp only [List.mem_cons, List.not_mem_nil, or_false] at hxy
    rcases hxy with h | h <;>
      (rw [Prod.ext_iff] at h; rcases h with ⟨rfl, rfl⟩; decide)
  have hclosed : EdgesClosed c3g := by
    show ∀ e ∈ c3g.base.adj, e.1 ∈ c3g.base.nodesList ∧ e.2 ∈ c3g.base.nodesList
    decide
  have huniq : ∀ sD tl tD c S' T', (sD, tl) ∈ c3doc → (tD, c) ∈ tl →
      startsDollar sD = false → startsDollar tD = false →
      parseDescriptor sD = Except.ok S' → parseDescriptor tD = Except.ok T' →
      ((S' = c3S ∧ T' = c3T) ∨ (S' = c3T ∧ T' = c3S)) →
      S' = c3S ∧ T' = c3T ∧ c.filter (fun kv => !startsDollar kv.1) =
        c3cfg.filter (fun kv => !startsDollar kv.1) := by
    intro sD tl tD c S' T' h1 h2 h3 h4 h5 h6 h7
    simp only [c3doc, List.mem_cons, List.not_mem_nil, or_false, Prod.mk.injEq] at h1
    obtain ⟨rfl, rfl⟩ := h1
    simp only [c3targets, List.mem_cons, List.not_mem_nil, or_false, Prod.mk.injEq] at h2
    obtain ⟨rfl, rfl⟩ := h2
    have e5 : Except.ok (ε := Str) c3S = Except.ok S' :=
      (show parseDescriptor (strL "tmdb_show:7") = Except.ok c3S from rfl).symm.trans h5
    have e6 : Except.ok (ε := Str) c3T = Except.ok T' :=
      (show parseDescriptor (strL "tvdb_show:3") = Except.ok c3T from rfl).symm.trans h6
    injection e5 with e5'
    injection e6 with e6'
    exact ⟨e5'.symm, e6'.symm, rfl⟩
  have h := c3_apply_edits c3g c3doc (okGraph (applyEdits c3g c3doc))
    (okEdited (applyEdits c3g c3doc)) c3S c3T (strL "tmdb_show:7") (strL "tvdb_show:3")
    c3targets c3cfg rfl hsymm hclosed (List.mem_cons_self _ _) (List.mem_cons_self _ _)
    (by decide) (by decide) rfl rfl (by decide) huniq
  exact (h.1 (scopedNode c3S (strL "1")) (scopedNode c3T (strL "1-12")) rfl rfl).mpr
    ⟨(strL "1", strL "1-12"), by decide, rfl, rfl⟩

end AniBridge
